import Mathlib

/-!
Shallow embedding of the needle dependency-injection container
(github.com/danpasecinic/needle): the dependency graph
(internal/graph), the service registry, the scope-aware resolver and
the sequential lifecycle orchestrator (internal/container).

Go maps are modelled as association lists whose order stands for the
(unspecified but fixed within a run) iteration order of the map; map
insert is replace-or-append, map delete is filter.  Go channels used
as instance pools are FIFO queues with an explicit capacity.  Provider
functions, hooks and decorators are opaque callbacks in Go; here a
provider is the outcome it produces at its invocation, a hook is an
identifier together with the outcome it produces, and a decorator is a
pure function on instances.  Every stateful operation additionally
returns a trace of events (provider invocations, decorator
applications, hook executions, observer emissions) so that claims
about what runs, and in which order, can be stated.

Concurrency (locks, goroutine groups of the parallel lifecycle mode,
the HasCycle result cache guarded by the graph mutex) is not
representable in a shallow embedding; the model corresponds to a
container with Parallel=false executing its operations sequentially,
which the source offers as the sequential fallback.
-/

namespace Needle

/-- Service scope, from internal/scope/scope.go. -/
inductive Scope where
  | singleton
  | transient
  | request
  | pooled
deriving DecidableEq, Repr

/-- Container lifecycle state, from internal/container (type State). -/
inductive CState where
  | new
  | starting
  | running
  | stopping
  | stopped
deriving DecidableEq, Repr

/-- Error taxonomy: the distinct error values produced with fmt.Errorf
in the modelled code paths. -/
inductive Err where
  | alreadyRegistered (key : String)
  | circularDependency (key : String)
  | circularResolution (key : String)
  | serviceNotFound (key : String)
  | nilProvider (key : String)
  | providerFailed (key : String) (cause : Err)
  | decoratorFailed (key : String) (cause : Err)
  | depFailed (dep : String) (key : String) (cause : Err)
  | onStartFailed (key : String) (cause : Err)
  | onStopFailed (key : String) (cause : Err)
  | scopeNotFound (key : String)
  | startResolveFailed (key : String) (cause : Err)
  | orderFailed (cause : Err)
  | alreadyStarted
  | shutdownErrors (errs : List Err)
  | shutdownTimeout
  | cycleDetected
  | userErr (msg : String)
  | outOfFuel

/-- Trace events: invocations of user callbacks and observer
emissions, recorded in execution order. -/
inductive Ev where
  | providerRun (key : String)
  | decoratorRun (key : String) (idx : Nat)
  | hookRun (id : String)
  | resolveEnter (key : String)
  | visitStart (key : String)
  | visitStop (key : String)
  | observeResolve (key : String) (ok : Bool)
  | observeStart (key : String) (ok : Bool)
  | observeStop (key : String) (ok : Bool)
  | observeProvide (key : String)
deriving DecidableEq, Repr

/-- A lifecycle hook: Go passes a closure; the model keeps the
identifier used in traces and the outcome the closure returns at this
run (none is success). -/
structure Hook where
  id : String
  res : Option Err

section AList

variable {α : Type}

/-- Lookup in a Go map modelled as an association list. -/
def alLookup : List (String × α) → String → Option α
  | [], _ => none
  | p :: t, k => if p.1 = k then some p.2 else alLookup t k

/-- Key membership in a Go map modelled as an association list. -/
def alHas : List (String × α) → String → Bool
  | [], _ => false
  | p :: t, k => if p.1 = k then true else alHas t k

/-- Update the value bound to a key, leaving the map unchanged when
the key is absent (the pattern `if entry, ok := m[k]; ok` used by all
registry mutators). -/
def alAdjust : List (String × α) → String → (α → α) → List (String × α)
  | [], _, _ => []
  | p :: t, k, f => (if p.1 = k then (p.1, f p.2) else p) :: alAdjust t k f

/-- Map assignment m[k] = v: replace the binding in place if the key
is present, otherwise append it. -/
def alInsert (l : List (String × α)) (k : String) (v : α) : List (String × α) :=
  if alHas l k then alAdjust l k (fun _ => v) else l ++ [(k, v)]

/-- Map deletion delete(m, k). -/
def alErase : List (String × α) → String → List (String × α)
  | [], _ => []
  | p :: t, k => if p.1 = k then alErase t k else p :: alErase t k

end AList

/-! ## The dependency graph (internal/graph)

The Go Graph keeps two maps updated in lockstep: `nodes` (key to
*Node) and `edges` (key to dependency slice); both always bind exactly
the same keys, so one association list models both.  The `cycleValid`
/ `hasCycle` cache guarded by the mutex is a concurrency optimisation
with no observable effect in a sequential run: `HasCycle()` is
modelled as the computation `hasCycleUnsafe` performs.  The recursive
DFS walks carry an explicit fuel so that the definitions stay
structurally recursive (the kernel can evaluate them); the fuel passed
by the entry points exceeds the depth any walk can reach, because each
nested visit permanently removes its node from the white set. -/

structure Graph where
  nodes : List (String × List String)

namespace Graph

/-- Graph.New(). -/
def empty : Graph := ⟨[]⟩

/-- Graph.AddNode: idempotent upsert of adjacency. -/
def addNode (g : Graph) (id : String) (deps : List String) : Graph :=
  ⟨alInsert g.nodes id deps⟩

/-- Graph.RemoveNode: delete the node and its adjacency. -/
def removeNode (g : Graph) (id : String) : Graph :=
  ⟨alErase g.nodes id⟩

/-- Graph.HasNode. -/
def hasNode (g : Graph) (id : String) : Bool :=
  alHas g.nodes id

/-- The adjacency read g.edges[id] (nil when absent). -/
def succs (g : Graph) (id : String) : List String :=
  (alLookup g.nodes id).getD []

/-- The node keys in iteration order. -/
def keys (g : Graph) : List String :=
  g.nodes.map Prod.fst

end Graph

/-- Colour state of the cycle DFS: the nodes still white and the
nodes currently gray (on the recursion path). -/
structure DfsSt where
  white : List String
  gray : List String
deriving DecidableEq, Repr

/-- The `for _, dep := range g.edges[id]` loop of hasCycleUnsafe's
dfs: skip missing nodes, report a cycle on a gray dependency, recurse
into white dependencies via `visit`. -/
def dfsDeps (visit : String → DfsSt → Bool × DfsSt) (g : Graph) :
    List String → DfsSt → Bool × DfsSt
  | [], st => (false, st)
  | dep :: rest, st =>
    if g.hasNode dep then
      if st.gray.contains dep then (true, st)
      else if st.white.contains dep then
        match visit dep st with
        | (true, st2) => (true, st2)
        | (false, st2) => dfsDeps visit g rest st2
      else dfsDeps visit g rest st
    else dfsDeps visit g rest st

/-- The recursive dfs of hasCycleUnsafe: blacken the node (drop it
from white), mark it gray, walk its dependencies, then clear gray. -/
def dfsVisit (g : Graph) : Nat → String → DfsSt → Bool × DfsSt
  | 0, _, st => (false, st)
  | fuel + 1, id, st =>
    let st1 : DfsSt := ⟨st.white.filter (fun x => x ≠ id), id :: st.gray⟩
    match dfsDeps (fun i s => dfsVisit g fuel i s) g (g.succs id) st1 with
    | (true, st2) => (true, st2)
    | (false, st2) => (false, ⟨st2.white, st2.gray.filter (fun x => x ≠ id)⟩)

/-- The outer `for id := range g.nodes` loop of hasCycleUnsafe. -/
def hasCycleLoop (g : Graph) : List String → DfsSt → Bool
  | [], _ => false
  | id :: rest, st =>
    if st.white.contains id then
      match dfsVisit g (g.keys.length + 1) id st with
      | (true, _) => true
      | (false, st2) => hasCycleLoop g rest st2
    else hasCycleLoop g rest st

/-- Graph.HasCycle, computing what hasCycleUnsafe computes (white set
initialised to every node, gray empty). -/
def Graph.hasCycle (g : Graph) : Bool :=
  hasCycleLoop g g.keys ⟨g.keys, []⟩

/-! Kahn's algorithm (Graph.TopologicalSort). -/

/-- Append id to dependents[dep], the Go
`dependents[dep] = append(dependents[dep], id)`. -/
def alAppendAt (l : List (String × List String)) (dep id : String) :
    List (String × List String) :=
  alInsert l dep ((alLookup l dep).getD [] ++ [id])

/-- First phase of TopologicalSort: build the reverse index and the
in-degrees by walking every edge whose target node exists. -/
def kahnBuild (g : Graph) : List (String × List String) × List (String × Int) :=
  let inDeg0 : List (String × Int) := g.nodes.map (fun p => (p.1, 0))
  g.nodes.foldl
    (fun acc p =>
      p.2.foldl
        (fun acc2 dep =>
          if g.hasNode dep then
            (alAppendAt acc2.1 dep p.1, alAdjust acc2.2 p.1 (fun d => d + 1))
          else acc2)
        acc)
    ([], inDeg0)

/-- The queue-processing loop of TopologicalSort: pop a node, append
it to sorted, decrement the in-degree of each of its dependents and
enqueue those that reach zero. -/
def kahnLoop (dependents : List (String × List String)) :
    Nat → List (String × Int) → List String → List String → List String
  | 0, _, _, sorted => sorted
  | _ + 1, _, [], sorted => sorted
  | fuel + 1, inDeg, node :: rest, sorted =>
    let st := ((alLookup dependents node).getD []).foldl
      (fun (acc : List (String × Int) × List String) d =>
        let inDeg2 := alAdjust acc.1 d (fun x => x - 1)
        if (alLookup inDeg2 d).getD 0 = 0 then (inDeg2, acc.2 ++ [d])
        else (inDeg2, acc.2))
      (inDeg, rest)
    kahnLoop dependents fuel st.1 st.2 (sorted ++ [node])

/-- Graph.TopologicalSort: Kahn's algorithm; when fewer nodes were
sorted than exist, a cycle remains. -/
def Graph.topologicalSort (g : Graph) : Except Err (List String) :=
  let bi := kahnBuild g
  let queue := (bi.2.filter (fun p => p.2 = 0)).map Prod.fst
  let sorted := kahnLoop bi.1 (g.keys.length + 1) bi.2 queue []
  if sorted.length = g.keys.length then .ok sorted else .error .cycleDetected

/-- Graph.ReverseTopologicalSort: the reverse of TopologicalSort. -/
def Graph.reverseTopologicalSort (g : Graph) : Except Err (List String) :=
  match g.topologicalSort with
  | .error e => .error e
  | .ok sorted => .ok sorted.reverse

/-- Graph.StartupOrder. -/
def Graph.startupOrder (g : Graph) : Except Err (List String) :=
  g.topologicalSort

/-- Graph.ShutdownOrder. -/
def Graph.shutdownOrder (g : Graph) : Except Err (List String) :=
  g.reverseTopologicalSort

/-! Graph.ResolutionOrder: DFS from a target that appends each node
after its dependencies and detects cycles along the DFS path. -/

/-- State of the ResolutionOrder DFS. -/
structure RoSt where
  visited : List String
  visiting : List String
  order : List String
deriving DecidableEq, Repr

/-- The dependency loop of ResolutionOrder's visit: skip dependencies
that are not nodes, propagate the first error. -/
def roDeps (visit : String → RoSt → Except Err RoSt) (g : Graph) :
    List String → RoSt → Except Err RoSt
  | [], st => .ok st
  | dep :: rest, st =>
    if g.hasNode dep then
      match visit dep st with
      | .error e => .error e
      | .ok st2 => roDeps visit g rest st2
    else roDeps visit g rest st

/-- The recursive visit of ResolutionOrder. -/
def roVisit (g : Graph) : Nat → String → RoSt → Except Err RoSt
  | 0, _, _ => .error .outOfFuel
  | fuel + 1, id, st =>
    if st.visiting.contains id then .error .cycleDetected
    else if st.visited.contains id then .ok st
    else
      let st1 : RoSt := { st with visiting := id :: st.visiting }
      match roDeps (fun i s => roVisit g fuel i s) g (g.succs id) st1 with
      | .error e => .error e
      | .ok st2 =>
        .ok { visited := id :: st2.visited,
              visiting := st2.visiting.filter (fun x => x ≠ id),
              order := st2.order ++ [id] }

/-- Graph.ResolutionOrder: a target that is not a node resolves to
just itself; otherwise DFS from the target. -/
def Graph.resolutionOrder (g : Graph) (target : String) : Except Err (List String) :=
  if g.hasNode target then
    match roVisit g (g.keys.length + 1) target ⟨[], [], []⟩ with
    | .error e => .error e
    | .ok st => .ok st.order
  else .ok [target]

/-! ## The service registry (internal/container, Registry)

A ServiceEntry mirrors the Go struct field by field.  The provider
closure is modelled by the outcome it produces when invoked; a nil
provider is none.  The Go `Instance any` starts as nil, modelled by
the Inhabited default of the instance type.  The pool channel is a
FIFO queue: some (capacity, contents) once SetPoolSize created it,
none while nil. -/

structure ServiceEntry (V : Type) where
  key : String
  provider : Option (Except Err V)
  instanceVal : V
  instantiated : Bool
  dependencies : List String
  onStart : List Hook
  onStop : List Hook
  scope : Scope
  poolSize : Int
  pool : Option (Nat × List V)
  lazy : Bool
  startRan : Bool

section RegistryOps

variable {V : Type} [Inhabited V]

namespace Registry

/-- The entry Registry.Register builds: provider and dependencies set,
every other field at its zero value (Scope zero value is Singleton). -/
def newEntry (key : String) (provider : Except Err V) (deps : List String) :
    ServiceEntry V :=
  { key := key, provider := some provider, instanceVal := default,
    instantiated := false, dependencies := deps, onStart := [], onStop := [],
    scope := .singleton, poolSize := 0, pool := none, lazy := false,
    startRan := false }

/-- The entry Registry.RegisterValue builds: instance stored and
instantiated set, no provider. -/
def valueEntry (key : String) (value : V) : ServiceEntry V :=
  { key := key, provider := none, instanceVal := value,
    instantiated := true, dependencies := [], onStart := [], onStop := [],
    scope := .singleton, poolSize := 0, pool := none, lazy := false,
    startRan := false }

/-- Registry.Register / RegisterUnsafe. -/
def register (r : List (String × ServiceEntry V)) (key : String)
    (provider : Except Err V) (deps : List String) :
    List (String × ServiceEntry V) :=
  alInsert r key (newEntry key provider deps)

/-- Registry.RegisterValue / RegisterValueUnsafe. -/
def registerValue (r : List (String × ServiceEntry V)) (key : String) (value : V) :
    List (String × ServiceEntry V) :=
  alInsert r key (valueEntry key value)

/-- Registry.Remove / RemoveUnsafe. -/
def remove (r : List (String × ServiceEntry V)) (key : String) :
    List (String × ServiceEntry V) :=
  alErase r key

/-- Registry.SetInstance: store the instance and raise the flag when
the entry exists. -/
def setInstance (r : List (String × ServiceEntry V)) (key : String) (v : V) :
    List (String × ServiceEntry V) :=
  alAdjust r key (fun e => { e with instanceVal := v, instantiated := true })

/-- Registry.AddOnStart. -/
def addOnStart (r : List (String × ServiceEntry V)) (key : String) (h : Hook) :
    List (String × ServiceEntry V) :=
  alAdjust r key (fun e => { e with onStart := e.onStart ++ [h] })

/-- Registry.AddOnStop. -/
def addOnStop (r : List (String × ServiceEntry V)) (key : String) (h : Hook) :
    List (String × ServiceEntry V) :=
  alAdjust r key (fun e => { e with onStop := e.onStop ++ [h] })

/-- Registry.SetScope. -/
def setScope (r : List (String × ServiceEntry V)) (key : String) (s : Scope) :
    List (String × ServiceEntry V) :=
  alAdjust r key (fun e => { e with scope := s })

/-- Registry.SetPoolSize: records the size and creates a fresh empty
pool of that capacity when the size is positive. -/
def setPoolSize (r : List (String × ServiceEntry V)) (key : String) (size : Int) :
    List (String × ServiceEntry V) :=
  alAdjust r key (fun e =>
    { e with poolSize := size,
             pool := if 0 < size then some (size.toNat, []) else e.pool })

/-- Registry.SetLazy. -/
def setLazy (r : List (String × ServiceEntry V)) (key : String) (l : Bool) :
    List (String × ServiceEntry V) :=
  alAdjust r key (fun e => { e with lazy := l })

/-- Registry.SetStartRan. -/
def setStartRan (r : List (String × ServiceEntry V)) (key : String) :
    List (String × ServiceEntry V) :=
  alAdjust r key (fun e => { e with startRan := true })

/-- Registry.IsLazy. -/
def isLazy (r : List (String × ServiceEntry V)) (key : String) : Bool :=
  match alLookup r key with
  | some e => e.lazy
  | none => false

/-- Registry.AcquireFromPool: non-blocking receive from the pool
channel; front of the queue is the oldest element. -/
def acquireFromPool (r : List (String × ServiceEntry V)) (key : String) :
    Option V × List (String × ServiceEntry V) :=
  match alLookup r key with
  | none => (none, r)
  | some e =>
    match e.pool with
    | none => (none, r)
    | some (_, []) => (none, r)
    | some (cap, x :: xs) =>
      (some x, alAdjust r key (fun e0 => { e0 with pool := some (cap, xs) }))

/-- Registry.ReleaseToPool: non-blocking send to the pool channel;
false when the entry or the pool is missing or the pool is full. -/
def releaseToPool (r : List (String × ServiceEntry V)) (key : String) (v : V) :
    Bool × List (String × ServiceEntry V) :=
  match alLookup r key with
  | none => (false, r)
  | some e =>
    match e.pool with
    | none => (false, r)
    | some (cap, xs) =>
      if xs.length < cap then
        (true, alAdjust r key (fun e0 => { e0 with pool := some (cap, xs ++ [v]) }))
      else (false, r)

end Registry

end RegistryOps

/-! ## The container and the resolver (internal/container)

The container state threads the registry, the graph, the lifecycle
state, the re-entrancy set and the decorator map.  The per-request
scope that Go carries inside the context is held as a container field
here (nothing in the modelled claims touches it).  The Resolve
recursion into dependencies is driven by an explicit fuel; the public
entry point passes registry-size + 1 fuel, which can never run out
because every nesting level adds its distinct registered key to the
re-entrancy set before recursing. -/

structure Container (V : Type) where
  registry : List (String × ServiceEntry V)
  graph : Graph
  state : CState
  resolving : List String
  decorators : List (String × List (V → Except Err V))
  reqScope : Option (List (String × V))

/-- The context passed to lifecycle operations; only its cancellation
state is observable to the modelled code (the shutdown deadline
check). -/
structure Ctx where
  canceled : Bool

/-- Result of a resolve: outcome, next container state, trace. -/
structure ROut (V : Type) where
  res : Except Err V
  c : Container V
  tr : List Ev

/-- Result of a lifecycle or dependency step: optional error, next
container state, trace. -/
structure LOut (V : Type) where
  err : Option Err
  c : Container V
  tr : List Ev

/-- Success test on an Except outcome. -/
def isOkE {ε α : Type} : Except ε α → Bool
  | .ok _ => true
  | .error _ => false

/-- Run OnStart hooks in registration order, stopping at the first
error (the loop in startService and runLazyStart). -/
def runHooksFwd : List Hook → Option Err × List Ev
  | [] => (none, [])
  | h :: rest =>
    match h.res with
    | some e => (some e, [.hookRun h.id])
    | none =>
      let r := runHooksFwd rest
      (r.1, .hookRun h.id :: r.2)

/-- Run OnStop hooks in reverse registration order, never aborting;
each failure overwrites the recorded stop error (the downward loop in
stopService). -/
def runHooksRev (key : String) (hooks : List Hook) : Option Err × List Ev :=
  hooks.reverse.foldl
    (fun acc h =>
      (match h.res with
       | some e => some (Err.onStopFailed key e)
       | none => acc.1,
       acc.2 ++ [Ev.hookRun h.id]))
    (none, [])

section ContainerOps

variable {V : Type} [Inhabited V]

/-- The loop of Container.applyDecorators over the decorator list of
one key, recording each application. -/
def applyDecoratorsLoop (key : String) :
    List (V → Except Err V) → Nat → V → Except Err V × List Ev
  | [], _, v => (.ok v, [])
  | d :: rest, idx, v =>
    match d v with
    | .error e => (.error (.decoratorFailed key e), [.decoratorRun key idx])
    | .ok v2 =>
      match applyDecoratorsLoop key rest (idx + 1) v2 with
      | (res, tr) => (res, .decoratorRun key idx :: tr)

/-- Container.applyDecorators. -/
def Container.applyDecorators (c : Container V) (key : String) (v : V) :
    Except Err V × List Ev :=
  applyDecoratorsLoop key ((alLookup c.decorators key).getD []) 0 v

/-- A resolver handle, standing for the recursive c.Resolve the scope
helpers call for dependencies. -/
abbrev ResolverFn (V : Type) := Container V → String → ROut V

/-- The `for _, dep := range entry.Dependencies` loop shared by the
scope resolvers: resolve each declared dependency, wrapping the first
failure. -/
def resolveDeps (rec : ResolverFn V) (key : String) :
    List String → Container V → LOut V
  | [], c => ⟨none, c, []⟩
  | dep :: rest, c =>
    match rec c dep with
    | ⟨.error e, c1, tr1⟩ => ⟨some (.depFailed dep key e), c1, tr1⟩
    | ⟨.ok _, c1, tr1⟩ =>
      match resolveDeps rec key rest c1 with
      | ⟨err2, c2, tr2⟩ => ⟨err2, c2, tr1 ++ tr2⟩

/-- Container.runLazyStart: run the OnStart hooks, record StartRan
whatever happened, emit the start observation. -/
def runLazyStart (c : Container V) (key : String) (entry : ServiceEntry V) :
    LOut V :=
  match runHooksFwd entry.onStart with
  | (some e, htr) =>
    ⟨some (.onStartFailed key e),
      { c with registry := Registry.setStartRan c.registry key },
      htr ++ [.observeStart key false]⟩
  | (none, htr) =>
    ⟨none, { c with registry := Registry.setStartRan c.registry key },
      htr ++ [.observeStart key true]⟩

/-- Container.resolveSingleton: return the cached instance when
instantiated; otherwise resolve dependencies, invoke the provider,
apply decorators, cache the instance, and for a lazy entry of a
running container whose start has not run, run the OnStart hooks. -/
def resolveSingleton (rec : ResolverFn V) (c : Container V) (key : String)
    (entry : ServiceEntry V) : ROut V :=
  if entry.instantiated then ⟨.ok entry.instanceVal, c, []⟩
  else
    match resolveDeps rec key entry.dependencies c with
    | ⟨some e, c1, tr1⟩ => ⟨.error e, c1, tr1⟩
    | ⟨none, c1, tr1⟩ =>
      match entry.provider with
      | none => ⟨.error (.nilProvider key), c1, tr1⟩
      | some (.error e) =>
        ⟨.error (.providerFailed key e), c1, tr1 ++ [.providerRun key]⟩
      | some (.ok v0) =>
        match c1.applyDecorators key v0 with
        | (.error e, dtr) =>
          ⟨.error e, c1, tr1 ++ [.providerRun key] ++ dtr⟩
        | (.ok v, dtr) =>
          if entry.lazy && !entry.startRan && decide (c1.state = CState.running) then
            match runLazyStart
                { c1 with registry := Registry.setInstance c1.registry key v }
                key entry with
            | ⟨some e, c2, ltr⟩ =>
              ⟨.error e, c2, tr1 ++ [.providerRun key] ++ dtr ++ ltr⟩
            | ⟨none, c2, ltr⟩ =>
              ⟨.ok v, c2, tr1 ++ [.providerRun key] ++ dtr ++ ltr⟩
          else
            ⟨.ok v, { c1 with registry := Registry.setInstance c1.registry key v },
              tr1 ++ [.providerRun key] ++ dtr⟩

/-- Container.resolveTransient: construct anew on every call, no
caching. -/
def resolveTransient (rec : ResolverFn V) (c : Container V) (key : String)
    (entry : ServiceEntry V) : ROut V :=
  match resolveDeps rec key entry.dependencies c with
  | ⟨some e, c1, tr1⟩ => ⟨.error e, c1, tr1⟩
  | ⟨none, c1, tr1⟩ =>
    match entry.provider with
    | none => ⟨.error (.nilProvider key), c1, tr1⟩
    | some (.error e) =>
      ⟨.error (.providerFailed key e), c1, tr1 ++ [.providerRun key]⟩
    | some (.ok v0) =>
      match c1.applyDecorators key v0 with
      | (.error e, dtr) =>
        ⟨.error e, c1, tr1 ++ [.providerRun key] ++ dtr⟩
      | (.ok v, dtr) =>
        ⟨.ok v, c1, tr1 ++ [.providerRun key] ++ dtr⟩

/-- Container.resolveRequest: require a request scope, serve from it
when it already holds the key, otherwise construct and store. -/
def resolveRequest (rec : ResolverFn V) (c : Container V) (key : String)
    (entry : ServiceEntry V) : ROut V :=
  match c.reqScope with
  | none => ⟨.error (.scopeNotFound key), c, []⟩
  | some rs =>
    match alLookup rs key with
    | some v => ⟨.ok v, c, []⟩
    | none =>
      match resolveDeps rec key entry.dependencies c with
      | ⟨some e, c1, tr1⟩ => ⟨.error e, c1, tr1⟩
      | ⟨none, c1, tr1⟩ =>
        match entry.provider with
        | none => ⟨.error (.nilProvider key), c1, tr1⟩
        | some (.error e) =>
          ⟨.error (.providerFailed key e), c1, tr1 ++ [.providerRun key]⟩
        | some (.ok v0) =>
          match c1.applyDecorators key v0 with
          | (.error e, dtr) =>
            ⟨.error e, c1, tr1 ++ [.providerRun key] ++ dtr⟩
          | (.ok v, dtr) =>
            ⟨.ok v,
              { c1 with reqScope :=
                  match c1.reqScope with
                  | none => some (alInsert rs key v)
                  | some rs1 => some (alInsert rs1 key v) },
              tr1 ++ [.providerRun key] ++ dtr⟩

/-- Container.resolvePooled: serve from the pool when it has an
instance, otherwise construct as a transient; the fresh instance is
not put into the pool. -/
def resolvePooled (rec : ResolverFn V) (c : Container V) (key : String)
    (entry : ServiceEntry V) : ROut V :=
  match Registry.acquireFromPool c.registry key with
  | (some v, reg2) => ⟨.ok v, { c with registry := reg2 }, []⟩
  | (none, _) =>
    match resolveDeps rec key entry.dependencies c with
    | ⟨some e, c1, tr1⟩ => ⟨.error e, c1, tr1⟩
    | ⟨none, c1, tr1⟩ =>
      match entry.provider with
      | none => ⟨.error (.nilProvider key), c1, tr1⟩
      | some (.error e) =>
        ⟨.error (.providerFailed key e), c1, tr1 ++ [.providerRun key]⟩
      | some (.ok v0) =>
        match c1.applyDecorators key v0 with
        | (.error e, dtr) =>
          ⟨.error e, c1, tr1 ++ [.providerRun key] ++ dtr⟩
        | (.ok v, dtr) =>
          ⟨.ok v, c1, tr1 ++ [.providerRun key] ++ dtr⟩

/-- Container.resolveWithScope: dispatch on the entry scope (the Go
default branch also resolves as a singleton; the match is total
here). -/
def resolveWithScope (rec : ResolverFn V) (c : Container V) (key : String)
    (entry : ServiceEntry V) : ROut V :=
  match entry.scope with
  | .singleton => resolveSingleton rec c key entry
  | .transient => resolveTransient rec c key entry
  | .request => resolveRequest rec c key entry
  | .pooled => resolvePooled rec c key entry

/-- The body of Container.Resolve: re-entrancy guard, registry lookup,
scope dispatch; the deferred delete removes the key from the resolving
set on every exit path after the guard, and every resolve emits its
observation. -/
def resolveBody (rec : ResolverFn V) (c : Container V) (key : String) : ROut V :=
  if c.resolving.contains key then
    ⟨.error (.circularResolution key), c,
      [.resolveEnter key, .observeResolve key false]⟩
  else
    match alLookup c.registry key with
    | none =>
      ⟨.error (.serviceNotFound key),
        { c with resolving := (key :: c.resolving).filter (fun x => x ≠ key) },
        [.resolveEnter key, .observeResolve key false]⟩
    | some entry =>
      match resolveWithScope rec { c with resolving := key :: c.resolving } key entry with
      | ⟨res, c2, tr2⟩ =>
        ⟨res, { c2 with resolving := c2.resolving.filter (fun x => x ≠ key) },
          .resolveEnter key :: tr2 ++ [.observeResolve key (isOkE res)]⟩

/-- Fuel-indexed recursive resolve. -/
def resolveFuel : Nat → Container V → String → ROut V
  | 0, c, _ => ⟨.error .outOfFuel, c, []⟩
  | fuel + 1, c, key => resolveBody (resolveFuel fuel) c key

/-- Container.Resolve: the public entry point. -/
def Container.resolve (c : Container V) (key : String) : ROut V :=
  resolveFuel (c.registry.length + 1) c key

/-- Container.Register, from the container source that inserts into
registry and graph, tests HasCycle and rolls both back on failure. -/
def Container.register (c : Container V) (key : String)
    (provider : Except Err V) (deps : List String) :
    Except Err Unit × Container V × List Ev :=
  if alHas c.registry key then (.error (.alreadyRegistered key), c, [])
  else if (c.graph.addNode key deps).hasCycle then
    (.error (.circularDependency key),
      { c with registry := Registry.remove
                 (Registry.register c.registry key provider deps) key,
               graph := (c.graph.addNode key deps).removeNode key }, [])
  else
    (.ok (),
      { c with registry := Registry.register c.registry key provider deps,
               graph := c.graph.addNode key deps }, [.observeProvide key])

/-- Container.RegisterValue. -/
def Container.registerValue (c : Container V) (key : String) (value : V) :
    Except Err Unit × Container V × List Ev :=
  if alHas c.registry key then (.error (.alreadyRegistered key), c, [])
  else
    (.ok (),
      { c with registry := Registry.registerValue c.registry key value,
               graph := c.graph.addNode key [] }, [.observeProvide key])

/-- Container.Release. -/
def Container.release (c : Container V) (key : String) (v : V) :
    Bool × Container V :=
  match Registry.releaseToPool c.registry key v with
  | (ok, reg2) => (ok, { c with registry := reg2 })

/-- Container.AddOnStart. -/
def Container.addOnStart (c : Container V) (key : String) (h : Hook) : Container V :=
  { c with registry := Registry.addOnStart c.registry key h }

/-- Container.AddOnStop. -/
def Container.addOnStop (c : Container V) (key : String) (h : Hook) : Container V :=
  { c with registry := Registry.addOnStop c.registry key h }

/-- Container.SetScope. -/
def Container.setScope (c : Container V) (key : String) (s : Scope) : Container V :=
  { c with registry := Registry.setScope c.registry key s }

/-- Container.SetPoolSize. -/
def Container.setPoolSize (c : Container V) (key : String) (size : Int) : Container V :=
  { c with registry := Registry.setPoolSize c.registry key size }

/-- Container.SetLazy. -/
def Container.setLazy (c : Container V) (key : String) (l : Bool) : Container V :=
  { c with registry := Registry.setLazy c.registry key l }

/-- Container.AddDecorator. -/
def Container.addDecorator (c : Container V) (key : String)
    (d : V → Except Err V) : Container V :=
  { c with decorators :=
      alInsert c.decorators key ((alLookup c.decorators key).getD [] ++ [d]) }

/-! ## The sequential lifecycle orchestrator -/

/-- Container.startService: skip lazy entries, resolve, run the
OnStart hooks in order stopping at the first error, record StartRan,
emit the start observation. -/
def startService (c : Container V) (key : String) : LOut V :=
  if Registry.isLazy c.registry key then ⟨none, c, []⟩
  else
    match c.resolve key with
    | ⟨.error e, c1, tr1⟩ =>
      ⟨some (.startResolveFailed key e), c1, tr1 ++ [.observeStart key false]⟩
    | ⟨.ok _, c1, tr1⟩ =>
      match alLookup c1.registry key with
      | none => ⟨none, c1, tr1⟩
      | some entry =>
        match runHooksFwd entry.onStart with
        | (some e, htr) =>
          ⟨some (.onStartFailed key e),
            { c1 with registry := Registry.setStartRan c1.registry key },
            tr1 ++ htr ++ [.observeStart key false]⟩
        | (none, htr) =>
          ⟨none, { c1 with registry := Registry.setStartRan c1.registry key },
            tr1 ++ htr ++ [.observeStart key true]⟩

/-- The `for _, key := range order` loop of startSequential, stopping
at the first failing service.  Each iteration is marked with a
visitStart event. -/
def startSeqLoop : Container V → List String → LOut V
  | c, [] => ⟨none, c, []⟩
  | c, key :: rest =>
    match startService c key with
    | ⟨some e, c1, tr1⟩ => ⟨some e, c1, .visitStart key :: tr1⟩
    | ⟨none, c1, tr1⟩ =>
      match startSeqLoop c1 rest with
      | ⟨err2, c2, tr2⟩ => ⟨err2, c2, .visitStart key :: tr1 ++ tr2⟩

/-- Container.startSequential. -/
def startSequential (c : Container V) : LOut V :=
  match c.graph.startupOrder with
  | .error e => ⟨some (.orderFailed e), c, []⟩
  | .ok order => startSeqLoop c order

/-- Container.Start, sequential mode: only from New or Stopped;
transition to Starting, run the services, transition to Running on
success (a failure leaves the container in Starting). -/
def Container.start (c : Container V) : LOut V :=
  if c.state = CState.new ∨ c.state = CState.stopped then
    match startSequential { c with state := CState.starting } with
    | ⟨some e, c1, tr1⟩ => ⟨some e, c1, tr1⟩
    | ⟨none, c1, tr1⟩ => ⟨none, { c1 with state := CState.running }, tr1⟩
  else ⟨some .alreadyStarted, c, []⟩

/-- Container.stopService: skip entries that are missing or were never
instantiated; run the OnStop hooks in reverse order, collecting but
not aborting on failures; emit the stop observation. -/
def stopService (c : Container V) (key : String) : LOut V :=
  match alLookup c.registry key with
  | none => ⟨none, c, []⟩
  | some entry =>
    if entry.instantiated then
      match runHooksRev key entry.onStop with
      | (err, htr) => ⟨err, c, htr ++ [.observeStop key err.isNone]⟩
    else ⟨none, c, []⟩

/-- The `for _, key := range order` loop of stopSequential: check the
deadline before each service, collect per-service errors, keep going.
Each visited iteration is marked with a visitStop event. -/
def stopSeqLoop (ctx : Ctx) : Container V → List String → List Err × Container V × List Ev
  | c, [] => ([], c, [])
  | c, key :: rest =>
    if ctx.canceled then ([.shutdownTimeout], c, [])
    else
      match stopService c key with
      | ⟨err1, c1, tr1⟩ =>
        match stopSeqLoop ctx c1 rest with
        | (errs2, c2, tr2) =>
          ((match err1 with | some e => [e] | none => []) ++ errs2, c2,
            .visitStop key :: tr1 ++ tr2)

/-- Container.stopSequential. -/
def stopSequential (ctx : Ctx) (c : Container V) : List Err × Container V × List Ev :=
  match c.graph.shutdownOrder with
  | .error e => ([.orderFailed e], c, [])
  | .ok order => stopSeqLoop ctx c order

/-- Container.Stop, sequential mode: a no-op success unless Running;
otherwise transition to Stopping, run the reverse order, and land in
Stopped whatever errors were collected. -/
def Container.stop (c : Container V) (ctx : Ctx) : LOut V :=
  if c.state = CState.running then
    match stopSequential ctx { c with state := CState.stopping } with
    | (errs, c1, tr) =>
      ⟨if errs.isEmpty then none else some (.shutdownErrors errs),
        { c1 with state := CState.stopped }, tr⟩
  else ⟨none, c, []⟩

end ContainerOps

/-! ## Frame lemmas: what a resolve can and cannot touch -/

/-! Definitions supporting the verification: the frame relation, event
extractors, concrete example containers, Tarjan's cycle detector and the
abstract cycle predicates. -/

section FrameDefs

variable {V : Type} [Inhabited V]

def frameEq (c c' : Container V) : Prop :=
  c'.state = c.state ∧ c'.graph = c.graph ∧ c'.decorators = c.decorators ∧
    c'.resolving = c.resolving

end FrameDefs

/-! Hook-order specifications for C5. -/

/-- The hooks that a forward OnStart run actually executes: the
longest all-successful prefix followed by the first failing hook when
one exists. -/
def execdFwd (hooks : List Hook) : List Hook :=
  hooks.takeWhile (fun h => h.res.isNone) ++
    ((hooks.dropWhile (fun h => h.res.isNone)).head?).toList

/-- The outcome of the first failing hook in registration order. -/
def firstFailRes (hooks : List Hook) : Option Err :=
  ((hooks.dropWhile (fun h => h.res.isNone)).head?).bind Hook.res

/-- The concrete container of the C5 witness: a value entry X with two
OnStart hooks (the second fails) plus a third never reached, and two
OnStop hooks. -/
def hookOrderExample : Container String :=
  (((((⟨[], Graph.empty, CState.new, [], [], none⟩ :
      Container String).registerValue "X" "x").2.1.addOnStart "X"
      ⟨"s1", none⟩).addOnStart "X" ⟨"s2", some (Err.userErr "boom")⟩).addOnStart
      "X" ⟨"s3", none⟩).addOnStop "X" ⟨"t1", none⟩ |>.addOnStop "X" ⟨"t2", none⟩

/-! Visit-trace extraction for C4. -/

/-- The keys of the visitStart markers of a trace, in order: the
services the sequential start loop iterated over. -/
def visitStartKeys (tr : List Ev) : List String :=
  tr.filterMap (fun e => match e with | .visitStart k => some k | _ => none)

/-- The keys of the visitStop markers of a trace, in order: the
services the sequential stop loop iterated over. -/
def visitStopKeys (tr : List Ev) : List String :=
  tr.filterMap (fun e => match e with | .visitStop k => some k | _ => none)

/-- A two-service container: b depends on a, both with trivial
providers; the startup order is [a, b]. -/
def c4Example : Container Nat :=
  ((((⟨[], Graph.empty, CState.new, [], [], none⟩ : Container Nat).register
      "a" (Except.ok 1) []).2.1).register
      "b" (Except.ok 2) ["a"]).2.1

/-- The concrete lazy container of the C3 counterexample: lazy entry L
whose OnStart hook fails, observed while the container is Running. -/
def lazyStartFailExample : Container String :=
  { ((((⟨[], Graph.empty, CState.new, [], [], none⟩ :
        Container String).register "L" (Except.ok "l") []).2.1.setLazy "L"
        true).addOnStart "L" ⟨"h1", some (Err.userErr "boom")⟩) with
    state := CState.running }

/-- The concrete container of the C3 witness: a singleton provider
that fails. -/
def providerFailExample : Container String :=
  ((⟨[], Graph.empty, CState.new, [], [], none⟩ : Container String).register
    "F" (Except.error (Err.userErr "boom")) []).2.1

/-- The concrete singleton container of the C2 witness: one provider
for key S. -/
def singletonCachedExample : Container String :=
  ((⟨[], Graph.empty, CState.new, [], [], none⟩ : Container String).register
    "S" (Except.ok "s") []).2.1

/-- The concrete pooled container of the C7 counterexample: key P with
scope Pooled and pool size 2. -/
def pooledFifoExample : Container String :=
  (((⟨[], Graph.empty, CState.new, [], [], none⟩ : Container String).register
    "P" (Except.ok "fresh") []).2.1.setScope "P" Scope.pooled).setPoolSize "P" 2

/-- The container state reached after registering A with a declared
dependency on B, used as the concrete input of the C1 witness. -/
def registerRollbackExample : Container String :=
  ((⟨[], Graph.empty, CState.new, [], [], none⟩ : Container String).register
    "A" (Except.ok "a") ["B"]).2.1

/-! ## Cycle detection: Tarjan's DetectCycles, an abstract cycle predicate,
and the equivalence between the white-gray DFS HasCycle and DetectCycles. -/

structure TarSt where
  index : Nat
  stack : List String
  onStack : List String
  indices : List (String × Nat)
  lowlink : List (String × Nat)
  sccs : List (List String)

def scDeps (visit : String → TarSt → TarSt) (g : Graph) (id : String) :
    List String → TarSt → TarSt
  | [], st => st
  | dep :: rest, st =>
    if g.hasNode dep then
      match alLookup st.indices dep with
      | none =>
        match visit dep st with
        | st2 =>
          scDeps visit g id rest
            { st2 with lowlink := alInsert st2.lowlink id (min ((alLookup st2.lowlink id).getD 0) ((alLookup st2.lowlink dep).getD 0)) }
      | some depIdx =>
        if st.onStack.contains dep then
          scDeps visit g id rest
            { st with lowlink := alInsert st.lowlink id
                          (min ((alLookup st.lowlink id).getD 0) depIdx) }
        else scDeps visit g id rest st
    else scDeps visit g id rest st

def popScc (id : String) : List String → List String × List String
  | [] => ([], [])
  | w :: rest =>
    if w = id then ([w], rest)
    else
      match popScc id rest with
      | (scc, rest2) => (w :: scc, rest2)

def strongConnect (g : Graph) : Nat → String → TarSt → TarSt
  | 0, _, st => st
  | fuel + 1, id, st =>
    match scDeps (strongConnect g fuel) g id (g.succs id)
        { st with indices := alInsert st.indices id st.index,
                  lowlink := alInsert st.lowlink id st.index,
                  index := st.index + 1,
                  stack := id :: st.stack,
                  onStack := id :: st.onStack } with
    | st2 =>
      if (alLookup st2.lowlink id).getD 0 = (alLookup st2.indices id).getD 0 then
        match popScc id st2.stack with
        | (scc, rest) =>
          { st2 with stack := rest, onStack := st2.onStack.filter (fun w => !scc.contains w), sccs := st2.sccs ++ [scc] }
      else st2

def detectLoop (g : Graph) : List String → TarSt → TarSt
  | [], st => st
  | id :: rest, st =>
    match alLookup st.indices id with
    | none => detectLoop g rest (strongConnect g (g.keys.length + 1) id st)
    | some _ => detectLoop g rest st

def sccIsCycle (g : Graph) (scc : List String) : Bool :=
  match scc with
  | [] => false
  | [id] => (g.succs id).contains id
  | _ :: _ :: _ => true

def Graph.detectCycles (g : Graph) : List (List String) :=
  (detectLoop g g.keys ⟨0, [], [], [], [], []⟩).sccs.filter (sccIsCycle g)


/-! ## Abstract cycles -/

def edgeOK (g : Graph) (a b : String) : Prop :=
  g.hasNode a = true ∧ g.hasNode b = true ∧ b ∈ g.succs a

def cyclicG (g : Graph) : Prop :=
  ∃ x, Relation.TransGen (edgeOK g) x x

/-! ## Direction B: if the white-gray DFS reports false, the graph is acyclic -/

def Blacks (g : Graph) (st : DfsSt) (x : String) : Prop :=
  g.hasNode x = true ∧ x ∉ st.white ∧ x ∉ st.gray

def DInvB (g : Graph) (st : DfsSt) : Prop :=
  ∀ b, Blacks g st b → ∀ dep, edgeOK g b dep → Blacks g st dep

def DAcyB (g : Graph) (st : DfsSt) : Prop :=
  ∀ x, Blacks g st x → ¬ Relation.TransGen (edgeOK g) x x

/-! ## Tarjan: the structural invariant -/

def uvT (g : Graph) (st : TarSt) : Nat :=
  (g.keys.filter (fun k => (alLookup st.indices k).isNone)).length

structure TInv (g : Graph) (st : TarSt) : Prop where
  so : ∀ x, x ∈ st.stack ↔ x ∈ st.onStack
  nd : st.stack.Nodup
  stk_idx : ∀ w ∈ st.stack, ∃ j, alLookup st.indices w = some j ∧ j < st.index
  idx_lt : ∀ k j, alLookup st.indices k = some j → j < st.index
  sorted : st.stack.Pairwise (fun a b => ∀ ja jb,
    alLookup st.indices a = some ja → alLookup st.indices b = some jb → jb < ja)
  stk_node : ∀ w ∈ st.stack, g.hasNode w = true

/-! ## Direction C: on an acyclic graph Tarjan emits only trivial components -/

structure CPost (g : Graph) (st st' : TarSt) (id : String) : Prop where
  stack_eq : st'.stack = st.stack
  onStack_eq : st'.onStack = st.onStack
  idx_id : alLookup st'.indices id = some st.index
  low_id : alLookup st'.lowlink id = some st.index
  idx_pres : ∀ k, (alLookup st.indices k).isSome = true →
    alLookup st'.indices k = alLookup st.indices k
  low_pres : ∀ k, (alLookup st.indices k).isSome = true → k ≠ id →
    alLookup st'.lowlink k = alLookup st.lowlink k
  ctr_lt : st.index < st'.index
  idx_new : ∀ k j, alLookup st'.indices k = some j →
    alLookup st.indices k = some j ∨ st.index ≤ j
  sccs_ext : ∃ ext, st'.sccs = st.sccs ++ ext ∧ ∀ s ∈ ext, sccIsCycle g s = false
  inv : TInv g st'

structure CWPost (g : Graph) (st st' : TarSt) (id : String) (idIdx : Nat) : Prop where
  stack_eq : st'.stack = st.stack
  onStack_eq : st'.onStack = st.onStack
  idx_id : alLookup st'.indices id = some idIdx
  low_id : alLookup st'.lowlink id = some idIdx
  idx_pres : ∀ k, (alLookup st.indices k).isSome = true →
    alLookup st'.indices k = alLookup st.indices k
  low_pres : ∀ k, (alLookup st.indices k).isSome = true → k ≠ id →
    alLookup st'.lowlink k = alLookup st.lowlink k
  ctr_le : st.index ≤ st'.index
  idx_new : ∀ k j, alLookup st'.indices k = some j →
    alLookup st.indices k = some j ∨ st.index ≤ j
  sccs_ext : ∃ ext, st'.sccs = st.sccs ++ ext ∧ ∀ s ∈ ext, sccIsCycle g s = false
  inv : TInv g st'

/-! ## Direction D: if Tarjan emits only trivial components, the graph is acyclic -/

def Popped (st : TarSt) (x : String) : Prop :=
  (alLookup st.indices x).isSome = true ∧ x ∉ st.onStack

def PInv (g : Graph) (st : TarSt) : Prop :=
  ∀ b, Popped st b → ∀ dep, edgeOK g b dep → Popped st dep

def PAcy (g : Graph) (st : TarSt) : Prop :=
  ∀ x, Popped st x → ¬ Relation.TransGen (edgeOK g) x x

def SccsPopped (st : TarSt) : Prop :=
  ∀ s ∈ st.sccs, ∀ x ∈ s, Popped st x

structure DPost (g : Graph) (st st' : TarSt) (id : String) : Prop where
  idx_id : alLookup st'.indices id = some st.index
  idx_pres : ∀ k, (alLookup st.indices k).isSome = true →
    alLookup st'.indices k = alLookup st.indices k
  low_pres : ∀ k, (alLookup st.indices k).isSome = true → k ≠ id →
    alLookup st'.lowlink k = alLookup st.lowlink k
  ctr_lt : st.index < st'.index
  idx_new : ∀ k j, alLookup st'.indices k = some j →
    alLookup st.indices k = some j ∨ st.index ≤ j
  stack_suffix : ∃ left, st'.stack = left ++ st.stack ∧
    ∀ w ∈ left, ∃ j, alLookup st'.indices w = some j ∧ st.index ≤ j
  sccs_ext : ∃ ext, st'.sccs = st.sccs ++ ext
  inv : TInv g st'
  pinv : PInv g st'
  pacy : PAcy g st'
  spop : SccsPopped st'
  pmono : ∀ x, Popped st x → Popped st' x
  dich : (st'.stack = st.stack ∧ Popped st' id ∧
      alLookup st'.lowlink id = some st.index) ∨
    (∃ j w, alLookup st'.lowlink id = some j ∧ j < st.index ∧
      w ∈ st.stack ∧ alLookup st.indices w = some j)

structure DWPost (g : Graph) (st st' : TarSt) (id : String) (idIdx : Nat)
    (base : List String) (deps : List String) : Prop where
  idx_id : alLookup st'.indices id = some idIdx
  idx_pres : ∀ k, (alLookup st.indices k).isSome = true →
    alLookup st'.indices k = alLookup st.indices k
  low_pres : ∀ k, (alLookup st.indices k).isSome = true → k ≠ id →
    alLookup st'.lowlink k = alLookup st.lowlink k
  ctr_le : st.index ≤ st'.index
  idx_new : ∀ k j, alLookup st'.indices k = some j →
    alLookup st.indices k = some j ∨ st.index ≤ j
  stack_left : ∃ left, st'.stack = left ++ id :: base ∧
    ∀ w ∈ left, ∃ j, alLookup st'.indices w = some j ∧ idIdx < j
  sccs_ext : ∃ ext, st'.sccs = st.sccs ++ ext
  inv : TInv g st'
  pinv : PInv g st'
  pacy : PAcy g st'
  spop : SccsPopped st'
  pmono : ∀ x, Popped st x → Popped st' x
  winv : alLookup st'.lowlink id = some idIdx ∨
    (∃ j w, alLookup st'.lowlink id = some j ∧ j < idIdx ∧
      w ∈ base ∧ alLookup st'.indices w = some j)
  low_mono : ∀ jw j2, alLookup st.lowlink id = some jw →
    alLookup st'.lowlink id = some j2 → j2 ≤ jw
  df : ∀ d ∈ deps, g.hasNode d = true →
    (alLookup st'.indices d).isSome = true ∧
    (d ∈ base → ∃ j, alLookup st'.lowlink id = some j ∧ j < idIdx)

/-! ## The equivalence -/

def sccSpecCycle (g : Graph) : Prop :=
  (∃ a b, a ≠ b ∧ Relation.ReflTransGen (edgeOK g) a b ∧
    Relation.ReflTransGen (edgeOK g) b a) ∨ (∃ a, edgeOK g a a)

/-! ## Theorems -/

section AListLemmas

variable {α : Type}

theorem alHas_eq_false {l : List (String × α)} {k : String}
    (h : k ∉ l.map Prod.fst) : alHas l k = false := by
  induction l with
  | nil => rfl
  | cons p t ih =>
    simp only [List.map_cons, List.mem_cons] at h
    push_neg at h
    rw [alHas, if_neg (fun hc => h.1 hc.symm)]
    exact ih h.2

theorem alInsert_of_not_mem {l : List (String × α)} {k : String} (v : α)
    (h : k ∉ l.map Prod.fst) : alInsert l k v = l ++ [(k, v)] := by
  simp [alInsert, alHas_eq_false h]

theorem alErase_append_self {l : List (String × α)} {k : String} {v : α}
    (h : k ∉ l.map Prod.fst) : alErase (l ++ [(k, v)]) k = l := by
  induction l with
  | nil => simp [alErase]
  | cons p t ih =>
    simp only [List.map_cons, List.mem_cons] at h
    push_neg at h
    rw [List.cons_append, alErase, if_neg (fun hc => h.1 hc.symm), ih h.2]

theorem alErase_alInsert_of_not_mem {l : List (String × α)} {k : String} {v : α}
    (h : k ∉ l.map Prod.fst) : alErase (alInsert l k v) k = l := by
  rw [alInsert_of_not_mem v h, alErase_append_self h]

theorem alAdjust_of_not_mem {l : List (String × α)} {k : String} {f : α → α}
    (h : k ∉ l.map Prod.fst) : alAdjust l k f = l := by
  induction l with
  | nil => rfl
  | cons p t ih =>
    simp only [List.map_cons, List.mem_cons] at h
    push_neg at h
    rw [alAdjust, if_neg (fun hc => h.1 hc.symm), ih h.2]

theorem alLookup_alAdjust_self (l : List (String × α)) (k : String) (f : α → α) :
    alLookup (alAdjust l k f) k = (alLookup l k).map f := by
  induction l with
  | nil => rfl
  | cons p t ih =>
    by_cases hp : p.1 = k
    · rw [alAdjust, if_pos hp, alLookup, if_pos hp, alLookup, if_pos hp]; rfl
    · rw [alAdjust, if_neg hp, alLookup, if_neg hp, alLookup, if_neg hp, ih]

theorem alLookup_alAdjust_ne (l : List (String × α)) {k k₀ : String} (f : α → α)
    (h : k₀ ≠ k) : alLookup (alAdjust l k f) k₀ = alLookup l k₀ := by
  induction l with
  | nil => rfl
  | cons p t ih =>
    by_cases hp : p.1 = k
    · have hq : ¬((p.1, f p.2).1 = k₀) := fun hc => h (by rw [← hc]; exact hp)
      rw [alAdjust, if_pos hp, alLookup, if_neg hq, alLookup,
        if_neg (fun hc : p.1 = k₀ => h (hp ▸ hc ▸ rfl)), ih]
    · rw [alAdjust, if_neg hp, alLookup, alLookup]
      by_cases hq : p.1 = k₀
      · rw [if_pos hq, if_pos hq]
      · rw [if_neg hq, if_neg hq, ih]

theorem alHas_alAdjust (l : List (String × α)) (k k₀ : String) (f : α → α) :
    alHas (alAdjust l k f) k₀ = alHas l k₀ := by
  induction l with
  | nil => rfl
  | cons p t ih =>
    by_cases hp : p.1 = k
    · rw [alAdjust, if_pos hp]
      by_cases hq : p.1 = k₀
      · rw [alHas, if_pos hq, alHas, if_pos hq]
      · rw [alHas, if_neg hq, alHas, if_neg hq, ih]
    · rw [alAdjust, if_neg hp]
      by_cases hq : p.1 = k₀
      · rw [alHas, if_pos hq, alHas, if_pos hq]
      · rw [alHas, if_neg hq, alHas, if_neg hq, ih]

theorem alLookup_append_self {l : List (String × α)} {k : String} (v : α)
    (h : k ∉ l.map Prod.fst) : alLookup (l ++ [(k, v)]) k = some v := by
  induction l with
  | nil => simp [alLookup]
  | cons p t ih =>
    simp only [List.map_cons, List.mem_cons] at h
    push_neg at h
    rw [List.cons_append, alLookup, if_neg (fun hc => h.1 hc.symm), ih h.2]

theorem alLookup_isSome_of_alHas {l : List (String × α)} {k : String}
    (h : alHas l k = true) : (alLookup l k).isSome = true := by
  induction l with
  | nil => simp [alHas] at h
  | cons p t ih =>
    by_cases hp : p.1 = k
    · rw [alLookup, if_pos hp]; rfl
    · rw [alHas, if_neg hp] at h
      rw [alLookup, if_neg hp]
      exact ih h

theorem alHas_of_alLookup_isSome {l : List (String × α)} {k : String}
    (h : (alLookup l k).isSome = true) : alHas l k = true := by
  induction l with
  | nil => simp [alLookup] at h
  | cons p t ih =>
    by_cases hp : p.1 = k
    · rw [alHas, if_pos hp]
    · rw [alLookup, if_neg hp] at h
      rw [alHas, if_neg hp]
      exact ih h

end AListLemmas

theorem filter_ne_of_not_mem {l : List String} {k : String} (h : k ∉ l) :
    l.filter (fun x => x ≠ k) = l := by
  induction l with
  | nil => rfl
  | cons a t ih =>
    simp only [List.mem_cons] at h
    push_neg at h
    rw [List.filter_cons, if_pos (by simpa using fun hc => h.1 hc.symm), ih h.2]

theorem not_mem_of_contains_eq_false {l : List String} {a : String}
    (h : l.contains a = false) : a ∉ l := by
  intro hm
  have ht : l.contains a = true := by
    simpa [List.contains] using List.elem_iff.mpr hm
  rw [ht] at h
  exact absurd h (by simp)

section FrameLemmas

variable {V : Type} [Inhabited V]





/-- The container fields a resolve leaves untouched (or, for the
re-entrancy set, restores on exit): lifecycle state, graph, decorator
map, resolving set. -/
theorem frameEq_refl (c : Container V) : frameEq c c := ⟨rfl, rfl, rfl, rfl⟩

theorem frameEq_trans {a b c : Container V} (h1 : frameEq a b) (h2 : frameEq b c) :
    frameEq a c :=
  ⟨h2.1.trans h1.1, h2.2.1.trans h1.2.1, h2.2.2.1.trans h1.2.2.1,
    h2.2.2.2.trans h1.2.2.2⟩

theorem frameEq_setReg {c c' : Container V} (r : List (String × ServiceEntry V))
    (h : frameEq c c') : frameEq c { c' with registry := r } := h

theorem frameEq_setReq {c c' : Container V} (rs : Option (List (String × V)))
    (h : frameEq c c') : frameEq c { c' with reqScope := rs } := h

theorem frameEq_resolveDeps {rec : ResolverFn V} (key : String)
    (hrec : ∀ c k, frameEq c ((rec c k).c)) :
    ∀ (deps : List String) (c : Container V),
      frameEq c ((resolveDeps rec key deps c).c) := by
  intro deps
  induction deps with
  | nil => intro c; exact frameEq_refl c
  | cons dep rest ih =>
    intro c
    simp only [resolveDeps]
    cases hq : rec c dep with
    | mk res c1 tr1 =>
      have h1 := hrec c dep
      rw [hq] at h1
      cases res with
      | error e => exact h1
      | ok v =>
        exact frameEq_trans h1 (ih c1)

theorem frameEq_runLazyStart (c : Container V) (key : String)
    (entry : ServiceEntry V) : frameEq c ((runLazyStart c key entry).c) := by
  unfold runLazyStart
  cases runHooksFwd entry.onStart with
  | mk e htr =>
    cases e with
    | some e0 => exact frameEq_setReg _ (frameEq_refl c)
    | none => exact frameEq_setReg _ (frameEq_refl c)

theorem frameEq_resolveSingleton {rec : ResolverFn V} (key : String)
    (entry : ServiceEntry V) (hrec : ∀ c k, frameEq c ((rec c k).c))
    (c : Container V) : frameEq c ((resolveSingleton rec c key entry).c) := by
  unfold resolveSingleton
  cases hi : entry.instantiated with
  | true => exact frameEq_refl c
  | false =>
    cases hq : resolveDeps rec key entry.dependencies c with
    | mk derr c1 tr1 =>
      have hdr := frameEq_resolveDeps key hrec entry.dependencies c
      rw [hq] at hdr
      cases derr with
      | some e => exact hdr
      | none =>
        cases entry.provider with
        | none => exact hdr
        | some pr =>
          cases pr with
          | error e => exact hdr
          | ok v0 =>
            try dsimp only
            cases hd : c1.applyDecorators key v0 with
            | mk dres dtr =>
              cases dres with
              | error e => exact hdr
              | ok v =>
                try dsimp only
                cases hlz : (entry.lazy && !entry.startRan &&
                    decide (c1.state = CState.running)) with
                | false => exact frameEq_setReg _ hdr
                | true =>
                  try dsimp only
                  cases hq2 : runLazyStart
                      { c1 with registry := Registry.setInstance c1.registry key v }
                      key entry with
                  | mk lerr c2 ltr =>
                    have hlr := frameEq_runLazyStart
                      ({ c1 with registry := Registry.setInstance c1.registry key v })
                      key entry
                    rw [hq2] at hlr
                    cases lerr with
                    | some e => exact frameEq_trans (frameEq_setReg _ hdr) hlr
                    | none => exact frameEq_trans (frameEq_setReg _ hdr) hlr

theorem frameEq_resolveTransient {rec : ResolverFn V} (key : String)
    (entry : ServiceEntry V) (hrec : ∀ c k, frameEq c ((rec c k).c))
    (c : Container V) : frameEq c ((resolveTransient rec c key entry).c) := by
  unfold resolveTransient
  cases hq : resolveDeps rec key entry.dependencies c with
  | mk derr c1 tr1 =>
    have hdr := frameEq_resolveDeps key hrec entry.dependencies c
    rw [hq] at hdr
    cases derr with
    | some e => exact hdr
    | none =>
      cases entry.provider with
      | none => exact hdr
      | some pr =>
        cases pr with
        | error e => exact hdr
        | ok v0 =>
          try dsimp only
          cases hd : c1.applyDecorators key v0 with
          | mk dres dtr =>
            cases dres with
            | error e => exact hdr
            | ok v => exact hdr

theorem frameEq_resolveRequest {rec : ResolverFn V} (key : String)
    (entry : ServiceEntry V) (hrec : ∀ c k, frameEq c ((rec c k).c))
    (c : Container V) : frameEq c ((resolveRequest rec c key entry).c) := by
  unfold resolveRequest
  cases hrs : c.reqScope with
  | none => exact frameEq_refl c
  | some rs =>
    try dsimp only
    cases hlk : alLookup rs key with
    | some v => exact frameEq_refl c
    | none =>
      cases hq : resolveDeps rec key entry.dependencies c with
      | mk derr c1 tr1 =>
        have hdr := frameEq_resolveDeps key hrec entry.dependencies c
        rw [hq] at hdr
        cases derr with
        | some e => exact hdr
        | none =>
          cases entry.provider with
          | none => exact hdr
          | some pr =>
            cases pr with
            | error e => exact hdr
            | ok v0 =>
              try dsimp only
              cases hd : c1.applyDecorators key v0 with
              | mk dres dtr =>
                cases dres with
                | error e => exact hdr
                | ok v => exact frameEq_setReq _ hdr

theorem frameEq_resolvePooled {rec : ResolverFn V} (key : String)
    (entry : ServiceEntry V) (hrec : ∀ c k, frameEq c ((rec c k).c))
    (c : Container V) : frameEq c ((resolvePooled rec c key entry).c) := by
  unfold resolvePooled
  cases hq0 : Registry.acquireFromPool c.registry key with
  | mk acq reg2 =>
    cases acq with
    | some v => exact frameEq_setReg _ (frameEq_refl c)
    | none =>
      try dsimp only
      cases hq : resolveDeps rec key entry.dependencies c with
      | mk derr c1 tr1 =>
        have hdr := frameEq_resolveDeps key hrec entry.dependencies c
        rw [hq] at hdr
        cases derr with
        | some e => exact hdr
        | none =>
          cases entry.provider with
          | none => exact hdr
          | some pr =>
            cases pr with
            | error e => exact hdr
            | ok v0 =>
              try dsimp only
              cases hd : c1.applyDecorators key v0 with
              | mk dres dtr =>
                cases dres with
                | error e => exact hdr
                | ok v => exact hdr

theorem frameEq_resolveWithScope {rec : ResolverFn V} (key : String)
    (entry : ServiceEntry V) (hrec : ∀ c k, frameEq c ((rec c k).c))
    (c : Container V) : frameEq c ((resolveWithScope rec c key entry).c) := by
  unfold resolveWithScope
  cases entry.scope with
  | singleton => exact frameEq_resolveSingleton key entry hrec c
  | transient => exact frameEq_resolveTransient key entry hrec c
  | request => exact frameEq_resolveRequest key entry hrec c
  | pooled => exact frameEq_resolvePooled key entry hrec c

theorem frameEq_resolveBody {rec : ResolverFn V} (key : String)
    (hrec : ∀ c k, frameEq c ((rec c k).c)) (c : Container V) :
    frameEq c ((resolveBody rec c key).c) := by
  unfold resolveBody
  cases hg : c.resolving.contains key with
  | true => exact frameEq_refl c
  | false =>
    try dsimp only
    have hkm : key ∉ c.resolving := not_mem_of_contains_eq_false hg
    cases hl : alLookup c.registry key with
    | none =>
      refine ⟨rfl, rfl, rfl, ?_⟩
      show ((key :: c.resolving).filter (fun x => x ≠ key)) = c.resolving
      rw [List.filter_cons, if_neg (by simp), filter_ne_of_not_mem hkm]
    | some entry =>
      try dsimp only
      cases hq : resolveWithScope rec
          { c with resolving := key :: c.resolving } key entry with
      | mk res c2 tr2 =>
        have hs := frameEq_resolveWithScope key entry hrec
          ({ c with resolving := key :: c.resolving })
        rw [hq] at hs
        refine ⟨hs.1, hs.2.1, hs.2.2.1, ?_⟩
        show c2.resolving.filter (fun x => x ≠ key) = c.resolving
        rw [hs.2.2.2]
        show ((key :: c.resolving).filter (fun x => x ≠ key)) = c.resolving
        rw [List.filter_cons, if_neg (by simp), filter_ne_of_not_mem hkm]

theorem frameEq_resolveFuel (fuel : Nat) :
    ∀ (c : Container V) (key : String), frameEq c ((resolveFuel fuel c key).c) := by
  induction fuel with
  | zero => intro c key; exact frameEq_refl c
  | succ n ih =>
    intro c key
    exact frameEq_resolveBody key ih c

theorem frameEq_resolve (c : Container V) (key : String) :
    frameEq c ((c.resolve key).c) :=
  frameEq_resolveFuel _ c key

/-! A resolve in flight can mutate only the registry entries of keys
that are not currently being resolved: every key in the re-entrancy
set keeps its entry untouched (nested resolves of it are rejected by
the guard before they reach any mutation). -/

theorem acquireFromPool_keeps (r : List (String × ServiceEntry V)) (key : String)
    {k₀ : String} (hne : k₀ ≠ key) :
    alLookup (Registry.acquireFromPool r key).2 k₀ = alLookup r k₀ := by
  unfold Registry.acquireFromPool
  cases hl : alLookup r key with
  | none => rfl
  | some e =>
    try dsimp only
    cases hp : e.pool with
    | none => rfl
    | some p =>
      cases p with
      | mk cap xs =>
        cases xs with
        | nil => rfl
        | cons x rest => exact alLookup_alAdjust_ne r _ hne

theorem keeps_resolveDeps {rec : ResolverFn V} (key : String)
    (hframe : ∀ c k, frameEq c ((rec c k).c))
    (hrec : ∀ c k, ∀ k₀ ∈ c.resolving,
      alLookup ((rec c k).c).registry k₀ = alLookup c.registry k₀) :
    ∀ (deps : List String) (c : Container V), ∀ k₀ ∈ c.resolving,
      alLookup ((resolveDeps rec key deps c).c).registry k₀ =
        alLookup c.registry k₀ := by
  intro deps
  induction deps with
  | nil => intro c k₀ _; rfl
  | cons dep rest ih =>
    intro c k₀ hmem
    simp only [resolveDeps]
    cases hq : rec c dep with
    | mk res c1 tr1 =>
      have h1 := hrec c dep k₀ hmem
      rw [hq] at h1
      cases res with
      | error e => exact h1
      | ok v =>
        have hf := hframe c dep
        rw [hq] at hf
        have hmem1 : k₀ ∈ c1.resolving := by rw [hf.2.2.2]; exact hmem
        exact (ih c1 k₀ hmem1).trans h1

theorem keeps_runLazyStart (c : Container V) (key : String)
    (entry : ServiceEntry V) {k₀ : String} (hne : k₀ ≠ key) :
    alLookup ((runLazyStart c key entry).c).registry k₀ = alLookup c.registry k₀ := by
  unfold runLazyStart
  cases runHooksFwd entry.onStart with
  | mk e htr =>
    cases e with
    | some e0 => exact alLookup_alAdjust_ne c.registry _ hne
    | none => exact alLookup_alAdjust_ne c.registry _ hne

theorem keeps_resolveSingleton {rec : ResolverFn V} (key : String)
    (entry : ServiceEntry V) (hframe : ∀ c k, frameEq c ((rec c k).c))
    (hrec : ∀ c k, ∀ k₀ ∈ c.resolving,
      alLookup ((rec c k).c).registry k₀ = alLookup c.registry k₀)
    (c : Container V) {k₀ : String} (hmem : k₀ ∈ c.resolving) (hne : k₀ ≠ key) :
    alLookup ((resolveSingleton rec c key entry).c).registry k₀ =
      alLookup c.registry k₀ := by
  unfold resolveSingleton
  cases hi : entry.instantiated with
  | true => rfl
  | false =>
    cases hq : resolveDeps rec key entry.dependencies c with
    | mk derr c1 tr1 =>
      have hdr := keeps_resolveDeps key hframe hrec entry.dependencies c k₀ hmem
      rw [hq] at hdr
      cases derr with
      | some e => exact hdr
      | none =>
        cases entry.provider with
        | none => exact hdr
        | some pr =>
          cases pr with
          | error e => exact hdr
          | ok v0 =>
            try dsimp only
            cases hd : c1.applyDecorators key v0 with
            | mk dres dtr =>
              cases dres with
              | error e => exact hdr
              | ok v =>
                try dsimp only
                cases hlz : (entry.lazy && !entry.startRan &&
                    decide (c1.state = CState.running)) with
                | false =>
                  exact (alLookup_alAdjust_ne c1.registry _ hne).trans hdr
                | true =>
                  try dsimp only
                  cases hq2 : runLazyStart
                      { c1 with registry := Registry.setInstance c1.registry key v }
                      key entry with
                  | mk lerr c2 ltr =>
                    have hlr := keeps_runLazyStart
                      ({ c1 with registry := Registry.setInstance c1.registry key v })
                      key entry hne
                    rw [hq2] at hlr
                    have hsi : alLookup (Registry.setInstance c1.registry key v) k₀ =
                        alLookup c1.registry k₀ :=
                      alLookup_alAdjust_ne c1.registry _ hne
                    cases lerr with
                    | some e => exact (hlr.trans hsi).trans hdr
                    | none => exact (hlr.trans hsi).trans hdr

theorem keeps_resolveTransient {rec : ResolverFn V} (key : String)
    (entry : ServiceEntry V) (hframe : ∀ c k, frameEq c ((rec c k).c))
    (hrec : ∀ c k, ∀ k₀ ∈ c.resolving,
      alLookup ((rec c k).c).registry k₀ = alLookup c.registry k₀)
    (c : Container V) {k₀ : String} (hmem : k₀ ∈ c.resolving) :
    alLookup ((resolveTransient rec c key entry).c).registry k₀ =
      alLookup c.registry k₀ := by
  unfold resolveTransient
  cases hq : resolveDeps rec key entry.dependencies c with
  | mk derr c1 tr1 =>
    have hdr := keeps_resolveDeps key hframe hrec entry.dependencies c k₀ hmem
    rw [hq] at hdr
    cases derr with
    | some e => exact hdr
    | none =>
      cases entry.provider with
      | none => exact hdr
      | some pr =>
        cases pr with
        | error e => exact hdr
        | ok v0 =>
          try dsimp only
          cases hd : c1.applyDecorators key v0 with
          | mk dres dtr =>
            cases dres with
            | error e => exact hdr
            | ok v => exact hdr

theorem keeps_resolveRequest {rec : ResolverFn V} (key : String)
    (entry : ServiceEntry V) (hframe : ∀ c k, frameEq c ((rec c k).c))
    (hrec : ∀ c k, ∀ k₀ ∈ c.resolving,
      alLookup ((rec c k).c).registry k₀ = alLookup c.registry k₀)
    (c : Container V) {k₀ : String} (hmem : k₀ ∈ c.resolving) :
    alLookup ((resolveRequest rec c key entry).c).registry k₀ =
      alLookup c.registry k₀ := by
  unfold resolveRequest
  cases hrs : c.reqScope with
  | none => rfl
  | some rs =>
    try dsimp only
    cases hlk : alLookup rs key with
    | some v => rfl
    | none =>
      cases hq : resolveDeps rec key entry.dependencies c with
      | mk derr c1 tr1 =>
        have hdr := keeps_resolveDeps key hframe hrec entry.dependencies c k₀ hmem
        rw [hq] at hdr
        cases derr with
        | some e => exact hdr
        | none =>
          cases entry.provider with
          | none => exact hdr
          | some pr =>
            cases pr with
            | error e => exact hdr
            | ok v0 =>
              try dsimp only
              cases hd : c1.applyDecorators key v0 with
              | mk dres dtr =>
                cases dres with
                | error e => exact hdr
                | ok v => exact hdr

theorem keeps_resolvePooled {rec : ResolverFn V} (key : String)
    (entry : ServiceEntry V) (hframe : ∀ c k, frameEq c ((rec c k).c))
    (hrec : ∀ c k, ∀ k₀ ∈ c.resolving,
      alLookup ((rec c k).c).registry k₀ = alLookup c.registry k₀)
    (c : Container V) {k₀ : String} (hmem : k₀ ∈ c.resolving) (hne : k₀ ≠ key) :
    alLookup ((resolvePooled rec c key entry).c).registry k₀ =
      alLookup c.registry k₀ := by
  unfold resolvePooled
  cases hq0 : Registry.acquireFromPool c.registry key with
  | mk acq reg2 =>
    cases acq with
    | some v =>
      have := acquireFromPool_keeps c.registry key hne
      rw [hq0] at this
      exact this
    | none =>
      try dsimp only
      cases hq : resolveDeps rec key entry.dependencies c with
      | mk derr c1 tr1 =>
        have hdr := keeps_resolveDeps key hframe hrec entry.dependencies c k₀ hmem
        rw [hq] at hdr
        cases derr with
        | some e => exact hdr
        | none =>
          cases entry.provider with
          | none => exact hdr
          | some pr =>
            cases pr with
            | error e => exact hdr
            | ok v0 =>
              try dsimp only
              cases hd : c1.applyDecorators key v0 with
              | mk dres dtr =>
                cases dres with
                | error e => exact hdr
                | ok v => exact hdr

theorem keeps_resolveWithScope {rec : ResolverFn V} (key : String)
    (entry : ServiceEntry V) (hframe : ∀ c k, frameEq c ((rec c k).c))
    (hrec : ∀ c k, ∀ k₀ ∈ c.resolving,
      alLookup ((rec c k).c).registry k₀ = alLookup c.registry k₀)
    (c : Container V) {k₀ : String} (hmem : k₀ ∈ c.resolving) (hne : k₀ ≠ key) :
    alLookup ((resolveWithScope rec c key entry).c).registry k₀ =
      alLookup c.registry k₀ := by
  unfold resolveWithScope
  cases entry.scope with
  | singleton => exact keeps_resolveSingleton key entry hframe hrec c hmem hne
  | transient => exact keeps_resolveTransient key entry hframe hrec c hmem
  | request => exact keeps_resolveRequest key entry hframe hrec c hmem
  | pooled => exact keeps_resolvePooled key entry hframe hrec c hmem hne

theorem keeps_resolveBody {rec : ResolverFn V} (key : String)
    (hframe : ∀ c k, frameEq c ((rec c k).c))
    (hrec : ∀ c k, ∀ k₀ ∈ c.resolving,
      alLookup ((rec c k).c).registry k₀ = alLookup c.registry k₀)
    (c : Container V) {k₀ : String} (hmem : k₀ ∈ c.resolving) :
    alLookup ((resolveBody rec c key).c).registry k₀ = alLookup c.registry k₀ := by
  unfold resolveBody
  cases hg : c.resolving.contains key with
  | true => rfl
  | false =>
    try dsimp only
    have hkm : key ∉ c.resolving := not_mem_of_contains_eq_false hg
    have hne : k₀ ≠ key := fun hc => hkm (hc ▸ hmem)
    cases hl : alLookup c.registry key with
    | none => rfl
    | some entry =>
      try dsimp only
      cases hq : resolveWithScope rec
          { c with resolving := key :: c.resolving } key entry with
      | mk res c2 tr2 =>
        have hs := keeps_resolveWithScope key entry hframe hrec
          ({ c with resolving := key :: c.resolving })
          (List.mem_cons_of_mem key hmem) hne
        rw [hq] at hs
        exact hs

theorem keeps_resolveFuel (fuel : Nat) :
    ∀ (c : Container V) (key : String), ∀ k₀ ∈ c.resolving,
      alLookup ((resolveFuel fuel c key).c).registry k₀ = alLookup c.registry k₀ := by
  induction fuel with
  | zero => intro c key k₀ _; rfl
  | succ n ih =>
    intro c key k₀ hmem
    exact keeps_resolveBody key (frameEq_resolveFuel n) ih c hmem

/-! Singleton caching: the fast path for an instantiated entry, and
the fact that a successful singleton resolve leaves the instance
cached. -/

theorem resolveBody_unfold_found {rec : ResolverFn V} (c : Container V)
    (key : String) (entry : ServiceEntry V)
    (hg : c.resolving.contains key = false)
    (hl : alLookup c.registry key = some entry) :
    resolveBody rec c key =
      match resolveWithScope rec { c with resolving := key :: c.resolving } key entry with
      | ⟨res, c2, tr2⟩ =>
        ⟨res, { c2 with resolving := c2.resolving.filter (fun x => x ≠ key) },
          .resolveEnter key :: tr2 ++ [.observeResolve key (isOkE res)]⟩ := by
  unfold resolveBody
  rw [if_neg (show ¬(c.resolving.contains key = true) by rw [hg]; exact Bool.false_ne_true), hl]

theorem resolveWithScope_singleton_fast {rec : ResolverFn V} (c : Container V)
    (key : String) (entry : ServiceEntry V)
    (hsc : entry.scope = Scope.singleton) (hi : entry.instantiated = true) :
    resolveWithScope rec c key entry = ⟨.ok entry.instanceVal, c, []⟩ := by
  unfold resolveWithScope
  rw [hsc]
  unfold resolveSingleton
  rw [hi]
  exact rfl

theorem resolveFuel_fastpath (n : Nat) (c : Container V) (key : String)
    (entry : ServiceEntry V)
    (hg : c.resolving.contains key = false)
    (hl : alLookup c.registry key = some entry)
    (hsc : entry.scope = Scope.singleton)
    (hi : entry.instantiated = true) :
    resolveFuel (n + 1) c key =
      ⟨.ok entry.instanceVal, c, [.resolveEnter key, .observeResolve key true]⟩ := by
  have hkm : key ∉ c.resolving := not_mem_of_contains_eq_false hg
  have hfilter : ((key :: c.resolving).filter (fun x => x ≠ key)) = c.resolving := by
    rw [List.filter_cons, if_neg (by simp), filter_ne_of_not_mem hkm]
  show resolveBody (resolveFuel n) c key = _
  rw [resolveBody_unfold_found c key entry hg hl,
    resolveWithScope_singleton_fast _ key entry hsc hi]
  dsimp only
  rw [hfilter]
  exact rfl

theorem resolveSingleton_ok_cached {rec : ResolverFn V} (key : String)
    (entry : ServiceEntry V) (hframe : ∀ c k, frameEq c ((rec c k).c))
    (hrec : ∀ c k, ∀ k₀ ∈ c.resolving,
      alLookup ((rec c k).c).registry k₀ = alLookup c.registry k₀)
    (c : Container V) (hmemKey : key ∈ c.resolving)
    (hl : alLookup c.registry key = some entry) {v : V}
    (hok : (resolveSingleton rec c key entry).res = .ok v) :
    ∃ e2, alLookup ((resolveSingleton rec c key entry).c).registry key = some e2 ∧
      e2.instantiated = true ∧ e2.instanceVal = v ∧ e2.scope = entry.scope := by
  unfold resolveSingleton at hok ⊢
  cases hi : entry.instantiated with
  | true =>
    rw [hi] at hok
    try dsimp only at hok
    refine ⟨entry, hl, hi, ?_, rfl⟩
    exact Except.ok.inj (show Except.ok entry.instanceVal = Except.ok v from hok)
  | false =>
    rw [hi] at hok
    try dsimp only at hok ⊢
    cases hq : resolveDeps rec key entry.dependencies c with
    | mk derr c1 tr1 =>
      rw [hq] at hok
      try dsimp only at hok ⊢
      have hdr := keeps_resolveDeps key hframe hrec entry.dependencies c key hmemKey
      rw [hq] at hdr
      have hl1 : alLookup c1.registry key = some entry := hdr.trans hl
      cases derr with
      | some e => exact absurd hok (by simp)
      | none =>
        cases hp : entry.provider with
        | none =>
          rw [hp] at hok
          try dsimp only at hok
          exact absurd hok (by simp)
        | some pr =>
          rw [hp] at hok
          try dsimp only at hok ⊢
          cases pr with
          | error e => exact absurd hok (by simp)
          | ok v0 =>
            try dsimp only at hok ⊢
            cases hd : c1.applyDecorators key v0 with
            | mk dres dtr =>
              rw [hd] at hok
              try dsimp only at hok ⊢
              cases dres with
              | error e => exact absurd hok (by simp)
              | ok v1 =>
                try dsimp only at hok ⊢
                cases hlz : (entry.lazy && !entry.startRan &&
                    decide (c1.state = CState.running)) with
                | false =>
                  rw [hlz] at hok
                  simp only [Bool.false_eq_true, if_false] at hok ⊢
                  have hv : v1 = v := Except.ok.inj hok
                  refine ⟨{ entry with instanceVal := v1, instantiated := true },
                    ?_, rfl, hv, rfl⟩
                  show alLookup (Registry.setInstance c1.registry key v1) key = _
                  unfold Registry.setInstance
                  rw [alLookup_alAdjust_self, hl1]
                  rfl
                | true =>
                  rw [hlz] at hok
                  simp only [if_true] at hok ⊢
                  cases hq2 : runLazyStart
                      { c1 with registry := Registry.setInstance c1.registry key v1 }
                      key entry with
                  | mk lerr c2 ltr =>
                    rw [hq2] at hok
                    try dsimp only at hok ⊢
                    cases lerr with
                    | some e => exact absurd hok (by simp)
                    | none =>
                      have hv : v1 = v := Except.ok.inj hok
                      have hc2 : c2.registry = Registry.setStartRan
                          (Registry.setInstance c1.registry key v1) key := by
                        have hh : (runLazyStart
                            { c1 with registry := Registry.setInstance c1.registry key v1 }
                            key entry).c.registry = Registry.setStartRan
                              (Registry.setInstance c1.registry key v1) key := by
                          unfold runLazyStart
                          cases runHooksFwd entry.onStart with
                          | mk e0 htr => cases e0 with
                            | some e1 => rfl
                            | none => rfl
                        rw [hq2] at hh
                        exact hh
                      refine ⟨{ { entry with instanceVal := v1, instantiated := true }
                          with startRan := true }, ?_, rfl, hv, rfl⟩
                      show alLookup c2.registry key = _
                      rw [hc2]
                      unfold Registry.setStartRan Registry.setInstance
                      rw [alLookup_alAdjust_self, alLookup_alAdjust_self, hl1]
                      rfl

theorem resolveFuel_ok_cached (n : Nat) (c : Container V) (key : String)
    (entry : ServiceEntry V) {v : V}
    (hg : c.resolving.contains key = false)
    (hl : alLookup c.registry key = some entry)
    (hsc : entry.scope = Scope.singleton)
    (hok : (resolveFuel (n + 1) c key).res = .ok v) :
    ∃ e2, alLookup ((resolveFuel (n + 1) c key).c).registry key = some e2 ∧
      e2.instantiated = true ∧ e2.instanceVal = v ∧ e2.scope = Scope.singleton := by
  have hbody : resolveFuel (n + 1) c key = resolveBody (resolveFuel n) c key := rfl
  rw [hbody, resolveBody_unfold_found c key entry hg hl] at hok ⊢
  have hws : resolveWithScope (resolveFuel n)
      { c with resolving := key :: c.resolving } key entry =
      resolveSingleton (resolveFuel n)
        { c with resolving := key :: c.resolving } key entry := by
    unfold resolveWithScope
    rw [hsc]
  rw [hws] at hok ⊢
  cases hq : resolveSingleton (resolveFuel n)
      { c with resolving := key :: c.resolving } key entry with
  | mk res c2 tr2 =>
    try dsimp only at hok ⊢
    obtain ⟨e2, hl2, hi2, hv2, hs2⟩ := resolveSingleton_ok_cached key entry
      (frameEq_resolveFuel n) (keeps_resolveFuel n)
      ({ c with resolving := key :: c.resolving })
      (List.mem_cons_self key c.resolving) hl hok
    rw [hq] at hl2
    exact ⟨e2, hl2, hi2, hv2, hs2.trans hsc⟩

end FrameLemmas



/-! ## Additional association-list facts used by the claims -/

theorem alHas_eq_true_of_mem {α : Type} {l : List (String × α)} {k : String}
    (h : k ∈ l.map Prod.fst) : alHas l k = true := by
  induction l with
  | nil => simp at h
  | cons p t ih =>
    by_cases hp : p.1 = k
    · rw [alHas, if_pos hp]
    · rw [alHas, if_neg hp]
      apply ih
      simp only [List.map_cons, List.mem_cons] at h
      rcases h with h | h
      · exact absurd h.symm hp
      · exact h

theorem not_mem_of_alHas_eq_false {α : Type} {l : List (String × α)} {k : String}
    (h : alHas l k = false) : k ∉ l.map Prod.fst := by
  intro hm
  rw [alHas_eq_true_of_mem hm] at h
  exact absurd h (by simp)

/-! ## Claim theorems -/

/-- C9: For every graph and every target key that is not a node of the
graph, ResolutionOrder(target) succeeds and returns exactly the
one-element list containing the target, even though the key has no
entry and no edges. -/
theorem resolutionOrder_missing_target_singleton_list (g : Graph) (target : String)
    (h : g.hasNode target = false) :
    g.resolutionOrder target = .ok [target] := by
  unfold Graph.resolutionOrder
  rw [if_neg (show ¬(g.hasNode target = true) by rw [h]; exact Bool.false_ne_true)]

/-- Witness for C9: a concrete graph with one node and a key that is
not a node. -/
theorem resolutionOrder_missing_target_singleton_list_witness :
    (Graph.empty.addNode "A" ["B"]).resolutionOrder "Z" = .ok ["Z"] :=
  resolutionOrder_missing_target_singleton_list (Graph.empty.addNode "A" ["B"]) "Z" rfl

/-- C10: For every key that has no entry in the registry, the mutators
AddOnStart, AddOnStop, SetScope, SetPoolSize, and SetLazy are silent
no-ops: they report no error (they have no error channel at all),
create no entry, and leave every existing entry unchanged. -/
theorem registry_mutators_missing_key_noop {V : Type} [Inhabited V]
    (r : List (String × ServiceEntry V)) (key : String)
    (h : alHas r key = false) (hk : Hook) (s : Scope) (n : Int) (b : Bool) :
    Registry.addOnStart r key hk = r ∧ Registry.addOnStop r key hk = r ∧
    Registry.setScope r key s = r ∧ Registry.setPoolSize r key n = r ∧
    Registry.setLazy r key b = r := by
  have hm : key ∉ r.map Prod.fst := not_mem_of_alHas_eq_false h
  exact ⟨alAdjust_of_not_mem hm, alAdjust_of_not_mem hm, alAdjust_of_not_mem hm,
    alAdjust_of_not_mem hm, alAdjust_of_not_mem hm⟩

/-- Witness for C10: a registry holding one entry for A, mutated at
the missing key Z. -/
theorem registry_mutators_missing_key_noop_witness :
    Registry.addOnStart [("A", Registry.newEntry "A" (Except.ok "a") [])] "Z"
        ⟨"h1", none⟩ = [("A", Registry.newEntry "A" (Except.ok "a") [])] ∧
    Registry.addOnStop [("A", Registry.newEntry "A" (Except.ok "a") [])] "Z"
        ⟨"h1", none⟩ = [("A", Registry.newEntry "A" (Except.ok "a") [])] ∧
    Registry.setScope [("A", Registry.newEntry "A" (Except.ok "a") [])] "Z"
        Scope.pooled = [("A", Registry.newEntry "A" (Except.ok "a") [])] ∧
    Registry.setPoolSize [("A", Registry.newEntry "A" (Except.ok "a") [])] "Z"
        3 = [("A", Registry.newEntry "A" (Except.ok "a") [])] ∧
    Registry.setLazy [("A", Registry.newEntry "A" (Except.ok "a") [])] "Z"
        true = [("A", Registry.newEntry "A" (Except.ok "a") [])] :=
  registry_mutators_missing_key_noop
    [("A", Registry.newEntry "A" (Except.ok "a") [])] "Z" rfl ⟨"h1", none⟩
    Scope.pooled 3 true

/-- C1: For every container whose registry and graph do not yet hold
the key being registered (the one-to-one invariant I1 ties the two),
a Register call that would make the dependency graph cyclic returns
the CircularDependency error and rolls back both the registry entry
and the graph node, leaving the container exactly as it was; and the
graph is acyclic after every registration, successful or failed. -/
theorem register_cycle_rolls_back_atomically {V : Type} [Inhabited V]
    (c : Container V) (key : String) (provider : Except Err V) (deps : List String)
    (hreg : alHas c.registry key = false)
    (hnode : key ∉ c.graph.nodes.map Prod.fst) :
    ((c.graph.addNode key deps).hasCycle = true →
      c.register key provider deps = (.error (.circularDependency key), c, [])) ∧
    (c.graph.hasCycle = false →
      ((c.register key provider deps).2.1).graph.hasCycle = false) := by
  have hregm : key ∉ c.registry.map Prod.fst := not_mem_of_alHas_eq_false hreg
  have hifreg : ¬(alHas c.registry key = true) := by
    rw [hreg]; exact Bool.false_ne_true
  have h1 : Registry.remove (Registry.register c.registry key provider deps) key =
      c.registry := by
    unfold Registry.remove Registry.register
    exact alErase_alInsert_of_not_mem hregm
  have h2 : (c.graph.addNode key deps).removeNode key = c.graph := by
    show Graph.mk (alErase (alInsert c.graph.nodes key deps) key) = c.graph
    rw [alErase_alInsert_of_not_mem hnode]
  constructor
  · intro hcyc
    unfold Container.register
    rw [if_neg hifreg, if_pos hcyc, h1, h2]
  · intro hacyc
    unfold Container.register
    rw [if_neg hifreg]
    by_cases hcyc : (c.graph.addNode key deps).hasCycle = true
    · rw [if_pos hcyc]
      show ((c.graph.addNode key deps).removeNode key).hasCycle = false
      rw [h2]
      exact hacyc
    · rw [if_neg hcyc]
      show (c.graph.addNode key deps).hasCycle = false
      exact Bool.eq_false_iff.mpr hcyc

/-! Lifecycle state preservation: the service loops never touch the
container state field. -/

theorem state_startService {V : Type} [Inhabited V] (c : Container V) (key : String) :
    (startService c key).c.state = c.state := by
  unfold startService
  cases hlz : Registry.isLazy c.registry key with
  | true => rfl
  | false =>
    try dsimp only
    cases hq : c.resolve key with
    | mk res c1 tr1 =>
      have hf := frameEq_resolve c key
      rw [hq] at hf
      cases res with
      | error e => exact hf.1
      | ok v =>
        try dsimp only
        cases hl : alLookup c1.registry key with
        | none => exact hf.1
        | some entry =>
          try dsimp only
          cases hr : runHooksFwd entry.onStart with
          | mk e htr =>
            cases e with
            | some e0 => exact hf.1
            | none => exact hf.1

theorem state_startSeqLoop {V : Type} [Inhabited V] :
    ∀ (keys : List String) (c : Container V),
      (startSeqLoop c keys).c.state = c.state := by
  intro keys
  induction keys with
  | nil => intro c; rfl
  | cons key rest ih =>
    intro c
    simp only [startSeqLoop]
    cases hq : startService c key with
    | mk err c1 tr1 =>
      have hs := state_startService c key
      rw [hq] at hs
      cases err with
      | some e => exact hs
      | none =>
        try dsimp only
        cases hq2 : startSeqLoop c1 rest with
        | mk err2 c2 tr2 =>
          have hs2 := ih c1
          rw [hq2] at hs2
          exact hs2.trans hs

theorem state_startSequential {V : Type} [Inhabited V] (c : Container V) :
    (startSequential c).c.state = c.state := by
  unfold startSequential
  cases ho : c.graph.startupOrder with
  | error e => rfl
  | ok order => exact state_startSeqLoop order c

/-- C6: The container state only ever moves along
New→Starting→Running→Stopping→Stopped: Start succeeds only from state
New or Stopped and from any other state returns a
ContainerAlreadyStarted error without changing anything, while Stop
called when the state is not Running returns success immediately, runs
no hooks, and changes nothing; a successful Start ends in Running, a
failed one stays in Starting, and Stop from Running ends in Stopped. -/
theorem lifecycle_state_machine {V : Type} [Inhabited V]
    (c : Container V) (ctx : Ctx) :
    (c.state ≠ CState.new → c.state ≠ CState.stopped →
      c.start = ⟨some Err.alreadyStarted, c, []⟩) ∧
    ((c.start).err = none → c.state = CState.new ∨ c.state = CState.stopped) ∧
    (c.state = CState.new ∨ c.state = CState.stopped →
      ((c.start).err = none ∧ (c.start).c.state = CState.running) ∨
      ((c.start).err ≠ none ∧ (c.start).c.state = CState.starting)) ∧
    (c.state ≠ CState.running → c.stop ctx = ⟨none, c, []⟩) ∧
    (c.state = CState.running → (c.stop ctx).c.state = CState.stopped) := by
  refine ⟨?_, ?_, ?_, ?_, ?_⟩
  · intro h1 h2
    unfold Container.start
    rw [if_neg (by rintro (h | h) <;> [exact h1 h; exact h2 h])]
  · intro hok
    by_cases hc : c.state = CState.new ∨ c.state = CState.stopped
    · exact hc
    · exfalso
      unfold Container.start at hok
      rw [if_neg hc] at hok
      exact Option.noConfusion hok
  · intro hc
    unfold Container.start
    rw [if_pos hc]
    cases hq : startSequential { c with state := CState.starting } with
    | mk err c1 tr1 =>
      have hs := state_startSequential ({ c with state := CState.starting } : Container V)
      rw [hq] at hs
      cases err with
      | some e =>
        right
        exact ⟨Option.noConfusion, hs⟩
      | none =>
        left
        exact ⟨rfl, rfl⟩
  · intro h
    unfold Container.stop
    rw [if_neg h]
  · intro h
    unfold Container.stop
    rw [if_pos h]

/-- Witness for C6: a Running container rejects Start unchanged, and a
New container treats Stop as a no-op. -/
theorem lifecycle_state_machine_witness :
    (⟨[], Graph.empty, CState.running, [], [], none⟩ : Container String).start =
      ⟨some Err.alreadyStarted,
        ⟨[], Graph.empty, CState.running, [], [], none⟩, []⟩ ∧
    (⟨[], Graph.empty, CState.new, [], [], none⟩ : Container String).stop ⟨false⟩ =
      ⟨none, ⟨[], Graph.empty, CState.new, [], [], none⟩, []⟩ :=
  ⟨(lifecycle_state_machine
      (⟨[], Graph.empty, CState.running, [], [], none⟩ : Container String)
      ⟨false⟩).1 (by simp) (by simp),
   (lifecycle_state_machine
      (⟨[], Graph.empty, CState.new, [], [], none⟩ : Container String)
      ⟨false⟩).2.2.2.1 (by simp)⟩

/-! Pool helper computations for C7. -/

theorem acquireFromPool_pop {V : Type} [Inhabited V]
    (r : List (String × ServiceEntry V)) (key : String) (entry : ServiceEntry V)
    (cap : Nat) (x : V) (xs : List V)
    (hl : alLookup r key = some entry) (hp : entry.pool = some (cap, x :: xs)) :
    Registry.acquireFromPool r key =
      (some x, alAdjust r key (fun e0 => { e0 with pool := some (cap, xs) })) := by
  unfold Registry.acquireFromPool
  rw [hl]
  try dsimp only
  rw [hp]

theorem releaseToPool_push {V : Type} [Inhabited V]
    (r : List (String × ServiceEntry V)) (key : String) (entry : ServiceEntry V)
    (cap : Nat) (xs : List V) (v : V)
    (hl : alLookup r key = some entry) (hp : entry.pool = some (cap, xs))
    (hlen : xs.length < cap) :
    Registry.releaseToPool r key v =
      (true, alAdjust r key (fun e0 => { e0 with pool := some (cap, xs ++ [v]) })) := by
  unfold Registry.releaseToPool
  rw [hl]
  try dsimp only
  rw [hp]
  try dsimp only
  rw [if_pos hlen]

theorem releaseToPool_full_false {V : Type} [Inhabited V]
    (r : List (String × ServiceEntry V)) (key : String) (entry : ServiceEntry V)
    (cap : Nat) (xs : List V) (v : V)
    (hl : alLookup r key = some entry) (hp : entry.pool = some (cap, xs))
    (hlen : ¬ xs.length < cap) :
    Registry.releaseToPool r key v = (false, r) := by
  unfold Registry.releaseToPool
  rw [hl]
  try dsimp only
  rw [hp]
  try dsimp only
  rw [if_neg hlen]

theorem resolveWithScope_pooled {V : Type} [Inhabited V] {rec : ResolverFn V}
    (c : Container V) (key : String) (entry : ServiceEntry V)
    (hsc : entry.scope = Scope.pooled) :
    resolveWithScope rec c key entry = resolvePooled rec c key entry := by
  unfold resolveWithScope
  rw [hsc]

theorem resolvePooled_acquire_hit {V : Type} [Inhabited V] {rec : ResolverFn V}
    (c : Container V) (key : String) (entry : ServiceEntry V) (v : V)
    (reg2 : List (String × ServiceEntry V))
    (hacq : Registry.acquireFromPool c.registry key = (some v, reg2)) :
    resolvePooled rec c key entry = ⟨.ok v, { c with registry := reg2 }, []⟩ := by
  unfold resolvePooled
  rw [hacq]

/-- C7 (amended): For a Pooled-scoped key whose pool has capacity n:
when the pool is empty, after Release(key, I) returns true the next
Resolve of that key returns exactly the instance I without invoking
the provider (in general the pool is FIFO and Resolve returns its
oldest instance); and when the pool already holds n instances, a
further Release of that key returns false. -/
theorem pooled_release_then_resolve {V : Type} [Inhabited V]
    (c : Container V) (key : String) (entry : ServiceEntry V) (v : V) (cap : Nat)
    (hl : alLookup c.registry key = some entry)
    (hsc : entry.scope = Scope.pooled)
    (hg : c.resolving.contains key = false) :
    (entry.pool = some (cap, []) → 0 < cap →
      (c.release key v).1 = true ∧
      ((c.release key v).2.resolve key).res = .ok v ∧
      ((c.release key v).2.resolve key).tr =
        [.resolveEnter key, .observeResolve key true]) ∧
    (∀ xs : List V, entry.pool = some (cap, xs) → xs.length = cap →
      (c.release key v).1 = false) := by
  constructor
  · intro hpool hcap
    have hrel := releaseToPool_push c.registry key entry cap [] v hl hpool
      (by simpa using hcap)
    generalize hreg : alAdjust c.registry key
      (fun e0 => { e0 with pool := some (cap, [] ++ [v]) }) = reg2 at hrel
    have hrelease : c.release key v = (true, { c with registry := reg2 }) := by
      unfold Container.release
      rw [hrel]
    have hl2 : alLookup reg2 key = some { entry with pool := some (cap, [v]) } := by
      rw [← hreg, alLookup_alAdjust_self, hl]
      rfl
    have hacq := acquireFromPool_pop reg2 key
      ({ entry with pool := some (cap, [v]) }) cap v [] hl2 rfl
    have hres : ({ c with registry := reg2 } : Container V).resolve key =
        resolveBody (resolveFuel reg2.length) { c with registry := reg2 } key := rfl
    refine ⟨by rw [hrelease], ?_, ?_⟩
    · rw [hrelease]
      show ((({ c with registry := reg2 } : Container V)).resolve key).res = _
      have hsc2 : ({ entry with pool := some (cap, [v]) } : ServiceEntry V).scope
          = Scope.pooled := hsc
      rw [hres, resolveBody_unfold_found ({ c with registry := reg2 }) key
          ({ entry with pool := some (cap, [v]) }) hg hl2,
        resolveWithScope_pooled _ key _ hsc2,
        resolvePooled_acquire_hit _ key _ v _ hacq]
    · rw [hrelease]
      show ((({ c with registry := reg2 } : Container V)).resolve key).tr = _
      have hsc2 : ({ entry with pool := some (cap, [v]) } : ServiceEntry V).scope
          = Scope.pooled := hsc
      rw [hres, resolveBody_unfold_found ({ c with registry := reg2 }) key
          ({ entry with pool := some (cap, [v]) }) hg hl2,
        resolveWithScope_pooled _ key _ hsc2,
        resolvePooled_acquire_hit _ key _ v _ hacq]
      exact rfl
  · intro xs hpool hfull
    have hrel := releaseToPool_full_false c.registry key entry cap xs v hl hpool
      (by rw [hfull]; exact lt_irrefl cap)
    unfold Container.release
    rw [hrel]

/-! Error-shape lemmas for C3: what kinds of errors each stage can
produce. -/

theorem resolveDeps_err_shape {V : Type} [Inhabited V] {rec : ResolverFn V}
    (key : String) :
    ∀ (deps : List String) (c : Container V) (e : Err),
      (resolveDeps rec key deps c).err = some e →
      ∃ dep e0, e = Err.depFailed dep key e0 := by
  intro deps
  induction deps with
  | nil => intro c e h; exact absurd h (by simp [resolveDeps])
  | cons dep rest ih =>
    intro c e h
    simp only [resolveDeps] at h
    cases hq : rec c dep with
    | mk res c1 tr1 =>
      rw [hq] at h
      cases res with
      | error e1 =>
        refine ⟨dep, e1, ?_⟩
        have : some (Err.depFailed dep key e1) = some e := h
        exact (Option.some.inj this).symm
      | ok v =>
        try dsimp only at h
        exact ih c1 e h

theorem applyDecoratorsLoop_err_shape {V : Type} [Inhabited V] (key : String) :
    ∀ (ds : List (V → Except Err V)) (idx : Nat) (v : V) (e : Err),
      (applyDecoratorsLoop key ds idx v).1 = .error e →
      ∃ e0, e = Err.decoratorFailed key e0 := by
  intro ds
  induction ds with
  | nil => intro idx v e h; exact absurd h (by simp [applyDecoratorsLoop])
  | cons d rest ih =>
    intro idx v e h
    simp only [applyDecoratorsLoop] at h
    cases hd : d v with
    | error e1 =>
      rw [hd] at h
      exact ⟨e1, (Except.error.inj h).symm⟩
    | ok v2 =>
      rw [hd] at h
      try dsimp only at h
      exact ih (idx + 1) v2 e h

theorem runLazyStart_err_shape {V : Type} [Inhabited V] (c : Container V)
    (key : String) (entry : ServiceEntry V) (e : Err)
    (h : (runLazyStart c key entry).err = some e) :
    ∃ e0, e = Err.onStartFailed key e0 := by
  unfold runLazyStart at h
  cases hr : runHooksFwd entry.onStart with
  | mk r htr =>
    rw [hr] at h
    cases r with
    | some e0 => exact ⟨e0, (Option.some.inj h).symm⟩
    | none => exact Option.noConfusion h

theorem resolveSingleton_err_keeps {V : Type} [Inhabited V] {rec : ResolverFn V}
    (key : String) (entry : ServiceEntry V)
    (hframe : ∀ c k, frameEq c ((rec c k).c))
    (hrec : ∀ c k, ∀ k₀ ∈ c.resolving,
      alLookup ((rec c k).c).registry k₀ = alLookup c.registry k₀)
    (c : Container V) (hmemKey : key ∈ c.resolving)
    (hl : alLookup c.registry key = some entry) {e : Err}
    (herr : (resolveSingleton rec c key entry).res = .error e)
    (hshape : ∀ e0, e ≠ Err.onStartFailed key e0) :
    alLookup ((resolveSingleton rec c key entry).c).registry key = some entry := by
  unfold resolveSingleton at herr ⊢
  cases hi : entry.instantiated with
  | true =>
    rw [hi] at herr
    try dsimp only at herr
    exact absurd (show Except.ok entry.instanceVal = Except.error e from herr)
      (by simp)
  | false =>
    rw [hi] at herr
    try dsimp only at herr ⊢
    cases hq : resolveDeps rec key entry.dependencies c with
    | mk derr c1 tr1 =>
      rw [hq] at herr
      try dsimp only at herr ⊢
      have hdr := keeps_resolveDeps key hframe hrec entry.dependencies c key hmemKey
      rw [hq] at hdr
      have hl1 : alLookup c1.registry key = some entry := hdr.trans hl
      cases derr with
      | some e1 => exact hl1
      | none =>
        cases hp : entry.provider with
        | none =>
          rw [hp] at herr
          exact hl1
        | some pr =>
          rw [hp] at herr
          try dsimp only at herr ⊢
          cases pr with
          | error e1 => exact hl1
          | ok v0 =>
            try dsimp only at herr ⊢
            cases hd : c1.applyDecorators key v0 with
            | mk dres dtr =>
              rw [hd] at herr
              try dsimp only at herr ⊢
              cases dres with
              | error e1 => exact hl1
              | ok v1 =>
                cases hlz : (entry.lazy && !entry.startRan &&
                    decide (c1.state = CState.running)) with
                | false =>
                  rw [hlz] at herr
                  simp only [Bool.false_eq_true, if_false] at herr
                  exact absurd herr (by simp)
                | true =>
                  rw [hlz] at herr
                  simp only [if_true] at herr
                  cases hq2 : runLazyStart
                      { c1 with registry := Registry.setInstance c1.registry key v1 }
                      key entry with
                  | mk lerr c2 ltr =>
                    rw [hq2] at herr
                    try dsimp only at herr
                    cases lerr with
                    | some e1 =>
                      exfalso
                      have hsh := runLazyStart_err_shape
                        ({ c1 with registry := Registry.setInstance c1.registry key v1 })
                        key entry e1 (by rw [hq2])
                      obtain ⟨e0, he⟩ := hsh
                      have he1 : e1 = e := Except.error.inj herr
                      exact hshape e0 (by rw [← he1, he])
                    | none => exact absurd herr (by simp)

theorem resolveSingleton_lazyfail_instantiated {V : Type} [Inhabited V]
    {rec : ResolverFn V} (key : String) (entry : ServiceEntry V)
    (hframe : ∀ c k, frameEq c ((rec c k).c))
    (hrec : ∀ c k, ∀ k₀ ∈ c.resolving,
      alLookup ((rec c k).c).registry k₀ = alLookup c.registry k₀)
    (c : Container V) (hmemKey : key ∈ c.resolving)
    (hl : alLookup c.registry key = some entry) {e0 : Err}
    (herr : (resolveSingleton rec c key entry).res =
      .error (Err.onStartFailed key e0)) :
    ∃ e2, alLookup ((resolveSingleton rec c key entry).c).registry key = some e2 ∧
      e2.instantiated = true := by
  unfold resolveSingleton at herr ⊢
  cases hi : entry.instantiated with
  | true =>
    rw [hi] at herr
    try dsimp only at herr
    exact absurd (show Except.ok entry.instanceVal = _ from herr) (by simp)
  | false =>
    rw [hi] at herr
    try dsimp only at herr ⊢
    cases hq : resolveDeps rec key entry.dependencies c with
    | mk derr c1 tr1 =>
      rw [hq] at herr
      try dsimp only at herr ⊢
      have hdr := keeps_resolveDeps key hframe hrec entry.dependencies c key hmemKey
      rw [hq] at hdr
      have hl1 : alLookup c1.registry key = some entry := hdr.trans hl
      cases derr with
      | some e1 =>
        exfalso
        obtain ⟨dep1, ex, he⟩ := resolveDeps_err_shape key entry.dependencies c
          e1 (by rw [hq])
        have he1 : e1 = Err.onStartFailed key e0 := Except.error.inj herr
        rw [he] at he1
        exact Err.noConfusion he1
      | none =>
        cases hp : entry.provider with
        | none =>
          rw [hp] at herr
          exact absurd (Except.error.inj herr) (by intro h; exact Err.noConfusion h)
        | some pr =>
          rw [hp] at herr
          try dsimp only at herr ⊢
          cases pr with
          | error e1 =>
            exact absurd (Except.error.inj herr) (by intro h; exact Err.noConfusion h)
          | ok v0 =>
            try dsimp only at herr ⊢
            cases hd : c1.applyDecorators key v0 with
            | mk dres dtr =>
              rw [hd] at herr
              try dsimp only at herr ⊢
              cases dres with
              | error e1 =>
                exfalso
                obtain ⟨ex, he⟩ := applyDecoratorsLoop_err_shape key
                  ((alLookup c1.decorators key).getD []) 0 v0 e1
                  (by
                    have hds : (c1.applyDecorators key v0).1 = Except.error e1 := by
                      rw [hd]
                    exact hds)
                have he1 : e1 = Err.onStartFailed key e0 := Except.error.inj herr
                rw [he] at he1
                exact Err.noConfusion he1
              | ok v1 =>
                cases hlz : (entry.lazy && !entry.startRan &&
                    decide (c1.state = CState.running)) with
                | false =>
                  rw [hlz] at herr
                  simp only [Bool.false_eq_true, if_false] at herr
                  exact absurd herr (by simp)
                | true =>
                  rw [hlz] at herr
                  simp only [if_true] at herr ⊢
                  cases hq2 : runLazyStart
                      { c1 with registry := Registry.setInstance c1.registry key v1 }
                      key entry with
                  | mk lerr c2 ltr =>
                    rw [hq2] at herr
                    try dsimp only at herr ⊢
                    cases lerr with
                    | some e1 =>
                      have hc2 : c2.registry = Registry.setStartRan
                          (Registry.setInstance c1.registry key v1) key := by
                        have hh : (runLazyStart
                            { c1 with registry := Registry.setInstance c1.registry key v1 }
                            key entry).c.registry = Registry.setStartRan
                              (Registry.setInstance c1.registry key v1) key := by
                          unfold runLazyStart
                          cases runHooksFwd entry.onStart with
                          | mk ee htr => cases ee with
                            | some e3 => rfl
                            | none => rfl
                        rw [hq2] at hh
                        exact hh
                      refine ⟨{ { entry with instanceVal := v1, instantiated := true }
                          with startRan := true }, ?_, rfl⟩
                      show alLookup c2.registry key = _
                      rw [hc2]
                      unfold Registry.setStartRan Registry.setInstance
                      rw [alLookup_alAdjust_self, alLookup_alAdjust_self, hl1]
                      rfl
                    | none => exact absurd herr (by simp)

theorem runHooksFwd_eq (hooks : List Hook) :
    runHooksFwd hooks =
      (firstFailRes hooks, (execdFwd hooks).map (fun h => Ev.hookRun h.id)) := by
  induction hooks with
  | nil => rfl
  | cons h t ih =>
    cases hr : h.res with
    | some e =>
      simp only [runHooksFwd, hr, firstFailRes, execdFwd, List.takeWhile_cons,
        List.dropWhile_cons, Option.isNone_some, Bool.false_eq_true, if_false,
        List.head?_cons, Option.toList_some, List.nil_append, List.map_cons,
        List.map_nil, Option.some_bind]
    | none =>
      simp only [runHooksFwd, hr, ih, firstFailRes, execdFwd, List.takeWhile_cons,
        List.dropWhile_cons, Option.isNone_none, if_true, List.cons_append,
        List.map_cons]

theorem runHooksRev_trace_aux (key : String) :
    ∀ (l : List Hook) (acc : Option Err × List Ev),
      (l.foldl
        (fun acc h =>
          (match h.res with
           | some e => some (Err.onStopFailed key e)
           | none => acc.1,
           acc.2 ++ [Ev.hookRun h.id])) acc).2 =
        acc.2 ++ l.map (fun h => Ev.hookRun h.id) := by
  intro l
  induction l with
  | nil => intro acc; simp
  | cons h t ih =>
    intro acc
    rw [List.foldl_cons, ih]
    simp

theorem runHooksRev_trace (key : String) (hooks : List Hook) :
    (runHooksRev key hooks).2 = hooks.reverse.map (fun h => Ev.hookRun h.id) := by
  unfold runHooksRev
  rw [runHooksRev_trace_aux key hooks.reverse (none, [])]
  simp

/-- C5: Within a single service across one Start/Stop cycle, the
OnStart hooks run in registration order and stop at the first failing
hook, whose error propagates (wrapped for the key); the OnStop hooks
all run, in reverse registration order. -/
theorem service_hook_order {V : Type} [Inhabited V]
    (c : Container V) (key : String) (entry : ServiceEntry V) :
    (Registry.isLazy c.registry key = false →
      ∀ v, (c.resolve key).res = .ok v →
      alLookup ((c.resolve key).c).registry key = some entry →
      (startService c key).err =
        (firstFailRes entry.onStart).map (fun e => Err.onStartFailed key e) ∧
      (startService c key).tr =
        (c.resolve key).tr ++
          (execdFwd entry.onStart).map (fun h => Ev.hookRun h.id) ++
          [.observeStart key ((firstFailRes entry.onStart).isNone)]) ∧
    (alLookup c.registry key = some entry → entry.instantiated = true →
      (stopService c key).tr =
        entry.onStop.reverse.map (fun h => Ev.hookRun h.id) ++
          [.observeStop key ((runHooksRev key entry.onStop).1.isNone)]) := by
  constructor
  · intro hlz v hok hl2
    unfold startService
    rw [if_neg (show ¬(Registry.isLazy c.registry key = true) by
      rw [hlz]; exact Bool.false_ne_true)]
    cases hq : c.resolve key with
    | mk res c1 tr1 =>
      rw [hq] at hok hl2
      cases res with
      | error e => exact absurd hok (by simp)
      | ok v1 =>
        try dsimp only at hl2 ⊢
        rw [hl2]
        try dsimp only
        rw [runHooksFwd_eq]
        cases hf : firstFailRes entry.onStart with
        | some e => exact ⟨rfl, rfl⟩
        | none => exact ⟨rfl, rfl⟩
  · intro hl hi
    unfold stopService
    rw [hl]
    try dsimp only
    rw [if_pos hi]
    cases hr : runHooksRev key entry.onStop with
    | mk err htr =>
      have htrace := runHooksRev_trace key entry.onStop
      rw [hr] at htrace
      have htr2 : htr = entry.onStop.reverse.map (fun h => Ev.hookRun h.id) := htrace
      rw [htr2]

/-- Witness for C5 at the concrete container: Start runs s1 then the
failing s2 and stops; Stop runs t2 then t1. -/
theorem service_hook_order_witness :
    (startService hookOrderExample "X").err =
      some (Err.onStartFailed "X" (Err.userErr "boom")) ∧
    (startService hookOrderExample "X").tr =
      (hookOrderExample.resolve "X").tr ++
        [Ev.hookRun "s1", Ev.hookRun "s2"] ++ [Ev.observeStart "X" false] ∧
    (stopService hookOrderExample "X").tr =
      [Ev.hookRun "t2", Ev.hookRun "t1"] ++ [Ev.observeStop "X" true] := by
  have h := service_hook_order hookOrderExample "X"
    ({ Registry.valueEntry "X" "x" with
        onStart := [⟨"s1", none⟩, ⟨"s2", some (Err.userErr "boom")⟩, ⟨"s3", none⟩],
        onStop := [⟨"t1", none⟩, ⟨"t2", none⟩] })
  have h1 := h.1 rfl "x" rfl rfl
  have h2 := h.2 rfl rfl
  exact ⟨h1.1, h1.2, h2⟩

theorem visitStartKeys_append (a b : List Ev) :
    visitStartKeys (a ++ b) = visitStartKeys a ++ visitStartKeys b :=
  List.filterMap_append a b _

theorem visitStopKeys_append (a b : List Ev) :
    visitStopKeys (a ++ b) = visitStopKeys a ++ visitStopKeys b :=
  List.filterMap_append a b _

theorem vsk_map_hookRun (l : List Hook) :
    visitStartKeys (l.map (fun h => Ev.hookRun h.id)) = [] := by
  induction l with
  | nil => rfl
  | cons h t ih => exact ih

theorem vstopk_map_hookRun (l : List Hook) :
    visitStopKeys (l.map (fun h => Ev.hookRun h.id)) = [] := by
  induction l with
  | nil => rfl
  | cons h t ih => exact ih

theorem vsk_providerRun (key : String) :
    visitStartKeys [Ev.providerRun key] = [] := rfl

theorem vsk_runHooksFwd (hooks : List Hook) :
    visitStartKeys (runHooksFwd hooks).2 = [] := by
  rw [runHooksFwd_eq]
  exact vsk_map_hookRun _

theorem vsk_decoratorsLoop {V : Type} [Inhabited V] (key : String) :
    ∀ (ds : List (V → Except Err V)) (idx : Nat) (v : V),
      visitStartKeys (applyDecoratorsLoop key ds idx v).2 = [] := by
  intro ds
  induction ds with
  | nil => intro idx v; rfl
  | cons d rest ih =>
    intro idx v
    simp only [applyDecoratorsLoop]
    cases hd : d v with
    | error e => rfl
    | ok v2 =>
      exact ih (idx + 1) v2

theorem vsk_runLazyStart {V : Type} [Inhabited V] (c : Container V) (key : String)
    (entry : ServiceEntry V) :
    visitStartKeys (runLazyStart c key entry).tr = [] := by
  unfold runLazyStart
  cases hr : runHooksFwd entry.onStart with
  | mk e htr =>
    have h1 : visitStartKeys htr = [] := by
      have := vsk_runHooksFwd entry.onStart
      rw [hr] at this
      exact this
    cases e with
    | some e0 =>
      show visitStartKeys (htr ++ [Ev.observeStart key false]) = []
      rw [visitStartKeys_append, h1]
      rfl
    | none =>
      show visitStartKeys (htr ++ [Ev.observeStart key true]) = []
      rw [visitStartKeys_append, h1]
      rfl

theorem vsk_resolveDeps {V : Type} [Inhabited V] {rec : ResolverFn V} (key : String)
    (hrec : ∀ c k, visitStartKeys ((rec c k).tr) = []) :
    ∀ (deps : List String) (c : Container V),
      visitStartKeys ((resolveDeps rec key deps c).tr) = [] := by
  intro deps
  induction deps with
  | nil => intro c; rfl
  | cons dep rest ih =>
    intro c
    simp only [resolveDeps]
    cases hq : rec c dep with
    | mk res c1 tr1 =>
      have h1 : visitStartKeys tr1 = [] := by
        have := hrec c dep
        rw [hq] at this
        exact this
      cases res with
      | error e => exact h1
      | ok v =>
        try dsimp only
        show visitStartKeys (tr1 ++ (resolveDeps rec key rest c1).tr) = []
        rw [visitStartKeys_append, h1, List.nil_append]
        exact ih c1

theorem vsk_resolveWithScope {V : Type} [Inhabited V] {rec : ResolverFn V}
    (key : String) (entry : ServiceEntry V)
    (hrec : ∀ c k, visitStartKeys ((rec c k).tr) = []) (c : Container V) :
    visitStartKeys ((resolveWithScope rec c key entry).tr) = [] := by
  unfold resolveWithScope
  cases entry.scope with
  | singleton =>
    unfold resolveSingleton
    cases hi : entry.instantiated with
    | true => rfl
    | false =>
      cases hq : resolveDeps rec key entry.dependencies c with
      | mk derr c1 tr1 =>
        have h1 : visitStartKeys tr1 = [] := by
          have := vsk_resolveDeps key hrec entry.dependencies c
          rw [hq] at this
          exact this
        cases derr with
        | some e => exact h1
        | none =>
          cases entry.provider with
          | none => exact h1
          | some pr =>
            cases pr with
            | error e =>
              show visitStartKeys (tr1 ++ [Ev.providerRun key]) = []
              rw [visitStartKeys_append, h1]
              rfl
            | ok v0 =>
              try dsimp only
              cases hd : c1.applyDecorators key v0 with
              | mk dres dtr =>
                have hdl : visitStartKeys dtr = [] := by
                  have := vsk_decoratorsLoop key
                    ((alLookup c1.decorators key).getD []) 0 v0
                  have hd2 : (c1.applyDecorators key v0).2 = dtr := by rw [hd]
                  rw [← hd2]
                  exact this
                cases dres with
                | error e =>
                  show visitStartKeys ((tr1 ++ [Ev.providerRun key]) ++ dtr) = []
                  rw [visitStartKeys_append, visitStartKeys_append, h1, hdl]
                  rfl
                | ok v =>
                  try dsimp only
                  cases hlz : (entry.lazy && !entry.startRan &&
                      decide (c1.state = CState.running)) with
                  | false =>
                    show visitStartKeys ((tr1 ++ [Ev.providerRun key]) ++ dtr) = []
                    rw [visitStartKeys_append, visitStartKeys_append, h1, hdl]
                    rfl
                  | true =>
                    try dsimp only
                    cases hq2 : runLazyStart
                        { c1 with registry := Registry.setInstance c1.registry key v }
                        key entry with
                    | mk lerr c2 ltr =>
                      have hll : visitStartKeys ltr = [] := by
                        have := vsk_runLazyStart
                          ({ c1 with registry := Registry.setInstance c1.registry key v })
                          key entry
                        rw [hq2] at this
                        exact this
                      cases lerr with
                      | some e =>
                        show visitStartKeys
                          (((tr1 ++ [Ev.providerRun key]) ++ dtr) ++ ltr) = []
                        rw [visitStartKeys_append, visitStartKeys_append,
                          visitStartKeys_append, h1, hdl, hll]
                        rfl
                      | none =>
                        show visitStartKeys
                          (((tr1 ++ [Ev.providerRun key]) ++ dtr) ++ ltr) = []
                        rw [visitStartKeys_append, visitStartKeys_append,
                          visitStartKeys_append, h1, hdl, hll]
                        rfl
  | transient =>
    unfold resolveTransient
    cases hq : resolveDeps rec key entry.dependencies c with
    | mk derr c1 tr1 =>
      have h1 : visitStartKeys tr1 = [] := by
        have := vsk_resolveDeps key hrec entry.dependencies c
        rw [hq] at this
        exact this
      cases derr with
      | some e => exact h1
      | none =>
        cases entry.provider with
        | none => exact h1
        | some pr =>
          cases pr with
          | error e =>
            show visitStartKeys (tr1 ++ [Ev.providerRun key]) = []
            rw [visitStartKeys_append, h1]
            rfl
          | ok v0 =>
            try dsimp only
            cases hd : c1.applyDecorators key v0 with
            | mk dres dtr =>
              have hdl : visitStartKeys dtr = [] := by
                have := vsk_decoratorsLoop key
                  ((alLookup c1.decorators key).getD []) 0 v0
                have hd2 : (c1.applyDecorators key v0).2 = dtr := by rw [hd]
                rw [← hd2]
                exact this
              cases dres with
              | error e =>
                show visitStartKeys ((tr1 ++ [Ev.providerRun key]) ++ dtr) = []
                rw [visitStartKeys_append, visitStartKeys_append, h1, hdl]
                rfl
              | ok v =>
                show visitStartKeys ((tr1 ++ [Ev.providerRun key]) ++ dtr) = []
                rw [visitStartKeys_append, visitStartKeys_append, h1, hdl]
                rfl
  | request =>
    unfold resolveRequest
    cases hrs : c.reqScope with
    | none => rfl
    | some rs =>
      try dsimp only
      cases hlk : alLookup rs key with
      | some v => rfl
      | none =>
        cases hq : resolveDeps rec key entry.dependencies c with
        | mk derr c1 tr1 =>
          have h1 : visitStartKeys tr1 = [] := by
            have := vsk_resolveDeps key hrec entry.dependencies c
            rw [hq] at this
            exact this
          cases derr with
          | some e => exact h1
          | none =>
            cases entry.provider with
            | none => exact h1
            | some pr =>
              cases pr with
              | error e =>
                show visitStartKeys (tr1 ++ [Ev.providerRun key]) = []
                rw [visitStartKeys_append, h1]
                rfl
              | ok v0 =>
                try dsimp only
                cases hd : c1.applyDecorators key v0 with
                | mk dres dtr =>
                  have hdl : visitStartKeys dtr = [] := by
                    have := vsk_decoratorsLoop key
                      ((alLookup c1.decorators key).getD []) 0 v0
                    have hd2 : (c1.applyDecorators key v0).2 = dtr := by rw [hd]
                    rw [← hd2]
                    exact this
                  cases dres with
                  | error e =>
                    show visitStartKeys ((tr1 ++ [Ev.providerRun key]) ++ dtr) = []
                    rw [visitStartKeys_append, visitStartKeys_append, h1, hdl]
                    rfl
                  | ok v =>
                    show visitStartKeys ((tr1 ++ [Ev.providerRun key]) ++ dtr) = []
                    rw [visitStartKeys_append, visitStartKeys_append, h1, hdl]
                    rfl
  | pooled =>
    unfold resolvePooled
    cases hq0 : Registry.acquireFromPool c.registry key with
    | mk acq reg2 =>
      cases acq with
      | some v => rfl
      | none =>
        try dsimp only
        cases hq : resolveDeps rec key entry.dependencies c with
        | mk derr c1 tr1 =>
          have h1 : visitStartKeys tr1 = [] := by
            have := vsk_resolveDeps key hrec entry.dependencies c
            rw [hq] at this
            exact this
          cases derr with
          | some e => exact h1
          | none =>
            cases entry.provider with
            | none => exact h1
            | some pr =>
              cases pr with
              | error e =>
                show visitStartKeys (tr1 ++ [Ev.providerRun key]) = []
                rw [visitStartKeys_append, h1]
                rfl
              | ok v0 =>
                try dsimp only
                cases hd : c1.applyDecorators key v0 with
                | mk dres dtr =>
                  have hdl : visitStartKeys dtr = [] := by
                    have := vsk_decoratorsLoop key
                      ((alLookup c1.decorators key).getD []) 0 v0
                    have hd2 : (c1.applyDecorators key v0).2 = dtr := by rw [hd]
                    rw [← hd2]
                    exact this
                  cases dres with
                  | error e =>
                    show visitStartKeys ((tr1 ++ [Ev.providerRun key]) ++ dtr) = []
                    rw [visitStartKeys_append, visitStartKeys_append, h1, hdl]
                    rfl
                  | ok v =>
                    show visitStartKeys ((tr1 ++ [Ev.providerRun key]) ++ dtr) = []
                    rw [visitStartKeys_append, visitStartKeys_append, h1, hdl]
                    rfl

theorem vsk_resolveBody {V : Type} [Inhabited V] {rec : ResolverFn V} (key : String)
    (hrec : ∀ c k, visitStartKeys ((rec c k).tr) = []) (c : Container V) :
    visitStartKeys ((resolveBody rec c key).tr) = [] := by
  unfold resolveBody
  cases hg : c.resolving.contains key with
  | true => rfl
  | false =>
    try dsimp only
    cases hl : alLookup c.registry key with
    | none => rfl
    | some entry =>
      try dsimp only
      cases hq : resolveWithScope rec
          { c with resolving := key :: c.resolving } key entry with
      | mk res c2 tr2 =>
        have hs : visitStartKeys tr2 = [] := by
          have := vsk_resolveWithScope key entry hrec
            ({ c with resolving := key :: c.resolving })
          rw [hq] at this
          exact this
        show visitStartKeys
          (Ev.resolveEnter key :: tr2 ++ [Ev.observeResolve key (isOkE res)]) = []
        show visitStartKeys (tr2 ++ [Ev.observeResolve key (isOkE res)]) = []
        rw [visitStartKeys_append, hs]
        rfl

theorem vsk_resolveFuel {V : Type} [Inhabited V] (fuel : Nat) :
    ∀ (c : Container V) (key : String),
      visitStartKeys ((resolveFuel fuel c key).tr) = [] := by
  induction fuel with
  | zero => intro c key; rfl
  | succ n ih =>
    intro c key
    exact vsk_resolveBody key ih c

theorem vsk_startService {V : Type} [Inhabited V] (c : Container V) (key : String) :
    visitStartKeys ((startService c key).tr) = [] := by
  unfold startService
  cases hlz : Registry.isLazy c.registry key with
  | true => rfl
  | false =>
    try dsimp only
    cases hq : c.resolve key with
    | mk res c1 tr1 =>
      have hrt : visitStartKeys tr1 = [] := by
        have := vsk_resolveFuel (c.registry.length + 1) c key
        rw [show resolveFuel (c.registry.length + 1) c key = c.resolve key from rfl,
          hq] at this
        exact this
      cases res with
      | error e =>
        show visitStartKeys (tr1 ++ [Ev.observeStart key false]) = []
        rw [visitStartKeys_append, hrt]
        rfl
      | ok v =>
        try dsimp only
        cases hl : alLookup c1.registry key with
        | none => exact hrt
        | some entry =>
          try dsimp only
          cases hr : runHooksFwd entry.onStart with
          | mk e htr =>
            have hh : visitStartKeys htr = [] := by
              have := vsk_runHooksFwd entry.onStart
              rw [hr] at this
              exact this
            cases e with
            | some e0 =>
              show visitStartKeys
                ((tr1 ++ htr) ++ [Ev.observeStart key false]) = []
              rw [visitStartKeys_append, visitStartKeys_append, hrt, hh]
              rfl
            | none =>
              show visitStartKeys
                ((tr1 ++ htr) ++ [Ev.observeStart key true]) = []
              rw [visitStartKeys_append, visitStartKeys_append, hrt, hh]
              rfl

theorem vstop_stopService {V : Type} [Inhabited V] (c : Container V) (key : String) :
    visitStopKeys ((stopService c key).tr) = [] := by
  unfold stopService
  cases hl : alLookup c.registry key with
  | none => rfl
  | some entry =>
    try dsimp only
    cases hi : entry.instantiated with
    | false => rfl
    | true =>
      try dsimp only
      cases hr : runHooksRev key entry.onStop with
      | mk err htr =>
        have htrace := runHooksRev_trace key entry.onStop
        rw [hr] at htrace
        have htr2 : htr = entry.onStop.reverse.map (fun h => Ev.hookRun h.id) :=
          htrace
        show visitStopKeys (htr ++ [Ev.observeStop key err.isNone]) = []
        rw [visitStopKeys_append, htr2, vstopk_map_hookRun]
        rfl

theorem vsk_startSeqLoop {V : Type} [Inhabited V] :
    ∀ (keys : List String) (c : Container V),
      (startSeqLoop c keys).err = none →
      visitStartKeys ((startSeqLoop c keys).tr) = keys := by
  intro keys
  induction keys with
  | nil => intro c _; rfl
  | cons key rest ih =>
    intro c hok
    simp only [startSeqLoop] at hok ⊢
    cases hs : startService c key with
    | mk e1 c1 tr1 =>
      rw [hs] at hok
      cases e1 with
      | some e => exact absurd hok (by simp)
      | none =>
        try dsimp only at hok ⊢
        cases hq : startSeqLoop c1 rest with
        | mk e2 c2 tr2 =>
          rw [hq] at hok
          try dsimp only at hok ⊢
          have h1 : visitStartKeys tr1 = [] := by
            have := vsk_startService c key
            rw [hs] at this
            exact this
          have h2 : visitStartKeys tr2 = rest := by
            have := ih c1
            rw [hq] at this
            exact this hok
          show key :: visitStartKeys (tr1 ++ tr2) = key :: rest
          rw [visitStartKeys_append, h1, List.nil_append, h2]

theorem vstop_stopSeqLoop {V : Type} [Inhabited V] (ctx : Ctx)
    (hctx : ctx.canceled = false) :
    ∀ (keys : List String) (c : Container V),
      visitStopKeys ((stopSeqLoop ctx c keys).2.2) = keys := by
  intro keys
  induction keys with
  | nil => intro c; rfl
  | cons key rest ih =>
    intro c
    simp only [stopSeqLoop]
    rw [if_neg (show ¬(ctx.canceled = true) by
      rw [hctx]; exact Bool.false_ne_true)]
    cases hs : stopService c key with
    | mk err1 c1 tr1 =>
      try dsimp only
      cases hq : stopSeqLoop ctx c1 rest with
      | mk errs2 q2 =>
        cases q2 with
        | mk c2 tr2 =>
          try dsimp only
          have h1 : visitStopKeys tr1 = [] := by
            have := vstop_stopService c key
            rw [hs] at this
            exact this
          have h2 : visitStopKeys tr2 = rest := by
            have := ih c1
            rw [hq] at this
            exact this
          show key :: visitStopKeys (tr1 ++ tr2) = key :: rest
          rw [visitStopKeys_append, h1, List.nil_append, h2]

/-- C4: For the same graph snapshot, ShutdownOrder is exactly the
element-wise reverse of StartupOrder; when the startup order is
computed, a successful sequential Start visits the services in exactly
that forward list, and a sequential Stop whose context is not canceled
visits the services in exactly the shutdown (reversed) list. -/
theorem startup_shutdown_order_reverse {V : Type} [Inhabited V]
    (g : Graph) (c : Container V) (ctx : Ctx) (order dorder : List String)
    (hup : c.graph.startupOrder = Except.ok order)
    (hok : (startSequential c).err = none)
    (hdown : c.graph.shutdownOrder = Except.ok dorder)
    (hctx : ctx.canceled = false) :
    g.shutdownOrder = (match g.startupOrder with
      | Except.ok o => Except.ok o.reverse
      | Except.error e => Except.error e) ∧
    dorder = order.reverse ∧
    visitStartKeys ((startSequential c).tr) = order ∧
    visitStopKeys ((stopSequential ctx c).2.2) = dorder := by
  refine ⟨?_, ?_, ?_, ?_⟩
  · show (match g.topologicalSort with
        | Except.error e => Except.error e
        | Except.ok sorted => Except.ok sorted.reverse) =
      (match g.topologicalSort with
        | Except.ok o => Except.ok o.reverse
        | Except.error e => Except.error e)
    cases g.topologicalSort with
    | error e => rfl
    | ok o => rfl
  · have h1 : c.graph.shutdownOrder = Except.ok order.reverse := by
      show (match c.graph.topologicalSort with
          | Except.error e => Except.error e
          | Except.ok sorted => Except.ok sorted.reverse) = _
      have h0 : c.graph.topologicalSort = Except.ok order := hup
      rw [h0]
    rw [hdown] at h1
    exact Except.ok.inj h1
  · unfold startSequential at hok ⊢
    rw [hup] at hok ⊢
    exact vsk_startSeqLoop order c hok
  · unfold stopSequential
    rw [hdown]
    exact vstop_stopSeqLoop ctx hctx dorder c

/-- Witness for C4: on the two-service container, shutdown order
[b, a] reverses startup order [a, b]; start visits a then b; stop
visits b then a. -/
theorem startup_shutdown_order_reverse_witness :
    Graph.empty.shutdownOrder = (match Graph.empty.startupOrder with
      | Except.ok o => Except.ok o.reverse
      | Except.error e => Except.error e) ∧
    (["b", "a"] : List String) = (["a", "b"] : List String).reverse ∧
    visitStartKeys ((startSequential c4Example).tr) = ["a", "b"] ∧
    visitStopKeys ((stopSequential ⟨false⟩ c4Example).2.2) = ["b", "a"] :=
  startup_shutdown_order_reverse Graph.empty c4Example ⟨false⟩
    ["a", "b"] ["b", "a"] (by rfl) (by rfl) (by rfl) rfl

/-- C3 (amended): During Singleton resolution, provider, decorator,
and dependency failures propagate to the caller and leave the entry
exactly as it was, in particular with instantiated still false; a lazy
entry's OnStart hook failure also propagates, but by then the instance
has already been cached, so instantiated is true after the call. -/
theorem singleton_resolve_failure_instantiated {V : Type} [Inhabited V]
    (c : Container V) (key : String) (entry : ServiceEntry V)
    (hg : c.resolving.contains key = false)
    (hl : alLookup c.registry key = some entry)
    (hsc : entry.scope = Scope.singleton) :
    (∀ e, (c.resolve key).res = .error e →
      (∀ e0, e ≠ Err.onStartFailed key e0) →
      alLookup ((c.resolve key).c).registry key = some entry) ∧
    (∀ e0, (c.resolve key).res = .error (Err.onStartFailed key e0) →
      ∃ e2, alLookup ((c.resolve key).c).registry key = some e2 ∧
        e2.instantiated = true) := by
  have hbody : c.resolve key = resolveBody (resolveFuel c.registry.length) c key := rfl
  rw [hbody, resolveBody_unfold_found c key entry hg hl]
  have hws : resolveWithScope (resolveFuel c.registry.length)
      { c with resolving := key :: c.resolving } key entry =
      resolveSingleton (resolveFuel c.registry.length)
        { c with resolving := key :: c.resolving } key entry := by
    unfold resolveWithScope
    rw [hsc]
  rw [hws]
  constructor
  · intro e herr hshape
    try dsimp only at herr ⊢
    exact resolveSingleton_err_keeps key entry (frameEq_resolveFuel _)
      (keeps_resolveFuel _) ({ c with resolving := key :: c.resolving })
      (List.mem_cons_self key c.resolving) hl herr hshape
  · intro e0 herr
    try dsimp only at herr ⊢
    exact resolveSingleton_lazyfail_instantiated key entry (frameEq_resolveFuel _)
      (keeps_resolveFuel _) ({ c with resolving := key :: c.resolving })
      (List.mem_cons_self key c.resolving) hl herr

/-- Counterexample for C3 as stated: resolving the lazy entry L fails
in its OnStart hook, the error propagates, yet the entry is cached
with instantiated = true, not false. -/
theorem singleton_resolve_failure_instantiated_counterexample :
    (lazyStartFailExample.resolve "L").res =
      .error (Err.onStartFailed "L" (Err.userErr "boom")) ∧
    ((alLookup ((lazyStartFailExample.resolve "L").c).registry "L").map
      ServiceEntry.instantiated) = some true :=
  ⟨rfl, rfl⟩

/-- Witness for C3 (amended): a failing provider leaves the entry
exactly as registered, with instantiated still false. -/
theorem singleton_resolve_failure_instantiated_witness :
    alLookup ((providerFailExample.resolve "F").c).registry "F" =
      some (Registry.newEntry "F" (Except.error (Err.userErr "boom")) []) :=
  (singleton_resolve_failure_instantiated providerFailExample "F"
      (Registry.newEntry "F" (Except.error (Err.userErr "boom")) [])
      rfl rfl rfl).1
    (Err.providerFailed "F" (Err.userErr "boom")) rfl
    (fun e0 h => Err.noConfusion h)

/-- C2: For a Singleton-scoped entry, once a Resolve of the key has
succeeded, a later Resolve of that key returns the identical cached
instance, leaves the container unchanged, and its trace shows no
provider invocation, no decorator application, no hook run, and no
dependency resolution: it is exactly the resolve-enter and its success
observation. -/
theorem singleton_second_resolve_cached {V : Type} [Inhabited V]
    (c : Container V) (key : String) (entry : ServiceEntry V) (v : V)
    (hg : c.resolving.contains key = false)
    (hl : alLookup c.registry key = some entry)
    (hsc : entry.scope = Scope.singleton)
    (hok : (c.resolve key).res = .ok v) :
    ((c.resolve key).c).resolve key =
      ⟨.ok v, (c.resolve key).c, [.resolveEnter key, .observeResolve key true]⟩ := by
  obtain ⟨e2, hl2, hi2, hv2, hs2⟩ :=
    resolveFuel_ok_cached c.registry.length c key entry hg hl hsc hok
  have hf := frameEq_resolve c key
  have hg2 : ((c.resolve key).c).resolving.contains key = false := by
    rw [hf.2.2.2]
    exact hg
  have hfp := resolveFuel_fastpath (((c.resolve key).c).registry.length)
    ((c.resolve key).c) key e2 hg2 hl2 hs2 hi2
  rw [← hv2]
  exact hfp

/-- Witness for C2: after the first successful resolve of S, the
second resolve returns the cached instance with the two-event trace. -/
theorem singleton_second_resolve_cached_witness :
    ((singletonCachedExample.resolve "S").c).resolve "S" =
      ⟨.ok "s", (singletonCachedExample.resolve "S").c,
        [.resolveEnter "S", .observeResolve "S" true]⟩ :=
  singleton_second_resolve_cached singletonCachedExample "S"
    (Registry.newEntry "S" (Except.ok "s") []) "s" rfl rfl rfl rfl

/-- Counterexample for C7 as stated: with pool size 2, releasing j and
then i both succeed, yet the next Resolve returns j (the FIFO front),
not the most recently released instance i. -/
theorem pooled_release_then_resolve_counterexample :
    (pooledFifoExample.release "P" "j").1 = true ∧
    ((pooledFifoExample.release "P" "j").2.release "P" "i").1 = true ∧
    ((((pooledFifoExample.release "P" "j").2.release "P" "i").2.resolve "P").res =
      Except.ok "j") ∧
    ((((pooledFifoExample.release "P" "j").2.release "P" "i").2.resolve "P").res ≠
      Except.ok "i") := by
  refine ⟨rfl, rfl, rfl, ?_⟩
  intro h
  have : ("j" : String) = "i" := Except.ok.inj ((rfl :
    ((((pooledFifoExample.release "P" "j").2.release "P" "i").2.resolve "P").res =
      Except.ok "j")) ▸ h)
  exact absurd this (by decide)

/-- Witness for C7 (amended) at a concrete container with an empty
pool of capacity 2. -/
theorem pooled_release_then_resolve_witness :
    (pooledFifoExample.release "P" "x").1 = true ∧
    ((pooledFifoExample.release "P" "x").2.resolve "P").res = .ok "x" ∧
    ((pooledFifoExample.release "P" "x").2.resolve "P").tr =
      [.resolveEnter "P", .observeResolve "P" true] := by
  have h := (pooled_release_then_resolve pooledFifoExample "P"
    ({ Registry.newEntry "P" (Except.ok "fresh") [] with
        scope := Scope.pooled, poolSize := 2, pool := some (2, []) })
    "x" 2 rfl rfl rfl).1 rfl (by decide)
  exact h

/-- Witness for C1: registering B depending on A closes the A-B cycle,
is rejected, and restores the container exactly. -/
theorem register_cycle_rolls_back_atomically_witness :
    registerRollbackExample.register "B" (Except.ok "b") ["A"] =
      (.error (.circularDependency "B"), registerRollbackExample, []) ∧
    ((registerRollbackExample.register "B" (Except.ok "b") ["A"]).2.1).graph.hasCycle
      = false := by
  have h := register_cycle_rolls_back_atomically registerRollbackExample
    "B" (Except.ok "b") ["A"] rfl (by decide)
  exact ⟨h.1 rfl, h.2 rfl⟩

theorem alHas_iff_mem {α : Type} :
    ∀ (l : List (String × α)) (x : String), alHas l x = true ↔ x ∈ l.map Prod.fst
  | [], x => by simp [alHas]
  | p :: t, x => by
    simp only [alHas, List.map_cons, List.mem_cons]
    by_cases hx : p.1 = x
    · rw [if_pos hx]
      simp [hx]
    · rw [if_neg hx]
      rw [alHas_iff_mem t x]
      constructor
      · exact Or.inr
      · intro h
        exact h.resolve_left (fun he => hx he.symm)

theorem mem_keys_of_hasNode {g : Graph} {x : String} (h : g.hasNode x = true) :
    x ∈ g.keys :=
  (alHas_iff_mem g.nodes x).mp h

theorem hasNode_of_mem_keys {g : Graph} {x : String} (h : x ∈ g.keys) :
    g.hasNode x = true :=
  (alHas_iff_mem g.nodes x).mpr h

/-! ## Small list facts -/

theorem sublist_filter_imp {p q : String → Bool} :
    ∀ l : List String, (∀ a ∈ l, q a = true → p a = true) →
      List.Sublist (l.filter q) (l.filter p)
  | [], _ => by simp
  | a :: t, h => by
    have ht := sublist_filter_imp t (fun x hx => h x (List.mem_cons_of_mem a hx))
    by_cases hq : q a = true
    · have hp := h a (List.mem_cons_self a t) hq
      simpa [List.filter_cons, hq, hp] using List.Sublist.cons₂ a ht
    · rw [List.filter_cons, if_neg (by simpa using hq)]
      by_cases hp : p a = true
      · rw [List.filter_cons, if_pos (by simpa using hp)]
        exact List.Sublist.cons a ht
      · rw [List.filter_cons, if_neg (by simpa using hp)]
        exact ht

theorem length_lt_of_sublist_missing {l' l : List String} {a : String}
    (hs : List.Sublist l' l) (ha : a ∈ l) (ha' : a ∉ l') : l'.length < l.length := by
  rcases Nat.lt_or_ge l'.length l.length with h | h
  · exact h
  · have he : l'.length = l.length :=
      Nat.le_antisymm (List.Sublist.length_le hs) h
    exact absurd (((List.Sublist.length_eq hs).mp he) ▸ ha) ha'


/-! ## Direction A: the white-gray DFS only reports true on a real cycle -/

theorem dfs_frame_deps {g : Graph} {visit : String → DfsSt → Bool × DfsSt}
    (hv : ∀ i s, i ∉ s.gray → (visit i s).1 = false →
      (visit i s).2.gray = s.gray ∧ List.Sublist (visit i s).2.white s.white) :
    ∀ (deps : List String) (st : DfsSt),
      (dfsDeps visit g deps st).1 = false →
      (dfsDeps visit g deps st).2.gray = st.gray ∧
        List.Sublist (dfsDeps visit g deps st).2.white st.white
  | [], st => by intro _; exact ⟨rfl, List.Sublist.refl _⟩
  | dep :: rest, st => by
    intro hf
    simp only [dfsDeps] at hf ⊢
    by_cases hn : g.hasNode dep = true
    · rw [if_pos hn] at hf ⊢
      by_cases hgr : st.gray.contains dep = true
      · rw [if_pos hgr] at hf
        exact absurd hf (by simp)
      · rw [if_neg hgr] at hf ⊢
        by_cases hw : st.white.contains dep = true
        · rw [if_pos hw] at hf ⊢
          have hng : dep ∉ st.gray := by
            intro hm
            exact hgr (by simpa [List.contains] using List.elem_iff.mpr hm)
          cases hq : visit dep st with
          | mk b st2 =>
            rw [hq] at hf
            cases b with
            | true => exact absurd hf (by simp)
            | false =>
              try dsimp only at hf ⊢
              have hfr := hv dep st hng (by rw [hq])
              rw [hq] at hfr
              have hrest := dfs_frame_deps hv rest st2 hf
              exact ⟨hrest.1.trans hfr.1, hrest.2.trans hfr.2⟩
        · rw [if_neg hw] at hf ⊢
          exact dfs_frame_deps hv rest st hf
    · rw [if_neg hn] at hf ⊢
      exact dfs_frame_deps hv rest st hf

theorem dfs_frame_visit (g : Graph) :
    ∀ (fuel : Nat) (id : String) (st : DfsSt), id ∉ st.gray →
      (dfsVisit g fuel id st).1 = false →
      (dfsVisit g fuel id st).2.gray = st.gray ∧
        List.Sublist (dfsVisit g fuel id st).2.white st.white
  | 0, id, st => by intro _ _; exact ⟨rfl, List.Sublist.refl _⟩
  | fuel + 1, id, st => by
    intro hng hf
    simp only [dfsVisit] at hf ⊢
    cases hq : dfsDeps (fun i s => dfsVisit g fuel i s) g (g.succs id)
        ⟨st.white.filter (fun x => x ≠ id), id :: st.gray⟩ with
    | mk b st2 =>
      rw [hq] at hf
      cases b with
      | true => exact absurd hf (by simp)
      | false =>
        try dsimp only at hf ⊢
        have hfr := dfs_frame_deps
          (fun i s hi hfi => dfs_frame_visit g fuel i s hi hfi)
          (g.succs id) ⟨st.white.filter (fun x => x ≠ id), id :: st.gray⟩
          (by rw [hq])
        rw [hq] at hfr
        refine ⟨?_, ?_⟩
        · show (st2.gray.filter (fun x => x ≠ id)) = st.gray
          rw [hfr.1]
          show ((id :: st.gray).filter (fun x => x ≠ id)) = st.gray
          rw [List.filter_cons]
          rw [if_neg (by simp)]
          exact filter_ne_of_not_mem hng
        · exact hfr.2.trans (List.filter_sublist st.white)

theorem mem_of_contains {l : List String} {a : String}
    (h : l.contains a = true) : a ∈ l := by
  simpa [List.contains] using List.elem_iff.mp h

theorem dfs_sound_deps {g : Graph} {visit : String → DfsSt → Bool × DfsSt} (id : String)
    (hv : ∀ i s, g.hasNode i = true →
      (∀ x ∈ s.gray, Relation.ReflTransGen (edgeOK g) x i) →
      (visit i s).1 = true → cyclicG g)
    (hvf : ∀ i s, i ∉ s.gray → (visit i s).1 = false →
      (visit i s).2.gray = s.gray ∧ List.Sublist (visit i s).2.white s.white)
    (hid : g.hasNode id = true) :
    ∀ (deps : List String) (st : DfsSt), (∀ d ∈ deps, d ∈ g.succs id) →
      (∀ x ∈ st.gray, Relation.ReflTransGen (edgeOK g) x id) →
      (dfsDeps visit g deps st).1 = true → cyclicG g
  | [], st => by
    intro _ _ hf
    exact absurd hf (by simp [dfsDeps])
  | dep :: rest, st => by
    intro hdeps hgr hf
    simp only [dfsDeps] at hf
    by_cases hn : g.hasNode dep = true
    · rw [if_pos hn] at hf
      by_cases hgc : st.gray.contains dep = true
      · rw [if_pos hgc] at hf
        have hmem : dep ∈ st.gray := mem_of_contains hgc
        have hedge : edgeOK g id dep :=
          ⟨hid, hn, hdeps dep (List.mem_cons_self dep rest)⟩
        exact ⟨dep, Relation.TransGen.tail' (hgr dep hmem) hedge⟩
      · rw [if_neg hgc] at hf
        by_cases hw : st.white.contains dep = true
        · rw [if_pos hw] at hf
          cases hq : visit dep st with
          | mk b st2 =>
            rw [hq] at hf
            cases b with
            | true =>
              have hedge : edgeOK g id dep :=
                ⟨hid, hn, hdeps dep (List.mem_cons_self dep rest)⟩
              exact hv dep st hn
                (fun x hx => Relation.ReflTransGen.tail (hgr x hx) hedge)
                (by rw [hq])
            | false =>
              try dsimp only at hf
              have hng : dep ∉ st.gray := fun hm =>
                hgc (by simpa [List.contains] using List.elem_iff.mpr hm)
              have hfr := hvf dep st hng (by rw [hq])
              rw [hq] at hfr
              exact dfs_sound_deps id hv hvf hid rest st2
                (fun d hd => hdeps d (List.mem_cons_of_mem dep hd))
                (fun x hx => hgr x (hfr.1 ▸ hx)) hf
        · rw [if_neg hw] at hf
          exact dfs_sound_deps id hv hvf hid rest st
            (fun d hd => hdeps d (List.mem_cons_of_mem dep hd)) hgr hf
    · rw [if_neg hn] at hf
      exact dfs_sound_deps id hv hvf hid rest st
        (fun d hd => hdeps d (List.mem_cons_of_mem dep hd)) hgr hf

theorem dfs_sound_visit (g : Graph) :
    ∀ (fuel : Nat) (id : String) (st : DfsSt), g.hasNode id = true →
      (∀ x ∈ st.gray, Relation.ReflTransGen (edgeOK g) x id) →
      (dfsVisit g fuel id st).1 = true → cyclicG g
  | 0, id, st => by
    intro _ _ hf
    exact absurd hf (by simp [dfsVisit])
  | fuel + 1, id, st => by
    intro hid hgr hf
    simp only [dfsVisit] at hf
    cases hq : dfsDeps (fun i s => dfsVisit g fuel i s) g (g.succs id)
        ⟨st.white.filter (fun x => x ≠ id), id :: st.gray⟩ with
    | mk b st2 =>
      rw [hq] at hf
      cases b with
      | false => exact absurd hf (by simp)
      | true =>
        refine dfs_sound_deps id
          (fun i s hni hgi ht => dfs_sound_visit g fuel i s hni hgi ht)
          (fun i s hi hfi => dfs_frame_visit g fuel i s hi hfi)
          hid (g.succs id) ⟨st.white.filter (fun x => x ≠ id), id :: st.gray⟩
          (fun d hd => hd) ?_ (by rw [hq])
        intro x hx
        rcases List.mem_cons.mp hx with h | h
        · exact h ▸ Relation.ReflTransGen.refl
        · exact hgr x h

theorem hasCycleLoop_sound (g : Graph) :
    ∀ (keys : List String) (st : DfsSt), List.Sublist st.white g.keys →
      st.gray = [] → hasCycleLoop g keys st = true → cyclicG g
  | [], st => by
    intro _ _ hf
    exact absurd hf (by simp [hasCycleLoop])
  | id :: rest, st => by
    intro hsub hgray hf
    simp only [hasCycleLoop] at hf
    by_cases hw : st.white.contains id = true
    · rw [if_pos hw] at hf
      cases hq : dfsVisit g (g.keys.length + 1) id st with
      | mk b st2 =>
        rw [hq] at hf
        cases b with
        | true =>
          have hid : g.hasNode id = true :=
            hasNode_of_mem_keys (hsub.subset (mem_of_contains hw))
          exact dfs_sound_visit g (g.keys.length + 1) id st hid
            (fun x hx => absurd hx (by simp [hgray])) (by rw [hq])
        | false =>
          have hng : id ∉ st.gray := by simp [hgray]
          have hfr := dfs_frame_visit g (g.keys.length + 1) id st hng (by rw [hq])
          rw [hq] at hfr
          exact hasCycleLoop_sound g rest st2 (hfr.2.trans hsub)
            (hfr.1.trans hgray) hf
    · rw [if_neg hw] at hf
      exact hasCycleLoop_sound g rest st hsub hgray hf

theorem hasCycle_sound {g : Graph} (h : g.hasCycle = true) : cyclicG g :=
  hasCycleLoop_sound g g.keys ⟨g.keys, []⟩ (List.Sublist.refl _) rfl h

theorem blacks_rtg {g : Graph} {st : DfsSt} (hinv : DInvB g st) {x y : String}
    (hx : Blacks g st x) (h : Relation.ReflTransGen (edgeOK g) x y) :
    Blacks g st y := by
  induction h with
  | refl => exact hx
  | tail hr hstep ih => exact hinv _ ih _ hstep

theorem length_filter_ne_lt {l : List String} {a : String} (h : a ∈ l) :
    (l.filter (fun x => x ≠ a)).length < l.length :=
  length_lt_of_sublist_missing (List.filter_sublist l) h (by simp)

theorem dfs_black_deps (g : Graph) (fuel : Nat)
    (hv : ∀ i s, s.white.length < fuel → i ∈ s.white → i ∉ s.gray →
      g.hasNode i = true → DInvB g s → DAcyB g s →
      (dfsVisit g fuel i s).1 = false →
      (dfsVisit g fuel i s).2.gray = s.gray ∧
      List.Sublist (dfsVisit g fuel i s).2.white s.white ∧
      i ∉ (dfsVisit g fuel i s).2.white ∧
      DInvB g (dfsVisit g fuel i s).2 ∧ DAcyB g (dfsVisit g fuel i s).2 ∧
      (∀ x, Blacks g s x → Blacks g (dfsVisit g fuel i s).2 x)) :
    ∀ (deps : List String) (st : DfsSt),
      st.white.length < fuel → DInvB g st → DAcyB g st →
      (dfsDeps (fun i s => dfsVisit g fuel i s) g deps st).1 = false →
      (dfsDeps (fun i s => dfsVisit g fuel i s) g deps st).2.gray = st.gray ∧
      List.Sublist (dfsDeps (fun i s => dfsVisit g fuel i s) g deps st).2.white st.white ∧
      DInvB g (dfsDeps (fun i s => dfsVisit g fuel i s) g deps st).2 ∧
      DAcyB g (dfsDeps (fun i s => dfsVisit g fuel i s) g deps st).2 ∧
      (∀ x, Blacks g st x → Blacks g (dfsDeps (fun i s => dfsVisit g fuel i s) g deps st).2 x) ∧
      (∀ d ∈ deps, g.hasNode d = true →
        Blacks g (dfsDeps (fun i s => dfsVisit g fuel i s) g deps st).2 d)
  | [], st => by
    intro _ hinv hacy _
    exact ⟨rfl, List.Sublist.refl _, hinv, hacy, fun x hx => hx, by simp⟩
  | dep :: rest, st => by
    intro hlen hinv hacy hf
    simp only [dfsDeps] at hf ⊢
    by_cases hn : g.hasNode dep = true
    · rw [if_pos hn] at hf ⊢
      by_cases hgc : st.gray.contains dep = true
      · rw [if_pos hgc] at hf
        exact absurd hf (by simp)
      · rw [if_neg hgc] at hf ⊢
        by_cases hw : st.white.contains dep = true
        · rw [if_pos hw] at hf ⊢
          cases hq : dfsVisit g fuel dep st with
          | mk b st2 =>
            rw [hq] at hf
            cases b with
            | true => exact absurd hf (by simp)
            | false =>
              try dsimp only at hf ⊢
              have hng : dep ∉ st.gray := fun hm =>
                hgc (by simpa [List.contains] using List.elem_iff.mpr hm)
              have hpost := hv dep st hlen (mem_of_contains hw) hng hn hinv hacy
                (by rw [hq])
              rw [hq] at hpost
              obtain ⟨hg2, hw2, hdep2, hinv2, hacy2, hmono2⟩ := hpost
              have hlen2 : st2.white.length < fuel :=
                Nat.lt_of_le_of_lt (List.Sublist.length_le hw2) hlen
              have hrest := dfs_black_deps g fuel hv rest st2 hlen2 hinv2 hacy2 hf
              have hdepb : Blacks g st2 dep := ⟨hn, hdep2, hg2 ▸ hng⟩
              refine ⟨hrest.1.trans hg2, hrest.2.1.trans hw2, hrest.2.2.1,
                hrest.2.2.2.1, fun x hx => hrest.2.2.2.2.1 x (hmono2 x hx), ?_⟩
              intro d hd hnd
              rcases List.mem_cons.mp hd with h | h
              · exact h ▸ hrest.2.2.2.2.1 dep hdepb
              · exact hrest.2.2.2.2.2 d h hnd
        · rw [if_neg hw] at hf ⊢
          have hrest := dfs_black_deps g fuel hv rest st hlen hinv hacy hf
          refine ⟨hrest.1, hrest.2.1, hrest.2.2.1, hrest.2.2.2.1,
            hrest.2.2.2.2.1, ?_⟩
          intro d hd hnd
          rcases List.mem_cons.mp hd with h | h
          · subst h
            have hdb : Blacks g st d :=
              ⟨hnd, fun hm => hw (by simpa [List.contains] using List.elem_iff.mpr hm),
               fun hm => hgc (by simpa [List.contains] using List.elem_iff.mpr hm)⟩
            exact hrest.2.2.2.2.1 d hdb
          · exact hrest.2.2.2.2.2 d h hnd
    · rw [if_neg hn] at hf ⊢
      have hrest := dfs_black_deps g fuel hv rest st hlen hinv hacy hf
      refine ⟨hrest.1, hrest.2.1, hrest.2.2.1, hrest.2.2.2.1,
        hrest.2.2.2.2.1, ?_⟩
      intro d hd hnd
      rcases List.mem_cons.mp hd with h | h
      · exact absurd hnd (h ▸ (by simpa using hn))
      · exact hrest.2.2.2.2.2 d h hnd

theorem dfs_black_visit (g : Graph) :
    ∀ (fuel : Nat) (id : String) (st : DfsSt),
      st.white.length < fuel → id ∈ st.white → id ∉ st.gray →
      g.hasNode id = true → DInvB g st → DAcyB g st →
      (dfsVisit g fuel id st).1 = false →
      (dfsVisit g fuel id st).2.gray = st.gray ∧
      List.Sublist (dfsVisit g fuel id st).2.white st.white ∧
      id ∉ (dfsVisit g fuel id st).2.white ∧
      DInvB g (dfsVisit g fuel id st).2 ∧ DAcyB g (dfsVisit g fuel id st).2 ∧
      (∀ x, Blacks g st x → Blacks g (dfsVisit g fuel id st).2 x)
  | 0, id, st => by
    intro hlen _ _ _ _ _ _
    exact absurd hlen (by simp)
  | fuel + 1, id, st => by
    intro hlen hidw hidg hidn hinv hacy hf
    simp only [dfsVisit] at hf ⊢
    cases hq : dfsDeps (fun i s => dfsVisit g fuel i s) g (g.succs id)
        ⟨st.white.filter (fun x => x ≠ id), id :: st.gray⟩ with
    | mk b st2 =>
      rw [hq] at hf
      cases b with
      | true => exact absurd hf (by simp)
      | false =>
        try dsimp only at hf ⊢
        have hbiff : ∀ x, Blacks g ⟨st.white.filter (fun x => x ≠ id),
            id :: st.gray⟩ x ↔ Blacks g st x := by
          intro x
          constructor
          · rintro ⟨h1, h2, h3⟩
            have hxid : x ≠ id := by
              intro he
              exact h3 (he ▸ List.mem_cons_self id st.gray)
            refine ⟨h1, ?_, fun hm => h3 (List.mem_cons_of_mem id hm)⟩
            intro hm
            exact h2 (List.mem_filter.mpr ⟨hm, by simpa using hxid⟩)
          · rintro ⟨h1, h2, h3⟩
            refine ⟨h1, fun hm => h2 (List.filter_sublist st.white |>.subset hm), ?_⟩
            intro hm
            rcases List.mem_cons.mp hm with he | hm2
            · exact h2 (he ▸ hidw)
            · exact h3 hm2
        have hinv1 : DInvB g ⟨st.white.filter (fun x => x ≠ id), id :: st.gray⟩ :=
          fun b hb dep hd => (hbiff dep).mpr (hinv b ((hbiff b).mp hb) dep hd)
        have hacy1 : DAcyB g ⟨st.white.filter (fun x => x ≠ id), id :: st.gray⟩ :=
          fun x hx => hacy x ((hbiff x).mp hx)
        have hlen1 : (st.white.filter (fun x => x ≠ id)).length < fuel :=
          Nat.lt_of_lt_of_le (length_filter_ne_lt hidw) (Nat.lt_succ_iff.mp hlen)
        have hpost := dfs_black_deps g fuel
          (fun i s a1 a2 a3 a4 a5 a6 a7 => dfs_black_visit g fuel i s a1 a2 a3 a4 a5 a6 a7)
          (g.succs id) ⟨st.white.filter (fun x => x ≠ id), id :: st.gray⟩
          hlen1 hinv1 hacy1 (by rw [hq])
        rw [hq] at hpost
        obtain ⟨hg2, hw2, hinv2, hacy2, hmono2, hsuccb⟩ := hpost
        have hg2' : st2.gray = id :: st.gray := hg2
        have hidnw2 : id ∉ st2.white := fun hm => by
          have := hw2.subset hm
          exact absurd (List.mem_filter.mp this).2 (by simp)
        have hgray' : st2.gray.filter (fun x => x ≠ id) = st.gray := by
          rw [hg2']
          rw [List.filter_cons, if_neg (by simp)]
          exact filter_ne_of_not_mem hidg
        have hb'_of_b2 : ∀ x, Blacks g st2 x →
            Blacks g ⟨st2.white, st2.gray.filter (fun x => x ≠ id)⟩ x := by
          rintro x ⟨h1, h2, h3⟩
          exact ⟨h1, h2, fun hm => h3 ((List.filter_sublist st2.gray).subset hm)⟩
        have hb'_id : Blacks g ⟨st2.white, st2.gray.filter (fun x => x ≠ id)⟩ id := by
          refine ⟨hidn, hidnw2, ?_⟩
          rw [hgray']
          exact hidg
        have hb2_of_b' : ∀ x, x ≠ id →
            Blacks g ⟨st2.white, st2.gray.filter (fun x => x ≠ id)⟩ x →
            Blacks g st2 x := by
          rintro x hxid ⟨h1, h2, h3⟩
          rw [hgray'] at h3
          refine ⟨h1, h2, ?_⟩
          rw [hg2']
          intro hm
          rcases List.mem_cons.mp hm with he | hm2
          · exact hxid he
          · exact h3 hm2
        have hinv' : DInvB g ⟨st2.white, st2.gray.filter (fun x => x ≠ id)⟩ := by
          intro b hb dep hd
          by_cases hbid : b = id
          · subst hbid
            exact hb'_of_b2 dep (hsuccb dep hd.2.2 hd.2.1)
          · exact hb'_of_b2 dep (hinv2 b (hb2_of_b' b hbid hb) dep hd)
        have hnoedge : ∀ y, Blacks g ⟨st2.white, st2.gray.filter (fun x => x ≠ id)⟩ y →
            ¬ edgeOK g y id := by
          intro y hy hedge
          by_cases hyid : y = id
          · have hb := hsuccb id (hyid ▸ hedge.2.2) hedge.2.1
            have h3 := hb.2.2
            rw [hg2'] at h3
            exact h3 (List.mem_cons_self id st.gray)
          · have hy2 := hinv2 y (hb2_of_b' y hyid hy) id hedge
            have h3 := hy2.2.2
            rw [hg2'] at h3
            exact h3 (List.mem_cons_self id st.gray)
        have hacy' : DAcyB g ⟨st2.white, st2.gray.filter (fun x => x ≠ id)⟩ := by
          intro x hx hcyc
          by_cases hxid : x = id
          · subst hxid
            obtain ⟨y, hxy, hyx⟩ := Relation.TransGen.tail'_iff.mp hcyc
            exact hnoedge y (blacks_rtg hinv' hb'_id hxy) hyx
          · exact hacy2 x (hb2_of_b' x hxid hx) hcyc
        refine ⟨hgray', hw2.trans (List.filter_sublist st.white), hidnw2,
          hinv', hacy', ?_⟩
        intro x hx
        exact hb'_of_b2 x (hmono2 x ((hbiff x).mpr hx))

theorem hasCycleLoop_black (g : Graph) :
    ∀ (keys : List String) (st : DfsSt), List.Sublist st.white g.keys →
      st.gray = [] → (∀ k ∈ keys, g.hasNode k = true) →
      DInvB g st → DAcyB g st →
      hasCycleLoop g keys st = false →
      ∃ st', DInvB g st' ∧ DAcyB g st' ∧
        (∀ x, Blacks g st x → Blacks g st' x) ∧
        (∀ k ∈ keys, Blacks g st' k)
  | [], st => by
    intro _ _ _ hinv hacy _
    exact ⟨st, hinv, hacy, fun x hx => hx, by simp⟩
  | id :: rest, st => by
    intro hsub hgray hkn hinv hacy hf
    simp only [hasCycleLoop] at hf
    by_cases hw : st.white.contains id = true
    · rw [if_pos hw] at hf
      cases hq : dfsVisit g (g.keys.length + 1) id st with
      | mk b st2 =>
        rw [hq] at hf
        cases b with
        | true => exact absurd hf (by simp)
        | false =>
          have hlen : st.white.length < g.keys.length + 1 :=
            Nat.lt_succ_of_le (List.Sublist.length_le hsub)
          have hng : id ∉ st.gray := by simp [hgray]
          have hpost := dfs_black_visit g (g.keys.length + 1) id st hlen
            (mem_of_contains hw) hng (hkn id (List.mem_cons_self id rest))
            hinv hacy (by rw [hq])
          rw [hq] at hpost
          obtain ⟨hg2, hw2, hidw2, hinv2, hacy2, hmono2⟩ := hpost
          obtain ⟨st', hinv', hacy', hmono', hkeys'⟩ :=
            hasCycleLoop_black g rest st2 (hw2.trans hsub) (hg2.trans hgray)
              (fun k hk => hkn k (List.mem_cons_of_mem id hk)) hinv2 hacy2 hf
          refine ⟨st', hinv', hacy', fun x hx => hmono' x (hmono2 x hx), ?_⟩
          intro k hk
          rcases List.mem_cons.mp hk with he | hk2
          · subst he
            have hbid : Blacks g st2 k :=
              ⟨hkn k (List.mem_cons_self k rest), hidw2, by
                rw [hg2, hgray]
                exact List.not_mem_nil _⟩
            exact hmono' k hbid
          · exact hkeys' k hk2
    · rw [if_neg hw] at hf
      have hbid : Blacks g st id :=
        ⟨hkn id (List.mem_cons_self id rest),
         fun hm => hw (by simpa [List.contains] using List.elem_iff.mpr hm),
         by simp [hgray]⟩
      obtain ⟨st', hinv', hacy', hmono', hkeys'⟩ :=
        hasCycleLoop_black g rest st hsub hgray
          (fun k hk => hkn k (List.mem_cons_of_mem id hk)) hinv hacy hf
      refine ⟨st', hinv', hacy', hmono', ?_⟩
      intro k hk
      rcases List.mem_cons.mp hk with he | hk2
      · exact he ▸ hmono' id hbid
      · exact hkeys' k hk2

theorem hasCycle_complete {g : Graph} (h : g.hasCycle = false) : ¬ cyclicG g := by
  rintro ⟨x, hx⟩
  have hxn : g.hasNode x = true := by
    obtain ⟨y, hxy, _⟩ := Relation.TransGen.head'_iff.mp hx
    exact hxy.1
  have hinv0 : DInvB g ⟨g.keys, []⟩ := by
    rintro b ⟨h1, h2, _⟩ dep _
    exact absurd (mem_keys_of_hasNode h1) h2
  have hacy0 : DAcyB g ⟨g.keys, []⟩ := by
    rintro b ⟨h1, h2, _⟩ _
    exact absurd (mem_keys_of_hasNode h1) h2
  obtain ⟨st', _, hacy', _, hkeys'⟩ :=
    hasCycleLoop_black g g.keys ⟨g.keys, []⟩ (List.Sublist.refl _) rfl
      (fun k hk => hasNode_of_mem_keys hk) hinv0 hacy0 h
  exact hacy' x (hkeys' x (mem_keys_of_hasNode hxn)) hx

/-! ## Tarjan: small helpers -/

theorem alLookup_alAdjust_const {α : Type} :
    ∀ (l : List (String × α)) (k : String) (v : α), alHas l k = true →
      alLookup (alAdjust l k (fun _ => v)) k = some v
  | [], k, v => by
    intro h
    exact absurd h Bool.false_ne_true
  | p :: t, k, v => by
    intro h
    simp only [alHas] at h
    simp only [alAdjust, alLookup]
    by_cases hk : p.1 = k
    · rw [if_pos hk, if_pos hk]
    · rw [if_neg hk] at h
      rw [if_neg hk, if_neg hk]
      exact alLookup_alAdjust_const t k v h

theorem alLookup_alAdjust_other {α : Type} :
    ∀ (l : List (String × α)) (k k0 : String) (f : α → α), k0 ≠ k →
      alLookup (alAdjust l k f) k0 = alLookup l k0
  | [], _, _, _ => by intro _; rfl
  | p :: t, k, k0, f => by
    intro h
    simp only [alAdjust]
    by_cases hk : p.1 = k
    · rw [if_pos hk]
      show alLookup ((p.1, f p.2) :: alAdjust t k f) k0 = alLookup (p :: t) k0
      have hpk0 : ¬ p.1 = k0 := fun he => h (hk ▸ he ▸ rfl)
      simp only [alLookup]
      rw [if_neg hpk0, if_neg hpk0]
      exact alLookup_alAdjust_other t k k0 f h
    · rw [if_neg hk]
      show alLookup (p :: alAdjust t k f) k0 = alLookup (p :: t) k0
      simp only [alLookup]
      by_cases hk0 : p.1 = k0
      · rw [if_pos hk0, if_pos hk0]
      · rw [if_neg hk0, if_neg hk0]
        exact alLookup_alAdjust_other t k k0 f h

theorem alLookup_append_single_self {α : Type} :
    ∀ (l : List (String × α)) (k : String) (v : α), alHas l k = false →
      alLookup (l ++ [(k, v)]) k = some v
  | [], k, v => by simp [alLookup]
  | p :: t, k, v => by
    intro h
    simp only [alHas] at h
    simp only [List.cons_append, alLookup]
    by_cases hk : p.1 = k
    · rw [if_pos hk] at h
      exact absurd h (by simp)
    · rw [if_neg hk] at h ⊢
      exact alLookup_append_single_self t k v h

theorem alLookup_append_single_ne {α : Type} :
    ∀ (l : List (String × α)) (k k0 : String) (v : α), k0 ≠ k →
      alLookup (l ++ [(k, v)]) k0 = alLookup l k0
  | [], k, k0, v => by
    intro h
    simp only [List.nil_append, alLookup]
    rw [if_neg (fun he => h he.symm)]
  | p :: t, k, k0, v => by
    intro h
    simp only [List.cons_append, alLookup]
    by_cases hk0 : p.1 = k0
    · rw [if_pos hk0, if_pos hk0]
    · rw [if_neg hk0, if_neg hk0]
      exact alLookup_append_single_ne t k k0 v h

theorem alLookup_alInsert_self {α : Type} (l : List (String × α)) (k : String) (v : α) :
    alLookup (alInsert l k v) k = some v := by
  unfold alInsert
  by_cases h : alHas l k = true
  · rw [if_pos h]
    exact alLookup_alAdjust_const l k v h
  · rw [if_neg h]
    exact alLookup_append_single_self l k v (Bool.not_eq_true _ ▸ h)

theorem alLookup_alInsert_ne {α : Type} (l : List (String × α)) {k k0 : String} (v : α)
    (h : k0 ≠ k) : alLookup (alInsert l k v) k0 = alLookup l k0 := by
  unfold alInsert
  by_cases hh : alHas l k = true
  · rw [if_pos hh]
    exact alLookup_alAdjust_other l k k0 (fun _ => v) h
  · rw [if_neg hh]
    exact alLookup_append_single_ne l k k0 v h

theorem popScc_spec (id : String) :
    ∀ (d : List String) (rest : List String), id ∉ d →
      popScc id (d ++ id :: rest) = (d ++ [id], rest)
  | [], rest => by
    intro _
    simp [popScc]
  | w :: d, rest => by
    intro h
    have hw : ¬ w = id := fun he => h (he ▸ List.mem_cons_self w d)
    have ih : popScc id (d.append (id :: rest)) = (d ++ [id], rest) :=
      popScc_spec id d rest (fun hm => h (List.mem_cons_of_mem w hm))
    simp only [List.cons_append, popScc, if_neg hw, ih]

theorem uvT_le_keys (g : Graph) (st : TarSt) : uvT g st ≤ g.keys.length :=
  List.Sublist.length_le (List.filter_sublist g.keys)

theorem uvT_mono {g : Graph} {st st' : TarSt}
    (h : ∀ k, (alLookup st.indices k).isSome = true →
      (alLookup st'.indices k).isSome = true) :
    uvT g st' ≤ uvT g st := by
  refine List.Sublist.length_le (sublist_filter_imp g.keys ?_)
  intro a _ ha
  rw [Option.isNone_iff_eq_none] at ha ⊢
  cases hq : alLookup st.indices a with
  | none => rfl
  | some j =>
    have := h a (by rw [hq]; rfl)
    rw [ha] at this
    exact absurd this (by simp)

theorem uvT_drop {g : Graph} {st st' : TarSt} {id : String}
    (hn : g.hasNode id = true)
    (hid : alLookup st.indices id = none)
    (hid' : (alLookup st'.indices id).isSome = true)
    (h : ∀ k, (alLookup st.indices k).isSome = true →
      (alLookup st'.indices k).isSome = true) :
    uvT g st' < uvT g st := by
  refine length_lt_of_sublist_missing (sublist_filter_imp g.keys ?_)
    (List.mem_filter.mpr ⟨mem_keys_of_hasNode hn, by simp [hid]⟩) ?_
  · intro a _ ha
    rw [Option.isNone_iff_eq_none] at ha ⊢
    cases hq : alLookup st.indices a with
    | none => rfl
    | some j =>
      have := h a (by rw [hq]; rfl)
      rw [ha] at this
      exact absurd this (by simp)
  · intro hm
    have := (List.mem_filter.mp hm).2
    rw [Option.isNone_iff_eq_none] at this
    rw [this] at hid'
    exact absurd hid' (by simp)

theorem TInv_lowlink_irrel {g : Graph} {st : TarSt} (h : TInv g st) (L : List (String × Nat)) :
    TInv g { st with lowlink := L } :=
  ⟨h.so, h.nd, h.stk_idx, h.idx_lt, h.sorted, h.stk_node⟩

theorem filter_not_contains_single {l : List String} {id : String} (h : id ∉ l) :
    l.filter (fun w => !([id].contains w)) = l := by
  induction l with
  | nil => rfl
  | cons a t ih =>
    simp only [List.mem_cons] at h
    push_neg at h
    rw [List.filter_cons, if_pos (by simpa using Ne.symm h.1), ih h.2]

theorem tarjan_acyc_deps (g : Graph) (hacy : ¬ cyclicG g) (fuel : Nat)
    (hv : ∀ i s, uvT g s < fuel → g.hasNode i = true →
      alLookup s.indices i = none → TInv g s →
      (∀ w ∈ s.onStack, Relation.ReflTransGen (edgeOK g) w i) →
      CPost g s (strongConnect g fuel i s) i) :
    ∀ (deps : List String) (id : String) (idIdx : Nat) (st : TarSt),
      uvT g st < fuel → g.hasNode id = true → (∀ d ∈ deps, d ∈ g.succs id) →
      alLookup st.indices id = some idIdx →
      alLookup st.lowlink id = some idIdx →
      id ∈ st.onStack →
      (∀ w ∈ st.onStack, Relation.ReflTransGen (edgeOK g) w id) →
      TInv g st →
      CWPost g st (scDeps (strongConnect g fuel) g id deps st) id idIdx
  | [], id, idIdx, st => by
    intro _ _ _ hidx hlow _ _ hinv
    exact ⟨rfl, rfl, hidx, hlow, fun k _ => rfl, fun k _ _ => rfl,
      Nat.le_refl _, fun k j h => Or.inl h, ⟨[], by simp [scDeps], by simp⟩, hinv⟩
  | dep :: rest, id, idIdx, st => by
    intro huv hidn hdeps hidx hlow hidon hreach hinv
    simp only [scDeps]
    by_cases hn : g.hasNode dep = true
    · rw [if_pos hn]
      cases hl : alLookup st.indices dep with
      | some depIdx =>
        try dsimp only
        by_cases hoc : st.onStack.contains dep = true
        · rw [if_pos hoc]
          have hedge : edgeOK g id dep :=
            ⟨hidn, hn, hdeps dep (List.mem_cons_self dep rest)⟩
          exact absurd
            ⟨dep, Relation.TransGen.tail' (hreach dep (mem_of_contains hoc)) hedge⟩
            hacy
        · rw [if_neg hoc]
          exact tarjan_acyc_deps g hacy fuel hv rest id idIdx st huv hidn
            (fun d hd => hdeps d (List.mem_cons_of_mem dep hd))
            hidx hlow hidon hreach hinv
      | none =>
        try dsimp only
        have hdep_ne : id ≠ dep := by
          intro he
          rw [he, hl] at hidx
          exact absurd hidx (by simp)
        have cp := hv dep st huv hn hl hinv
          (fun w hw => Relation.ReflTransGen.tail (hreach w hw)
            ⟨hidn, hn, hdeps dep (List.mem_cons_self dep rest)⟩)
        have hlowc_id : alLookup (strongConnect g fuel dep st).lowlink id =
            some idIdx := by
          rw [cp.low_pres id (by rw [hidx]; rfl) hdep_ne, hlow]
        have hlowc_dep : alLookup (strongConnect g fuel dep st).lowlink dep =
            some st.index := cp.low_id
        rw [hlowc_id, hlowc_dep]
        have hminv : min ((some idIdx).getD 0) ((some st.index).getD 0) = idIdx := by
          simp only [Option.getD_some]
          exact Nat.min_eq_left (Nat.le_of_lt (hinv.idx_lt id idIdx hidx))
        rw [hminv]
        have hidxc_id : alLookup (strongConnect g fuel dep st).indices id =
            some idIdx := by
          rw [cp.idx_pres id (by rw [hidx]; rfl), hidx]
        have hsome_pres : ∀ k, (alLookup st.indices k).isSome = true →
            (alLookup (strongConnect g fuel dep st).indices k).isSome = true := by
          intro k hk
          rw [cp.idx_pres k hk]
          exact hk
        have huv2 : uvT g { strongConnect g fuel dep st with
            lowlink := alInsert (strongConnect g fuel dep st).lowlink id idIdx } <
            fuel :=
          Nat.lt_of_le_of_lt (uvT_mono hsome_pres) huv
        have wpost := tarjan_acyc_deps g hacy fuel hv rest id idIdx
          { strongConnect g fuel dep st with
            lowlink := alInsert (strongConnect g fuel dep st).lowlink id idIdx }
          huv2 hidn (fun d hd => hdeps d (List.mem_cons_of_mem dep hd))
          hidxc_id (alLookup_alInsert_self _ id idIdx)
          (cp.onStack_eq ▸ hidon)
          (fun w hw => hreach w (cp.onStack_eq ▸ hw))
          (TInv_lowlink_irrel cp.inv _)
        refine ⟨wpost.stack_eq.trans cp.stack_eq,
          wpost.onStack_eq.trans cp.onStack_eq,
          wpost.idx_id, wpost.low_id, ?_, ?_, ?_, ?_, ?_, wpost.inv⟩
        · intro k hk
          rw [wpost.idx_pres k (hsome_pres k hk)]
          exact cp.idx_pres k hk
        · intro k hk hkid
          rw [wpost.low_pres k (hsome_pres k hk) hkid]
          show alLookup (alInsert (strongConnect g fuel dep st).lowlink id idIdx) k =
            alLookup st.lowlink k
          rw [alLookup_alInsert_ne _ idIdx hkid]
          have hkdep : k ≠ dep := by
            intro he
            rw [he, hl] at hk
            exact absurd hk (by simp)
          exact cp.low_pres k hk hkdep
        · exact Nat.le_trans (Nat.le_of_lt cp.ctr_lt) wpost.ctr_le
        · intro k j hj
          rcases wpost.idx_new k j hj with h1 | h1
          · rcases cp.idx_new k j h1 with h2 | h2
            · exact Or.inl h2
            · exact Or.inr h2
          · exact Or.inr (Nat.le_trans (Nat.le_of_lt cp.ctr_lt) h1)
        · obtain ⟨e1, he1, ht1⟩ := cp.sccs_ext
          obtain ⟨e2, he2, ht2⟩ := wpost.sccs_ext
          refine ⟨e1 ++ e2, ?_, ?_⟩
          · rw [he2]
            show (strongConnect g fuel dep st).sccs ++ e2 = st.sccs ++ (e1 ++ e2)
            rw [he1, List.append_assoc]
          · intro s hs
            rcases List.mem_append.mp hs with h | h
            · exact ht1 s h
            · exact ht2 s h
    · rw [if_neg hn]
      exact tarjan_acyc_deps g hacy fuel hv rest id idIdx st huv hidn
        (fun d hd => hdeps d (List.mem_cons_of_mem dep hd))
        hidx hlow hidon hreach hinv

theorem not_mem_stack_of_unvisited {g : Graph} {st : TarSt} {id : String}
    (hinv : TInv g st) (hid : alLookup st.indices id = none) : id ∉ st.stack := by
  intro hm
  obtain ⟨j, hj, _⟩ := hinv.stk_idx id hm
  rw [hid] at hj
  exact absurd hj (by simp)

theorem tarjan_acyc_visit (g : Graph) (hacy : ¬ cyclicG g) :
    ∀ (fuel : Nat) (id : String) (st : TarSt),
      uvT g st < fuel → g.hasNode id = true →
      alLookup st.indices id = none → TInv g st →
      (∀ w ∈ st.onStack, Relation.ReflTransGen (edgeOK g) w id) →
      CPost g st (strongConnect g fuel id st) id
  | 0, id, st => by
    intro huv _ _ _ _
    exact absurd huv (by simp)
  | fuel + 1, id, st => by
    intro huv hidn hid hinv hreach
    have hidstk : id ∉ st.stack := not_mem_stack_of_unvisited hinv hid
    have hidon : id ∉ st.onStack := fun hm => hidstk ((hinv.so id).mpr hm)
    simp only [strongConnect]
    set st1 : TarSt :=
      { st with indices := alInsert st.indices id st.index,
                lowlink := alInsert st.lowlink id st.index,
                index := st.index + 1,
                stack := id :: st.stack,
                onStack := id :: st.onStack } with hst1
    have hpres1 : ∀ k, (alLookup st.indices k).isSome = true →
        alLookup st1.indices k = alLookup st.indices k := by
      intro k hk
      have hkid : k ≠ id := by
        intro he
        rw [he, hid] at hk
        exact absurd hk (by simp)
      show alLookup (alInsert st.indices id st.index) k = alLookup st.indices k
      exact alLookup_alInsert_ne _ st.index hkid
    have hinv1 : TInv g st1 := by
      refine ⟨?_, ?_, ?_, ?_, ?_, ?_⟩
      · intro x
        show x ∈ id :: st.stack ↔ x ∈ id :: st.onStack
        simp only [List.mem_cons]
        exact or_congr Iff.rfl (hinv.so x)
      · exact List.nodup_cons.mpr ⟨hidstk, hinv.nd⟩
      · intro w hw
        rcases List.mem_cons.mp hw with he | hm
        · subst he
          exact ⟨st.index, alLookup_alInsert_self _ w st.index, Nat.lt_succ_self _⟩
        · obtain ⟨j, hj, hjl⟩ := hinv.stk_idx w hm
          have hwid : w ≠ id := fun he => hidstk (he ▸ hm)
          exact ⟨j, by rw [show alLookup st1.indices w =
              alLookup (alInsert st.indices id st.index) w from rfl,
              alLookup_alInsert_ne _ st.index hwid]; exact hj,
            Nat.lt_succ_of_lt hjl⟩
      · intro k j hj
        show j < st.index + 1
        by_cases hkid : k = id
        · subst hkid
          rw [show alLookup st1.indices k =
            alLookup (alInsert st.indices k st.index) k from rfl,
            alLookup_alInsert_self _ k st.index] at hj
          rw [← Option.some_inj.mp hj]
          exact Nat.lt_succ_self _
        · rw [show alLookup st1.indices k =
            alLookup (alInsert st.indices id st.index) k from rfl,
            alLookup_alInsert_ne _ st.index hkid] at hj
          exact Nat.lt_succ_of_lt (hinv.idx_lt k j hj)
      · show (id :: st.stack).Pairwise _
        rw [List.pairwise_cons]
        constructor
        · intro b hb ja jb hja hjb
          rw [show alLookup st1.indices id =
            alLookup (alInsert st.indices id st.index) id from rfl,
            alLookup_alInsert_self _ id st.index] at hja
          have hbid : b ≠ id := fun he => hidstk (he ▸ hb)
          rw [show alLookup st1.indices b =
            alLookup (alInsert st.indices id st.index) b from rfl,
            alLookup_alInsert_ne _ st.index hbid] at hjb
          rw [← Option.some_inj.mp hja]
          exact hinv.idx_lt b jb hjb
        · refine List.Pairwise.imp_of_mem ?_ hinv.sorted
          intro a b ha hb hab ja jb hja hjb
          have haid : a ≠ id := fun he => hidstk (he ▸ ha)
          have hbid : b ≠ id := fun he => hidstk (he ▸ hb)
          rw [show alLookup st1.indices a =
            alLookup (alInsert st.indices id st.index) a from rfl,
            alLookup_alInsert_ne _ st.index haid] at hja
          rw [show alLookup st1.indices b =
            alLookup (alInsert st.indices id st.index) b from rfl,
            alLookup_alInsert_ne _ st.index hbid] at hjb
          exact hab ja jb hja hjb
      · intro w hw
        rcases List.mem_cons.mp hw with he | hm
        · exact he ▸ hidn
        · exact hinv.stk_node w hm
    have huv1 : uvT g st1 < fuel := by
      have hdrop : uvT g st1 < uvT g st := by
        refine uvT_drop hidn hid ?_ ?_
        · show (alLookup (alInsert st.indices id st.index) id).isSome = true
          rw [alLookup_alInsert_self _ id st.index]
          rfl
        · intro k hk
          rw [hpres1 k hk]
          exact hk
      exact Nat.lt_of_lt_of_le hdrop (Nat.lt_succ_iff.mp huv)
    have wpost := tarjan_acyc_deps g hacy fuel
      (fun i s a1 a2 a3 a4 a5 => tarjan_acyc_visit g hacy fuel i s a1 a2 a3 a4 a5)
      (g.succs id) id st.index st1 huv1 hidn (fun d hd => hd)
      (alLookup_alInsert_self _ id st.index)
      (alLookup_alInsert_self _ id st.index)
      (List.mem_cons_self id st.onStack)
      (by
        intro w hw
        rcases List.mem_cons.mp hw with he | hm
        · exact he ▸ Relation.ReflTransGen.refl
        · exact hreach w hm)
      hinv1
    rw [wpost.low_id, wpost.idx_id]
    rw [if_pos rfl]
    rw [wpost.stack_eq]
    have hpop : popScc id st1.stack = ([id], st.stack) := by
      show popScc id (id :: st.stack) = _
      simp [popScc]
    rw [hpop]
    try dsimp only
    have honr : (scDeps (strongConnect g fuel) g id (g.succs id) st1).onStack.filter
        (fun w => !(([id] : List String).contains w)) = st.onStack := by
      rw [wpost.onStack_eq]
      show (id :: st.onStack).filter (fun w => !(([id] : List String).contains w)) =
        st.onStack
      rw [List.filter_cons, if_neg (by simp)]
      exact filter_not_contains_single hidon
    have hsome1 : ∀ k, (alLookup st.indices k).isSome = true →
        (alLookup st1.indices k).isSome = true := by
      intro k hk
      rw [hpres1 k hk]
      exact hk
    have hnoself : sccIsCycle g [id] = false := by
      show (g.succs id).contains id = false
      cases hq : (g.succs id).contains id with
      | false => rfl
      | true =>
        exact absurd ⟨id, Relation.TransGen.single ⟨hidn, hidn, mem_of_contains hq⟩⟩
          hacy
    refine ⟨rfl, honr, wpost.idx_id, wpost.low_id, ?_, ?_, ?_, ?_, ?_, ?_⟩
    · intro k hk
      rw [wpost.idx_pres k (hsome1 k hk)]
      exact hpres1 k hk
    · intro k hk hkid
      rw [wpost.low_pres k (hsome1 k hk) hkid]
      show alLookup (alInsert st.lowlink id st.index) k = alLookup st.lowlink k
      exact alLookup_alInsert_ne _ st.index hkid
    · exact Nat.lt_of_lt_of_le (Nat.lt_succ_self st.index) wpost.ctr_le
    · intro k j hj
      rcases wpost.idx_new k j hj with h1 | h1
      · by_cases hkid : k = id
        · subst hkid
          rw [show alLookup st1.indices k =
            alLookup (alInsert st.indices k st.index) k from rfl,
            alLookup_alInsert_self _ k st.index] at h1
          exact Or.inr (Nat.le_of_eq (Option.some_inj.mp h1))
        · rw [show alLookup st1.indices k =
            alLookup (alInsert st.indices id st.index) k from rfl,
            alLookup_alInsert_ne _ st.index hkid] at h1
          exact Or.inl h1
      · exact Or.inr (Nat.le_trans (Nat.le_succ st.index) h1)
    · obtain ⟨ext, hext, htriv⟩ := wpost.sccs_ext
      refine ⟨ext ++ [[id]], ?_, ?_⟩
      · show (scDeps (strongConnect g fuel) g id (g.succs id) st1).sccs ++ [[id]] =
          st.sccs ++ (ext ++ [[id]])
        rw [hext]
        show st.sccs ++ ext ++ [[id]] = st.sccs ++ (ext ++ [[id]])
        rw [List.append_assoc]
      · intro s hs
        rcases List.mem_append.mp hs with h | h
        · exact htriv s h
        · rw [List.mem_singleton.mp h]
          exact hnoself
    · refine ⟨?_, ?_, ?_, ?_, ?_, ?_⟩
      · intro x
        show x ∈ st.stack ↔ x ∈ _
        rw [honr]
        exact hinv.so x
      · exact hinv.nd
      · intro w hw
        exact wpost.inv.stk_idx w (wpost.stack_eq ▸ List.mem_cons_of_mem id hw)
      · exact wpost.inv.idx_lt
      · have hs := wpost.inv.sorted
        rw [wpost.stack_eq] at hs
        exact (List.pairwise_cons.mp hs).2
      · intro w hw
        exact wpost.inv.stk_node w (wpost.stack_eq ▸ List.mem_cons_of_mem id hw)

theorem tarjan_acyc_loop (g : Graph) (hacy : ¬ cyclicG g) :
    ∀ (keys : List String) (st : TarSt),
      (∀ k ∈ keys, g.hasNode k = true) →
      st.stack = [] → st.onStack = [] → TInv g st →
      ∀ s ∈ (detectLoop g keys st).sccs, s ∈ st.sccs ∨ sccIsCycle g s = false
  | [], st => by
    intro _ _ _ _ s hs
    exact Or.inl hs
  | id :: rest, st => by
    intro hkn hstk hon hinv s hs
    simp only [detectLoop] at hs
    cases hl : alLookup st.indices id with
    | some j =>
      rw [hl] at hs
      exact tarjan_acyc_loop g hacy rest st
        (fun k hk => hkn k (List.mem_cons_of_mem id hk)) hstk hon hinv s hs
    | none =>
      rw [hl] at hs
      have huv : uvT g st < g.keys.length + 1 :=
        Nat.lt_succ_of_le (uvT_le_keys g st)
      have cp := tarjan_acyc_visit g hacy (g.keys.length + 1) id st huv
        (hkn id (List.mem_cons_self id rest)) hl hinv
        (fun w hw => absurd hw (by simp [hon]))
      have hres := tarjan_acyc_loop g hacy rest
        (strongConnect g (g.keys.length + 1) id st)
        (fun k hk => hkn k (List.mem_cons_of_mem id hk))
        (cp.stack_eq.trans hstk) (cp.onStack_eq.trans hon) cp.inv s hs
      rcases hres with h | h
      · obtain ⟨ext, hext, htriv⟩ := cp.sccs_ext
        rw [hext] at h
        rcases List.mem_append.mp h with h2 | h2
        · exact Or.inl h2
        · exact Or.inr (htriv s h2)
      · exact Or.inr h

theorem detectCycles_nil_of_acyclic {g : Graph} (hacy : ¬ cyclicG g) :
    g.detectCycles = [] := by
  unfold Graph.detectCycles
  have hinv0 : TInv g ⟨0, [], [], [], [], []⟩ := by
    refine ⟨?_, ?_, ?_, ?_, ?_, ?_⟩
    · intro x
      exact Iff.rfl
    · exact List.nodup_nil
    · intro w hw
      exact absurd hw (List.not_mem_nil w)
    · intro k j hj
      exact absurd hj (by simp [alLookup])
    · exact List.Pairwise.nil
    · intro w hw
      exact absurd hw (List.not_mem_nil w)
  have htriv := tarjan_acyc_loop g hacy g.keys ⟨0, [], [], [], [], []⟩
    (fun k hk => hasNode_of_mem_keys hk) rfl rfl hinv0
  rw [List.filter_eq_nil_iff]
  intro s hs
  rcases htriv s hs with h | h
  · exact absurd h (List.not_mem_nil s)
  · simp [h]

theorem popped_rtg {g : Graph} {st : TarSt} (hinv : PInv g st) {x y : String}
    (hx : Popped st x) (h : Relation.ReflTransGen (edgeOK g) x y) : Popped st y := by
  induction h with
  | refl => exact hx
  | tail hr hstep ih => exact hinv _ ih _ hstep

theorem sccs_prefix_scDeps (g : Graph) (fuel : Nat)
    (hv : ∀ i s, ∃ ext, (strongConnect g fuel i s).sccs = s.sccs ++ ext) :
    ∀ (deps : List String) (id : String) (st : TarSt),
      ∃ ext, (scDeps (strongConnect g fuel) g id deps st).sccs = st.sccs ++ ext
  | [], id, st => ⟨[], by simp [scDeps]⟩
  | dep :: rest, id, st => by
    simp only [scDeps]
    by_cases hn : g.hasNode dep = true
    · rw [if_pos hn]
      cases hl : alLookup st.indices dep with
      | some depIdx =>
        try dsimp only
        by_cases hoc : st.onStack.contains dep = true
        · rw [if_pos hoc]
          exact sccs_prefix_scDeps g fuel hv rest id _
        · rw [if_neg hoc]
          exact sccs_prefix_scDeps g fuel hv rest id st
      | none =>
        try dsimp only
        obtain ⟨e1, he1⟩ := hv dep st
        obtain ⟨e2, he2⟩ := sccs_prefix_scDeps g fuel hv rest id
          { strongConnect g fuel dep st with
            lowlink := alInsert (strongConnect g fuel dep st).lowlink id
              (min ((alLookup (strongConnect g fuel dep st).lowlink id).getD 0)
                ((alLookup (strongConnect g fuel dep st).lowlink dep).getD 0)) }
        refine ⟨e1 ++ e2, ?_⟩
        rw [he2]
        show (strongConnect g fuel dep st).sccs ++ e2 = st.sccs ++ (e1 ++ e2)
        rw [he1, List.append_assoc]
    · rw [if_neg hn]
      exact sccs_prefix_scDeps g fuel hv rest id st

theorem sccs_prefix_strongConnect (g : Graph) :
    ∀ (fuel : Nat) (i : String) (s : TarSt),
      ∃ ext, (strongConnect g fuel i s).sccs = s.sccs ++ ext
  | 0, i, s => ⟨[], by simp [strongConnect]⟩
  | fuel + 1, i, s => by
    simp only [strongConnect]
    obtain ⟨e1, he1⟩ := sccs_prefix_scDeps g fuel
      (fun i2 s2 => sccs_prefix_strongConnect g fuel i2 s2) (g.succs i) i
      { s with indices := alInsert s.indices i s.index,
               lowlink := alInsert s.lowlink i s.index,
               index := s.index + 1,
               stack := i :: s.stack,
               onStack := i :: s.onStack }
    by_cases hc : (alLookup (scDeps (strongConnect g fuel) g i (g.succs i)
        { s with indices := alInsert s.indices i s.index,
                 lowlink := alInsert s.lowlink i s.index,
                 index := s.index + 1,
                 stack := i :: s.stack,
                 onStack := i :: s.onStack }).lowlink i).getD 0 =
      (alLookup (scDeps (strongConnect g fuel) g i (g.succs i)
        { s with indices := alInsert s.indices i s.index,
                 lowlink := alInsert s.lowlink i s.index,
                 index := s.index + 1,
                 stack := i :: s.stack,
                 onStack := i :: s.onStack }).indices i).getD 0
    · rw [if_pos hc]
      cases hp : popScc i (scDeps (strongConnect g fuel) g i (g.succs i)
        { s with indices := alInsert s.indices i s.index,
                 lowlink := alInsert s.lowlink i s.index,
                 index := s.index + 1,
                 stack := i :: s.stack,
                 onStack := i :: s.onStack }).stack with
      | mk scc rest =>
        refine ⟨e1 ++ [scc], ?_⟩
        show (scDeps (strongConnect g fuel) g i (g.succs i) _).sccs ++ [scc] =
          s.sccs ++ (e1 ++ [scc])
        rw [he1, List.append_assoc]
    · rw [if_neg hc]
      exact ⟨e1, he1⟩

theorem sccs_prefix_detectLoop (g : Graph) :
    ∀ (keys : List String) (st : TarSt),
      ∃ ext, (detectLoop g keys st).sccs = st.sccs ++ ext
  | [], st => ⟨[], by simp [detectLoop]⟩
  | id :: rest, st => by
    simp only [detectLoop]
    cases hl : alLookup st.indices id with
    | some j => exact sccs_prefix_detectLoop g rest st
    | none =>
      obtain ⟨e1, he1⟩ := sccs_prefix_strongConnect g (g.keys.length + 1) id st
      obtain ⟨e2, he2⟩ := sccs_prefix_detectLoop g rest
        (strongConnect g (g.keys.length + 1) id st)
      refine ⟨e1 ++ e2, ?_⟩
      rw [he2, he1, List.append_assoc]

theorem TInv_push {g : Graph} {st : TarSt} {id : String}
    (hinv : TInv g st) (hidn : g.hasNode id = true)
    (hid : alLookup st.indices id = none) :
    TInv g { st with indices := alInsert st.indices id st.index,
                     lowlink := alInsert st.lowlink id st.index,
                     index := st.index + 1,
                     stack := id :: st.stack,
                     onStack := id :: st.onStack } := by
  have hidstk : id ∉ st.stack := not_mem_stack_of_unvisited hinv hid
  set st1 : TarSt :=
    { st with indices := alInsert st.indices id st.index,
              lowlink := alInsert st.lowlink id st.index,
              index := st.index + 1,
              stack := id :: st.stack,
              onStack := id :: st.onStack } with hst1
  refine ⟨?_, ?_, ?_, ?_, ?_, ?_⟩
  · intro x
    show x ∈ id :: st.stack ↔ x ∈ id :: st.onStack
    simp only [List.mem_cons]
    exact or_congr Iff.rfl (hinv.so x)
  · exact List.nodup_cons.mpr ⟨hidstk, hinv.nd⟩
  · intro w hw
    rcases List.mem_cons.mp hw with he | hm
    · subst he
      exact ⟨st.index, alLookup_alInsert_self _ w st.index, Nat.lt_succ_self _⟩
    · obtain ⟨j, hj, hjl⟩ := hinv.stk_idx w hm
      have hwid : w ≠ id := fun he => hidstk (he ▸ hm)
      exact ⟨j, by rw [show alLookup st1.indices w =
          alLookup (alInsert st.indices id st.index) w from rfl,
          alLookup_alInsert_ne _ st.index hwid]; exact hj,
        Nat.lt_succ_of_lt hjl⟩
  · intro k j hj
    show j < st.index + 1
    by_cases hkid : k = id
    · subst hkid
      rw [show alLookup st1.indices k =
        alLookup (alInsert st.indices k st.index) k from rfl,
        alLookup_alInsert_self _ k st.index] at hj
      rw [← Option.some_inj.mp hj]
      exact Nat.lt_succ_self _
    · rw [show alLookup st1.indices k =
        alLookup (alInsert st.indices id st.index) k from rfl,
        alLookup_alInsert_ne _ st.index hkid] at hj
      exact Nat.lt_succ_of_lt (hinv.idx_lt k j hj)
  · show (id :: st.stack).Pairwise _
    rw [List.pairwise_cons]
    constructor
    · intro b hb ja jb hja hjb
      rw [show alLookup st1.indices id =
        alLookup (alInsert st.indices id st.index) id from rfl,
        alLookup_alInsert_self _ id st.index] at hja
      have hbid : b ≠ id := fun he => hidstk (he ▸ hb)
      rw [show alLookup st1.indices b =
        alLookup (alInsert st.indices id st.index) b from rfl,
        alLookup_alInsert_ne _ st.index hbid] at hjb
      rw [← Option.some_inj.mp hja]
      exact hinv.idx_lt b jb hjb
    · refine List.Pairwise.imp_of_mem ?_ hinv.sorted
      intro a b ha hb hab ja jb hja hjb
      have haid : a ≠ id := fun he => hidstk (he ▸ ha)
      have hbid : b ≠ id := fun he => hidstk (he ▸ hb)
      rw [show alLookup st1.indices a =
        alLookup (alInsert st.indices id st.index) a from rfl,
        alLookup_alInsert_ne _ st.index haid] at hja
      rw [show alLookup st1.indices b =
        alLookup (alInsert st.indices id st.index) b from rfl,
        alLookup_alInsert_ne _ st.index hbid] at hjb
      exact hab ja jb hja hjb
  · intro w hw
    rcases List.mem_cons.mp hw with he | hm
    · exact he ▸ hidn
    · exact hinv.stk_node w hm

theorem tarjan_triv_deps (g : Graph) (fuel : Nat)
    (hv : ∀ i s, uvT g s < fuel → g.hasNode i = true →
      alLookup s.indices i = none → TInv g s →
      PInv g s → PAcy g s → SccsPopped s →
      (∀ s2 ∈ (strongConnect g fuel i s).sccs,
        s2 ∈ s.sccs ∨ sccIsCycle g s2 = false) →
      DPost g s (strongConnect g fuel i s) i) :
    ∀ (deps : List String) (id : String) (idIdx : Nat) (base : List String)
      (st : TarSt),
      uvT g st < fuel →
      g.hasNode id = true →
      (∀ d ∈ deps, d ∈ g.succs id) →
      alLookup st.indices id = some idIdx →
      id ∉ base →
      (∀ w ∈ base, ∃ j, alLookup st.indices w = some j ∧ j < idIdx) →
      (∃ left, st.stack = left ++ id :: base ∧
        ∀ w ∈ left, ∃ j, alLookup st.indices w = some j ∧ idIdx < j) →
      TInv g st → PInv g st → PAcy g st → SccsPopped st →
      (alLookup st.lowlink id = some idIdx ∨
        (∃ j w, alLookup st.lowlink id = some j ∧ j < idIdx ∧
          w ∈ base ∧ alLookup st.indices w = some j)) →
      (∀ s ∈ (scDeps (strongConnect g fuel) g id deps st).sccs,
        s ∈ st.sccs ∨ sccIsCycle g s = false) →
      DWPost g st (scDeps (strongConnect g fuel) g id deps st) id idIdx base deps
  | [], id, idIdx, base, st => by
    intro _ _ _ hidx _ _ hstack hinv hpinv hpacy hspop hwinv _
    refine ⟨hidx, fun k _ => rfl, fun k _ _ => rfl, Nat.le_refl _,
      fun k j h => Or.inl h, hstack, ⟨[], by simp [scDeps]⟩,
      hinv, hpinv, hpacy, hspop, fun x hx => hx, hwinv, ?_, by simp⟩
    intro jw j2 h1 h2
    have : jw = j2 := Option.some_inj.mp ((h1.symm).trans h2)
    exact Nat.le_of_eq this.symm
  | dep :: rest, id, idIdx, base, st => by
    intro huv hidn hdeps hidx hidnb hbase hstack hinv hpinv hpacy hspop hwinv H
    by_cases hn : g.hasNode dep = true
    · cases hl : alLookup st.indices dep with
      | some depIdx =>
        by_cases hoc : st.onStack.contains dep = true
        · -- visited dependency still on the stack: lowlink[id] is lowered
          have hred : scDeps (strongConnect g fuel) g id (dep :: rest) st =
              scDeps (strongConnect g fuel) g id rest
                { st with lowlink := alInsert st.lowlink id (min ((alLookup st.lowlink id).getD 0) depIdx) } := by
            simp only [scDeps]
            rw [if_pos hn, hl]
            try dsimp only
            rw [if_pos hoc]
          rw [hred] at H ⊢
          -- locate dep on the stack
          have hdepstk : dep ∈ st.stack := (hinv.so dep).mpr (mem_of_contains hoc)
          obtain ⟨left, hsl, hlb⟩ := hstack
          obtain ⟨v, hveq, hvle, hwcase⟩ :
              ∃ v, alLookup st.lowlink id = some v ∧ v ≤ idIdx ∧
                (v = idIdx ∨ ∃ w0, v < idIdx ∧ w0 ∈ base ∧
                  alLookup st.indices w0 = some v) := by
            rcases hwinv with h1 | ⟨j0, w0, hj0, hj0lt, hw0b, hw0i⟩
            · exact ⟨idIdx, h1, Nat.le_refl _, Or.inl rfl⟩
            · exact ⟨j0, hj0, Nat.le_of_lt hj0lt, Or.inr ⟨w0, hj0lt, hw0b, hw0i⟩⟩
          rw [hveq] at H ⊢
          simp only [Option.getD_some] at H ⊢
          have hdep3 : dep ∈ left ∨ dep = id ∨ dep ∈ base := by
            rw [hsl] at hdepstk
            rcases List.mem_append.mp hdepstk with h | h
            · exact Or.inl h
            · rcases List.mem_cons.mp h with h2 | h2
              · exact Or.inr (Or.inl h2)
              · exact Or.inr (Or.inr h2)
          have hmle : min v depIdx ≤ idIdx := Nat.le_trans (min_le_left v depIdx) hvle
          have WN : alLookup (alInsert st.lowlink id (min v depIdx)) id =
              some (min v depIdx) := alLookup_alInsert_self _ id _
          have hwinvST : alLookup (alInsert st.lowlink id (min v depIdx)) id =
              some idIdx ∨
              (∃ j w, alLookup (alInsert st.lowlink id (min v depIdx)) id = some j ∧
                j < idIdx ∧ w ∈ base ∧ alLookup st.indices w = some j) := by
            by_cases hmi : min v depIdx = idIdx
            · exact Or.inl (by rw [WN, hmi])
            · have hmlt : min v depIdx < idIdx := Nat.lt_of_le_of_ne hmle hmi
              rcases min_choice v depIdx with hc | hc
            
              · rcases hwcase with hvi | ⟨w0, hw0lt, hw0b, hw0i⟩
                · exact absurd (hc.trans hvi) hmi
                · exact Or.inr ⟨v, w0, by rw [WN, hc], hc ▸ hmlt, hw0b, hw0i⟩
              · rcases hdep3 with hd | hd | hd
                · obtain ⟨jl, hjl, hjgt⟩ := hlb dep hd
                  rw [hl] at hjl
                  have : depIdx = jl := Option.some_inj.mp hjl
                  subst this
                  exact absurd (Nat.lt_trans (hc ▸ hmlt) hjgt) (Nat.lt_irrefl _)
                · subst hd
                  rw [hidx] at hl
                  exact absurd ((Option.some_inj.mp hl) ▸ (hc ▸ hmlt))
                    (Nat.lt_irrefl _)
                · exact Or.inr ⟨depIdx, dep, by rw [WN, hc], hc ▸ hmlt, hd, hl⟩
          have wrest := tarjan_triv_deps g fuel hv rest id idIdx base
            { st with lowlink := alInsert st.lowlink id (min v depIdx) }
            huv hidn (fun d hd => hdeps d (List.mem_cons_of_mem dep hd))
            hidx hidnb hbase ⟨left, hsl, hlb⟩
            (TInv_lowlink_irrel hinv _) hpinv hpacy hspop hwinvST H
          refine ⟨wrest.idx_id, wrest.idx_pres, ?_, wrest.ctr_le, wrest.idx_new,
            wrest.stack_left, wrest.sccs_ext, wrest.inv, wrest.pinv, wrest.pacy,
            wrest.spop, wrest.pmono, wrest.winv, ?_, ?_⟩
          · intro k hk hkid
            exact (wrest.low_pres k hk hkid).trans
              (alLookup_alInsert_ne _ _ hkid)
          · intro jw j2 h1 h2
            have hjwv : jw = v := Option.some_inj.mp ((h1.symm).trans hveq)
            have := wrest.low_mono (min v depIdx) j2 WN h2
            exact Nat.le_trans this (hjwv ▸ min_le_left v depIdx)
          · intro d hd hnd
            rcases List.mem_cons.mp hd with he | hm
            · subst he
              refine ⟨by rw [wrest.idx_pres d (by rw [hl]; rfl), hl]; rfl, ?_⟩
              intro hdb
              obtain ⟨jb, hjb, hjblt⟩ := hbase d hdb
              rw [hl] at hjb
              have hji : depIdx = jb := Option.some_inj.mp hjb
              subst hji
              have hmd : min v depIdx < idIdx :=
                Nat.lt_of_le_of_lt (min_le_right v depIdx) hjblt
              rcases wrest.winv with hw | ⟨j, w, hj, hjlt, _, _⟩
              · have := wrest.low_mono (min v depIdx) idIdx WN hw
                exact absurd (Nat.lt_of_le_of_lt this hmd) (Nat.lt_irrefl _)
              · exact ⟨j, hj, hjlt⟩
            · exact wrest.df d hm hnd
        · have hred : scDeps (strongConnect g fuel) g id (dep :: rest) st =
              scDeps (strongConnect g fuel) g id rest st := by
            simp only [scDeps]
            rw [if_pos hn, hl]
            try dsimp only
            rw [if_neg hoc]
          rw [hred] at H ⊢
          have wrest := tarjan_triv_deps g fuel hv rest id idIdx base st huv hidn
            (fun d hd => hdeps d (List.mem_cons_of_mem dep hd))
            hidx hidnb hbase hstack hinv hpinv hpacy hspop hwinv H
          refine ⟨wrest.idx_id, wrest.idx_pres, wrest.low_pres, wrest.ctr_le,
            wrest.idx_new, wrest.stack_left, wrest.sccs_ext, wrest.inv,
            wrest.pinv, wrest.pacy, wrest.spop, wrest.pmono, wrest.winv,
            wrest.low_mono, ?_⟩
          intro d hd hnd
          rcases List.mem_cons.mp hd with he | hm
          · subst he
            refine ⟨by rw [wrest.idx_pres d (by rw [hl]; rfl), hl]; rfl, ?_⟩
            intro hdb
            have hdstk : d ∈ st.stack := by
              obtain ⟨left, hsl, _⟩ := hstack
              rw [hsl]
              exact List.mem_append_right left (List.mem_cons_of_mem id hdb)
            exact absurd (by
              simpa [List.contains] using List.elem_iff.mpr ((hinv.so d).mp hdstk))
              hoc
          · exact wrest.df d hm hnd
      | none =>
        have hred : scDeps (strongConnect g fuel) g id (dep :: rest) st =
            scDeps (strongConnect g fuel) g id rest
              { strongConnect g fuel dep st with
                lowlink := alInsert (strongConnect g fuel dep st).lowlink id
                  (min ((alLookup (strongConnect g fuel dep st).lowlink id).getD 0)
                    ((alLookup (strongConnect g fuel dep st).lowlink dep).getD 0)) } := by
          simp only [scDeps]
          rw [if_pos hn, hl]
        rw [hred] at H ⊢
        obtain ⟨er, her⟩ := sccs_prefix_scDeps g fuel
          (fun i2 s2 => sccs_prefix_strongConnect g fuel i2 s2) rest id
          { strongConnect g fuel dep st with
            lowlink := alInsert (strongConnect g fuel dep st).lowlink id
              (min ((alLookup (strongConnect g fuel dep st).lowlink id).getD 0)
                ((alLookup (strongConnect g fuel dep st).lowlink dep).getD 0)) }
        have Hchild : ∀ s2 ∈ (strongConnect g fuel dep st).sccs,
            s2 ∈ st.sccs ∨ sccIsCycle g s2 = false := by
          intro s2 hs2
          apply H
          rw [her]
          exact List.mem_append_left er hs2
        have dpost := hv dep st huv hn hl hinv hpinv hpacy hspop Hchild
        have hidne : id ≠ dep := by
          intro he
          rw [he, hl] at hidx
          exact absurd hidx (by simp)
        obtain ⟨v, hveq, hvle, hwcase⟩ :
            ∃ v, alLookup st.lowlink id = some v ∧ v ≤ idIdx ∧
              (v = idIdx ∨ ∃ w0, v < idIdx ∧ w0 ∈ base ∧
                alLookup st.indices w0 = some v) := by
          rcases hwinv with h1 | ⟨j0, w0, hj0, hj0lt, hw0b, hw0i⟩
          · exact ⟨idIdx, h1, Nat.le_refl _, Or.inl rfl⟩
          · exact ⟨j0, hj0, Nat.le_of_lt hj0lt, Or.inr ⟨w0, hj0lt, hw0b, hw0i⟩⟩
        have hLcid : alLookup (strongConnect g fuel dep st).lowlink id = some v :=
          (dpost.low_pres id (by rw [hidx]; rfl) hidne).trans hveq
        have hii : idIdx < st.index := hinv.idx_lt id idIdx hidx
        obtain ⟨u, huq, HU, cleft, hcs, hcb⟩ :
            ∃ u, alLookup (strongConnect g fuel dep st).lowlink dep = some u ∧
              (idIdx ≤ u ∨ (u < idIdx ∧ ∃ w1, w1 ∈ base ∧
                alLookup st.indices w1 = some u)) ∧
              ∃ cleft, (strongConnect g fuel dep st).stack = cleft ++ st.stack ∧
                ∀ w ∈ cleft, ∃ j,
                  alLookup (strongConnect g fuel dep st).indices w = some j ∧
                  st.index ≤ j := by
          rcases dpost.dich with ⟨hstkA, _, hlowA⟩ | ⟨jc, wc, hjc, hjclt, hwcstk, hwcidx⟩
          · exact ⟨st.index, hlowA, Or.inl (Nat.le_of_lt hii),
              [], by rw [hstkA]; rfl, by simp⟩
          · refine ⟨jc, hjc, ?_, dpost.stack_suffix⟩
            by_cases hci : idIdx ≤ jc
            · exact Or.inl hci
            · have hclt : jc < idIdx := Nat.lt_of_not_le hci
              obtain ⟨left, hsl, hlb⟩ := hstack
              rw [hsl] at hwcstk
              rcases List.mem_append.mp hwcstk with hw | hw
              · obtain ⟨jl, hjl, hjgt⟩ := hlb wc hw
                rw [hwcidx] at hjl
                have hje : jc = jl := Option.some_inj.mp hjl
                exact absurd (Nat.lt_trans hclt (hje ▸ hjgt)) (Nat.lt_irrefl _)
              · rcases List.mem_cons.mp hw with hw2 | hw2
                · rw [hw2, hidx] at hwcidx
                  exact absurd ((Option.some_inj.mp hwcidx) ▸ hclt) (Nat.lt_irrefl _)
                · exact Or.inr ⟨hclt, wc, hw2, hwcidx⟩
        rw [hLcid, huq] at H ⊢
        simp only [Option.getD_some] at H ⊢
        have WN : alLookup (alInsert (strongConnect g fuel dep st).lowlink id
            (min v u)) id = some (min v u) := alLookup_alInsert_self _ id _
        have hmle : min v u ≤ idIdx := Nat.le_trans (min_le_left v u) hvle
        have hwinvST : alLookup (alInsert (strongConnect g fuel dep st).lowlink id
              (min v u)) id = some idIdx ∨
            (∃ j w, alLookup (alInsert (strongConnect g fuel dep st).lowlink id
              (min v u)) id = some j ∧ j < idIdx ∧ w ∈ base ∧
              alLookup (strongConnect g fuel dep st).indices w = some j) := by
          by_cases hmi : min v u = idIdx
          · exact Or.inl (by rw [WN, hmi])
          · have hmlt : min v u < idIdx := Nat.lt_of_le_of_ne hmle hmi
            rcases min_choice v u with hc | hc
            · rcases hwcase with hvi | ⟨w0, hw0lt, hw0b, hw0i⟩
              · exact absurd (hc.trans hvi) hmi
              · refine Or.inr ⟨v, w0, by rw [WN, hc], hc ▸ hmlt, hw0b, ?_⟩
                rw [dpost.idx_pres w0 (by rw [hw0i]; rfl)]
                exact hw0i
            · rcases HU with hge | ⟨hult, w1, hw1b, hw1i⟩
              · exact absurd (Nat.lt_of_lt_of_le (hc ▸ hmlt) hge) (Nat.lt_irrefl _)
              · refine Or.inr ⟨u, w1, by rw [WN, hc], hc ▸ hmlt, hw1b, ?_⟩
                rw [dpost.idx_pres w1 (by rw [hw1i]; rfl)]
                exact hw1i
        have hsomec : ∀ k, (alLookup st.indices k).isSome = true →
            (alLookup (strongConnect g fuel dep st).indices k).isSome = true := by
          intro k hk
          rw [dpost.idx_pres k hk]
          exact hk
        have hidxc : alLookup (strongConnect g fuel dep st).indices id =
            some idIdx := by
          rw [dpost.idx_pres id (by rw [hidx]; rfl)]
          exact hidx
        obtain ⟨left, hsl, hlb⟩ := hstack
        have wrest := tarjan_triv_deps g fuel hv rest id idIdx base
          { strongConnect g fuel dep st with
            lowlink := alInsert (strongConnect g fuel dep st).lowlink id (min v u) }
          (Nat.lt_of_le_of_lt (uvT_mono hsomec) huv) hidn
          (fun d hd => hdeps d (List.mem_cons_of_mem dep hd))
          hidxc hidnb
          (by
            intro w hw
            obtain ⟨jb, hjb, hjblt⟩ := hbase w hw
            exact ⟨jb, by
              show alLookup (strongConnect g fuel dep st).indices w = some jb
              rw [dpost.idx_pres w (by rw [hjb]; rfl)]
              exact hjb, hjblt⟩)
          (by
            refine ⟨cleft ++ left, ?_, ?_⟩
            · show (strongConnect g fuel dep st).stack = (cleft ++ left) ++ id :: base
              rw [hcs, hsl, List.append_assoc]
            · intro w hw
              rcases List.mem_append.mp hw with h | h
              · obtain ⟨j, hj, hjge⟩ := hcb w h
                exact ⟨j, hj, Nat.lt_of_lt_of_le hii hjge⟩
              · obtain ⟨j, hj, hjgt⟩ := hlb w h
                exact ⟨j, by
                  show alLookup (strongConnect g fuel dep st).indices w = some j
                  rw [dpost.idx_pres w (by rw [hj]; rfl)]
                  exact hj, hjgt⟩)
          (TInv_lowlink_irrel dpost.inv _) dpost.pinv dpost.pacy dpost.spop
          hwinvST
          (by
            intro s hs
            rcases H s hs with h | h
            · left
              obtain ⟨e1, he1⟩ := dpost.sccs_ext
              show s ∈ (strongConnect g fuel dep st).sccs
              rw [he1]
              exact List.mem_append_left e1 h
            · exact Or.inr h)
        refine ⟨wrest.idx_id, ?_, ?_, ?_, ?_, wrest.stack_left, ?_, wrest.inv,
          wrest.pinv, wrest.pacy, wrest.spop, ?_, wrest.winv, ?_, ?_⟩
        · intro k hk
          rw [wrest.idx_pres k (hsomec k hk)]
          exact dpost.idx_pres k hk
        · intro k hk hkid
          have hkdep : k ≠ dep := by
            intro he
            rw [he, hl] at hk
            exact absurd hk (by simp)
          rw [wrest.low_pres k (hsomec k hk) hkid]
          show alLookup (alInsert (strongConnect g fuel dep st).lowlink id (min v u)) k =
            alLookup st.lowlink k
          rw [alLookup_alInsert_ne _ _ hkid]
          exact dpost.low_pres k hk hkdep
        · exact Nat.le_trans (Nat.le_of_lt dpost.ctr_lt) wrest.ctr_le
        · intro k j hj
          rcases wrest.idx_new k j hj with h1 | h1
          · rcases dpost.idx_new k j h1 with h2 | h2
            · exact Or.inl h2
            · exact Or.inr h2
          · exact Or.inr (Nat.le_trans (Nat.le_of_lt dpost.ctr_lt) h1)
        · obtain ⟨e1, he1⟩ := dpost.sccs_ext
          obtain ⟨e2, he2⟩ := wrest.sccs_ext
          refine ⟨e1 ++ e2, ?_⟩
          rw [he2]
          show (strongConnect g fuel dep st).sccs ++ e2 = st.sccs ++ (e1 ++ e2)
          rw [he1, List.append_assoc]
        · intro x hx
          exact wrest.pmono x (dpost.pmono x hx)
        · intro jw j2 h1 h2
          have hjwv : jw = v := Option.some_inj.mp ((h1.symm).trans hveq)
          have := wrest.low_mono (min v u) j2 WN h2
          exact Nat.le_trans this (hjwv ▸ min_le_left v u)
        · intro d hd hnd
          rcases List.mem_cons.mp hd with he | hm
          · subst he
            refine ⟨?_, ?_⟩
            · rw [wrest.idx_pres d (by rw [dpost.idx_id]; rfl)]
              rw [dpost.idx_id]
              rfl
            · intro hdb
              obtain ⟨jb, hjb, _⟩ := hbase d hdb
              rw [hl] at hjb
              exact absurd hjb (by simp)
          · exact wrest.df d hm hnd
    · have hred : scDeps (strongConnect g fuel) g id (dep :: rest) st =
          scDeps (strongConnect g fuel) g id rest st := by
        simp only [scDeps]
        rw [if_neg hn]
      rw [hred] at H ⊢
      have wrest := tarjan_triv_deps g fuel hv rest id idIdx base st huv hidn
        (fun d hd => hdeps d (List.mem_cons_of_mem dep hd))
        hidx hidnb hbase hstack hinv hpinv hpacy hspop hwinv H
      refine ⟨wrest.idx_id, wrest.idx_pres, wrest.low_pres, wrest.ctr_le,
        wrest.idx_new, wrest.stack_left, wrest.sccs_ext, wrest.inv,
        wrest.pinv, wrest.pacy, wrest.spop, wrest.pmono, wrest.winv,
        wrest.low_mono, ?_⟩
      intro d hd hnd
      rcases List.mem_cons.mp hd with he | hm
      · exact absurd hnd (he ▸ hn)
      · exact wrest.df d hm hnd

theorem tarjan_triv_visit (g : Graph) :
    ∀ (fuel : Nat) (id : String) (st : TarSt),
      uvT g st < fuel → g.hasNode id = true →
      alLookup st.indices id = none → TInv g st →
      PInv g st → PAcy g st → SccsPopped st →
      (∀ s2 ∈ (strongConnect g fuel id st).sccs,
        s2 ∈ st.sccs ∨ sccIsCycle g s2 = false) →
      DPost g st (strongConnect g fuel id st) id
  | 0, id, st => by
    intro huv _ _ _ _ _ _ _
    exact absurd huv (by simp)
  | fuel + 1, id, st => by
    intro huv hidn hid hinv hpinv hpacy hspop H
    have hidstk : id ∉ st.stack := not_mem_stack_of_unvisited hinv hid
    have hidon : id ∉ st.onStack := fun hm => hidstk ((hinv.so id).mpr hm)
    simp only [strongConnect] at H ⊢
    set st1 : TarSt :=
      { st with indices := alInsert st.indices id st.index,
                lowlink := alInsert st.lowlink id st.index,
                index := st.index + 1,
                stack := id :: st.stack,
                onStack := id :: st.onStack } with hst1
    have hinv1 : TInv g st1 := TInv_push hinv hidn hid
    have hp1_of : ∀ x, Popped st x → Popped st1 x := by
      rintro x ⟨hxs, hxo⟩
      have hxid : x ≠ id := by
        intro he
        rw [he, hid] at hxs
        exact absurd hxs (by simp)
      refine ⟨?_, ?_⟩
      · show (alLookup (alInsert st.indices id st.index) x).isSome = true
        rw [alLookup_alInsert_ne _ st.index hxid]
        exact hxs
      · show x ∉ id :: st.onStack
        intro hm
        rcases List.mem_cons.mp hm with he | hm2
        · exact hxid he
        · exact hxo hm2
    have hp1_to : ∀ x, Popped st1 x → Popped st x := by
      rintro x ⟨hxs, hxo⟩
      have hxid : x ≠ id := fun he => hxo (he ▸ List.mem_cons_self id st.onStack)
      refine ⟨?_, fun hm => hxo (List.mem_cons_of_mem id hm)⟩
      rw [show alLookup st1.indices x =
        alLookup (alInsert st.indices id st.index) x from rfl,
        alLookup_alInsert_ne _ st.index hxid] at hxs
      exact hxs
    have hpinv1 : PInv g st1 :=
      fun b hb dep hd => hp1_of dep (hpinv b (hp1_to b hb) dep hd)
    have hpacy1 : PAcy g st1 := fun x hx => hpacy x (hp1_to x hx)
    have hspop1 : SccsPopped st1 := fun s hs x hx => hp1_of x (hspop s hs x hx)
    have Hwalk : ∀ s2 ∈ (scDeps (strongConnect g fuel) g id (g.succs id) st1).sccs,
        s2 ∈ st1.sccs ∨ sccIsCycle g s2 = false := by
      intro s2 hs2
      apply H
      by_cases hc : (alLookup (scDeps (strongConnect g fuel) g id (g.succs id)
          st1).lowlink id).getD 0 = (alLookup (scDeps (strongConnect g fuel) g id
          (g.succs id) st1).indices id).getD 0
      · rw [if_pos hc]
        cases hp : popScc id (scDeps (strongConnect g fuel) g id (g.succs id)
            st1).stack with
        | mk scc rest0 =>
          try dsimp only
          exact List.mem_append_left _ hs2
      · rw [if_neg hc]
        exact hs2
    have hidx1 : alLookup st1.indices id = some st.index :=
      alLookup_alInsert_self _ id st.index
    have huv1 : uvT g st1 < fuel := by
      have hdrop : uvT g st1 < uvT g st := by
        refine uvT_drop hidn hid ?_ ?_
        · rw [hidx1]
          rfl
        · intro k hk
          have hkid : k ≠ id := by
            intro he
            rw [he, hid] at hk
            exact absurd hk (by simp)
          rw [show alLookup st1.indices k =
            alLookup (alInsert st.indices id st.index) k from rfl,
            alLookup_alInsert_ne _ st.index hkid]
          exact hk
      exact Nat.lt_of_lt_of_le hdrop (Nat.lt_succ_iff.mp huv)
    have wpost := tarjan_triv_deps g fuel
      (fun i s a1 a2 a3 a4 a5 a6 a7 a8 =>
        tarjan_triv_visit g fuel i s a1 a2 a3 a4 a5 a6 a7 a8)
      (g.succs id) id st.index st.stack st1 huv1 hidn (fun d hd => hd)
      hidx1 hidstk
      (by
        intro w hw
        obtain ⟨j, hj, hjl⟩ := hinv.stk_idx w hw
        have hwid : w ≠ id := fun he => hidstk (he ▸ hw)
        exact ⟨j, by
          rw [show alLookup st1.indices w =
            alLookup (alInsert st.indices id st.index) w from rfl,
            alLookup_alInsert_ne _ st.index hwid]
          exact hj, hjl⟩)
      ⟨[], rfl, by simp⟩
      hinv1 hpinv1 hpacy1 hspop1
      (Or.inl (alLookup_alInsert_self _ id st.index))
      Hwalk
    -- facts composed through the push
    have hsome1 : ∀ k, (alLookup st.indices k).isSome = true →
        (alLookup st1.indices k).isSome = true := by
      intro k hk
      have hkid : k ≠ id := by
        intro he
        rw [he, hid] at hk
        exact absurd hk (by simp)
      rw [show alLookup st1.indices k =
        alLookup (alInsert st.indices id st.index) k from rfl,
        alLookup_alInsert_ne _ st.index hkid]
      exact hk
    have hidxP : ∀ k, (alLookup st.indices k).isSome = true →
        alLookup (scDeps (strongConnect g fuel) g id (g.succs id) st1).indices k =
        alLookup st.indices k := by
      intro k hk
      have hkid : k ≠ id := by
        intro he
        rw [he, hid] at hk
        exact absurd hk (by simp)
      rw [wpost.idx_pres k (hsome1 k hk)]
      show alLookup (alInsert st.indices id st.index) k = alLookup st.indices k
      exact alLookup_alInsert_ne _ st.index hkid
    have hlowP : ∀ k, (alLookup st.indices k).isSome = true → k ≠ id →
        alLookup (scDeps (strongConnect g fuel) g id (g.succs id) st1).lowlink k =
        alLookup st.lowlink k := by
      intro k hk hkid
      rw [wpost.low_pres k (hsome1 k hk) hkid]
      show alLookup (alInsert st.lowlink id st.index) k = alLookup st.lowlink k
      exact alLookup_alInsert_ne _ st.index hkid
    have hctr : st.index <
        (scDeps (strongConnect g fuel) g id (g.succs id) st1).index :=
      Nat.lt_of_lt_of_le (Nat.lt_succ_self st.index) wpost.ctr_le
    have hixn : ∀ k j,
        alLookup (scDeps (strongConnect g fuel) g id (g.succs id) st1).indices k =
          some j →
        alLookup st.indices k = some j ∨ st.index ≤ j := by
      intro k j hj
      rcases wpost.idx_new k j hj with h1 | h1
      · by_cases hkid : k = id
        · subst hkid
          rw [show alLookup st1.indices k =
            alLookup (alInsert st.indices k st.index) k from rfl,
            alLookup_alInsert_self _ k st.index] at h1
          exact Or.inr (Nat.le_of_eq (Option.some_inj.mp h1))
        · rw [show alLookup st1.indices k =
            alLookup (alInsert st.indices id st.index) k from rfl,
            alLookup_alInsert_ne _ st.index hkid] at h1
          exact Or.inl h1
      · exact Or.inr (Nat.le_trans (Nat.le_succ st.index) h1)
    have hsccsE : ∃ ext,
        (scDeps (strongConnect g fuel) g id (g.succs id) st1).sccs =
        st.sccs ++ ext := wpost.sccs_ext
    obtain ⟨left2, hsl2, hlb2⟩ := wpost.stack_left
    rcases wpost.winv with hwl | ⟨j, w, hj, hjlt, hwb, hwidx⟩
    · -- lowlink[id] = index[id]: the node pops its own singleton
      set st2 := scDeps (strongConnect g fuel) g id (g.succs id) st1 with hst2
      have hidnl2 : id ∉ left2 := by
        intro hm
        obtain ⟨j2, hj2, hjgt⟩ := hlb2 id hm
        rw [wpost.idx_id] at hj2
        exact absurd ((Option.some_inj.mp hj2) ▸ hjgt) (Nat.lt_irrefl _)
      have hifred : (if (alLookup st2.lowlink id).getD 0 =
            (alLookup st2.indices id).getD 0 then
          match popScc id st2.stack with
          | (scc, rest) =>
            { st2 with stack := rest, onStack := st2.onStack.filter (fun w => !scc.contains w), sccs := st2.sccs ++ [scc] }
          else st2) =
          { st2 with stack := st.stack, onStack := st2.onStack.filter (fun w2 => !((left2 ++ [id]).contains w2)), sccs := st2.sccs ++ [left2 ++ [id]] } := by
        rw [hwl, wpost.idx_id]
        simp only [Option.getD_some, if_true]
        rw [hsl2, popScc_spec id left2 st.stack hidnl2]
      rw [hifred] at H ⊢
      have HG := H (left2 ++ [id]) (by
        show left2 ++ [id] ∈ st2.sccs ++ [left2 ++ [id]]
        exact List.mem_append_right _ (List.mem_singleton.mpr rfl))
      have hGtriv : sccIsCycle g (left2 ++ [id]) = false := by
        rcases HG with hG | hG
        · obtain ⟨h1, _⟩ := hspop (left2 ++ [id]) hG id
            (List.mem_append_right _ (List.mem_singleton.mpr rfl))
          rw [hid] at h1
          exact absurd h1 (by simp)
        · exact hG
      have hl2nil : left2 = [] := by
        cases hq : left2 with
        | nil => rfl
        | cons a t =>
          rw [hq] at hGtriv
          cases hq2 : t ++ [id] with
          | nil => exact absurd hq2 (by simp)
          | cons b t2 =>
            rw [show (a :: t) ++ [id] = a :: b :: t2 by
              rw [List.cons_append, hq2]] at hGtriv
            exact absurd hGtriv (by simp [sccIsCycle])
      subst hl2nil
      simp only [List.nil_append] at H hsl2 hGtriv ⊢
      have hnoself : (g.succs id).contains id = false := hGtriv
      have hson2 : ∀ x, x ∈ st2.onStack ↔ x = id ∨ x ∈ st.stack := by
        intro x
        constructor
        · intro hx
          have hx2 := (wpost.inv.so x).mpr hx
          rw [hsl2] at hx2
          exact List.mem_cons.mp hx2
        · intro hx
          apply (wpost.inv.so x).mp
          rw [hsl2]
          exact List.mem_cons.mpr hx
      have hRon : ∀ x, x ∈ st2.onStack.filter
          (fun w2 => !(([id] : List String).contains w2)) ↔ x ∈ st.stack := by
        intro x
        rw [List.mem_filter]
        constructor
        · rintro ⟨hx1, hx2⟩
          have hxid : ¬ x = id := by simpa using hx2
          rcases (hson2 x).mp hx1 with he | hm
          · exact absurd he hxid
          · exact hm
        · intro hx
          have hxid : x ≠ id := fun he => hidstk (he ▸ hx)
          exact ⟨(hson2 x).mpr (Or.inr hx), by simpa using hxid⟩
      have hPop2R : ∀ x, Popped st2 x →
          Popped { st2 with stack := st.stack, onStack := st2.onStack.filter (fun w2 => !(([id] : List String).contains w2)), sccs := st2.sccs ++ [[id]] } x := by
        rintro x ⟨h1, h2⟩
        exact ⟨h1, fun hm => h2 (List.mem_filter.mp hm).1⟩
      have hPRid : Popped { st2 with stack := st.stack, onStack := st2.onStack.filter (fun w2 => !(([id] : List String).contains w2)), sccs := st2.sccs ++ [[id]] } id :=
        ⟨by
          show (alLookup st2.indices id).isSome = true
          rw [wpost.idx_id]
          rfl,
         fun hm => hidstk ((hRon id).mp hm)⟩
      have hR2 : ∀ x, x ≠ id → Popped { st2 with stack := st.stack, onStack := st2.onStack.filter (fun w2 => !(([id] : List String).contains w2)), sccs := st2.sccs ++ [[id]] } x → Popped st2 x := by
        rintro x hxid ⟨h1, h2⟩
        refine ⟨h1, ?_⟩
        intro hm
        exact h2 (List.mem_filter.mpr ⟨hm, by simpa using hxid⟩)
      have hsucc : ∀ d, d ∈ g.succs id → g.hasNode d = true →
          Popped { st2 with stack := st.stack, onStack := st2.onStack.filter (fun w2 => !(([id] : List String).contains w2)), sccs := st2.sccs ++ [[id]] } d := by
        intro d hd hnd
        obtain ⟨hdi, hdrop⟩ := wpost.df d hd hnd
        refine ⟨hdi, ?_⟩
        intro hm
        have hdstk : d ∈ st.stack := (hRon d).mp hm
        obtain ⟨j2, hj2, hjlt2⟩ := hdrop hdstk
        rw [hwl] at hj2
        exact absurd ((Option.some_inj.mp hj2) ▸ hjlt2) (Nat.lt_irrefl _)
      have hPinvR : PInv g { st2 with stack := st.stack, onStack := st2.onStack.filter (fun w2 => !(([id] : List String).contains w2)), sccs := st2.sccs ++ [[id]] } := by
        intro b hb dep hd
        by_cases hbid : b = id
        · subst hbid
          exact hsucc dep hd.2.2 hd.2.1
        · exact hPop2R dep (wpost.pinv b (hR2 b hbid hb) dep hd)
      have hnoedge : ∀ y, Popped { st2 with stack := st.stack, onStack := st2.onStack.filter (fun w2 => !(([id] : List String).contains w2)), sccs := st2.sccs ++ [[id]] } y → ¬ edgeOK g y id := by
        intro y hy hedge
        by_cases hyid : y = id
        · subst hyid
          have hc : (g.succs y).contains y = true := by
            simpa [List.contains] using List.elem_iff.mpr hedge.2.2
          rw [hnoself] at hc
          exact absurd hc (by simp)
        · have hy2 := wpost.pinv y (hR2 y hyid hy) id hedge
          exact hy2.2 ((hson2 id).mpr (Or.inl rfl))
      have hPacyR : PAcy g { st2 with stack := st.stack, onStack := st2.onStack.filter (fun w2 => !(([id] : List String).contains w2)), sccs := st2.sccs ++ [[id]] } := by
        intro x hx hcyc
        by_cases hxid : x = id
        · subst hxid
          obtain ⟨y, hxy, hyx⟩ := Relation.TransGen.tail'_iff.mp hcyc
          exact hnoedge y (popped_rtg hPinvR hPRid hxy) hyx
        · exact wpost.pacy x (hR2 x hxid hx) hcyc
      have hSpopR : SccsPopped { st2 with stack := st.stack, onStack := st2.onStack.filter (fun w2 => !(([id] : List String).contains w2)), sccs := st2.sccs ++ [[id]] } := by
        intro s hs x hx
        rcases List.mem_append.mp hs with h | h
        · exact hPop2R x (wpost.spop s h x hx)
        · rw [List.mem_singleton.mp h] at hx
          rw [List.mem_singleton.mp hx]
          exact hPRid
      have hinvR : TInv g { st2 with stack := st.stack, onStack := st2.onStack.filter (fun w2 => !(([id] : List String).contains w2)), sccs := st2.sccs ++ [[id]] } := by
        refine ⟨?_, ?_, ?_, ?_, ?_, ?_⟩
        · intro x
          show x ∈ st.stack ↔ _
          exact (hRon x).symm
        · exact hinv.nd
        · intro w2 hw2
          refine wpost.inv.stk_idx w2 ?_
          rw [hsl2]
          exact List.mem_cons_of_mem id hw2
        · exact wpost.inv.idx_lt
        · have hs := wpost.inv.sorted
          rw [hsl2] at hs
          exact (List.pairwise_cons.mp hs).2
        · intro w2 hw2
          refine wpost.inv.stk_node w2 ?_
          rw [hsl2]
          exact List.mem_cons_of_mem id hw2
      refine ⟨wpost.idx_id, hidxP, hlowP, hctr, hixn, ⟨[], rfl, by simp⟩,
        ?_, hinvR, hPinvR, hPacyR, hSpopR, ?_, Or.inl ⟨rfl, hPRid, hwl⟩⟩
      · obtain ⟨ext, hext⟩ := hsccsE
        refine ⟨ext ++ [[id]], ?_⟩
        show st2.sccs ++ [[id]] = st.sccs ++ (ext ++ [[id]])
        rw [hext, List.append_assoc]
      · intro x hx
        exact hPop2R x (wpost.pmono x (hp1_of x hx))
    · -- lowlink was lowered below the entry index: no pop happens
      have hifred : (if (alLookup (scDeps (strongConnect g fuel) g id (g.succs id)
            st1).lowlink id).getD 0 = (alLookup (scDeps (strongConnect g fuel) g id
            (g.succs id) st1).indices id).getD 0 then
          match popScc id (scDeps (strongConnect g fuel) g id (g.succs id)
              st1).stack with
          | (scc, rest) =>
            { scDeps (strongConnect g fuel) g id (g.succs id) st1 with
              stack := rest,
              onStack := (scDeps (strongConnect g fuel) g id (g.succs id)
                st1).onStack.filter (fun w => !scc.contains w),
              sccs := (scDeps (strongConnect g fuel) g id (g.succs id) st1).sccs
                ++ [scc] }
          else scDeps (strongConnect g fuel) g id (g.succs id) st1) =
          scDeps (strongConnect g fuel) g id (g.succs id) st1 := by
        rw [hj, wpost.idx_id]
        simp only [Option.getD_some]
        rw [if_neg (Nat.ne_of_lt hjlt)]
      rw [hifred]
      have hwst : alLookup st.indices w = some j := by
        obtain ⟨j0, hj0, _⟩ := hinv.stk_idx w hwb
        have h2 : alLookup (scDeps (strongConnect g fuel) g id (g.succs id)
            st1).indices w = some j0 := by
          rw [hidxP w (by rw [hj0]; rfl)]
          exact hj0
        rw [hwidx] at h2
        have hjj : j = j0 := Option.some_inj.mp h2
        rw [hjj]
        exact hj0
      refine ⟨wpost.idx_id, hidxP, hlowP, hctr, hixn, ?_, hsccsE, wpost.inv,
        wpost.pinv, wpost.pacy, wpost.spop,
        (fun x hx => wpost.pmono x (hp1_of x hx)), ?_⟩
      · refine ⟨left2 ++ [id], ?_, ?_⟩
        · rw [hsl2, List.append_assoc]
          rfl
        · intro w2 hw2
          rcases List.mem_append.mp hw2 with h | h
          · obtain ⟨j2, hj2, hjgt⟩ := hlb2 w2 h
            exact ⟨j2, hj2, Nat.le_of_lt hjgt⟩
          · rw [List.mem_singleton.mp h]
            exact ⟨st.index, wpost.idx_id, Nat.le_refl _⟩
      · exact Or.inr ⟨j, w, hj, hjlt, hwb, hwst⟩

theorem tarjan_triv_loop (g : Graph) :
    ∀ (keys : List String) (st : TarSt),
      (∀ k ∈ keys, g.hasNode k = true) →
      st.stack = [] → TInv g st → PInv g st → PAcy g st → SccsPopped st →
      (∀ s ∈ (detectLoop g keys st).sccs, s ∈ st.sccs ∨ sccIsCycle g s = false) →
      PAcy g (detectLoop g keys st) ∧
      (∀ x, Popped st x → Popped (detectLoop g keys st) x) ∧
      (∀ k ∈ keys, Popped (detectLoop g keys st) k)
  | [], st => by
    intro _ _ _ _ hpacy _ _
    exact ⟨hpacy, fun x hx => hx, by simp⟩
  | id :: rest, st => by
    intro hkn hstk hinv hpinv hpacy hspop H
    simp only [detectLoop] at H ⊢
    cases hl : alLookup st.indices id with
    | some j =>
      rw [hl] at H
      have hpop_id : Popped st id := by
        refine ⟨by rw [hl]; rfl, ?_⟩
        intro hm
        have := (hinv.so id).mpr hm
        rw [hstk] at this
        exact absurd this (List.not_mem_nil id)
      have rec := tarjan_triv_loop g rest st
        (fun k hk => hkn k (List.mem_cons_of_mem id hk)) hstk hinv hpinv hpacy
        hspop H
      exact ⟨rec.1, rec.2.1, by
        intro k hk
        rcases List.mem_cons.mp hk with he | hm
        · exact he ▸ rec.2.1 id hpop_id
        · exact rec.2.2 k hm⟩
    | none =>
      rw [hl] at H
      have Hvisit : ∀ s2 ∈ (strongConnect g (g.keys.length + 1) id st).sccs,
          s2 ∈ st.sccs ∨ sccIsCycle g s2 = false := by
        intro s2 hs2
        obtain ⟨e2, he2⟩ := sccs_prefix_detectLoop g rest
          (strongConnect g (g.keys.length + 1) id st)
        exact H s2 (by rw [he2]; exact List.mem_append_left e2 hs2)
      have dpost := tarjan_triv_visit g (g.keys.length + 1) id st
        (Nat.lt_succ_of_le (uvT_le_keys g st)) (hkn id (List.mem_cons_self id rest))
        hl hinv hpinv hpacy hspop Hvisit
      rcases dpost.dich with ⟨hstka, hpopa, _⟩ | ⟨j, w, _, _, hwstk, _⟩
      · have rec := tarjan_triv_loop g rest
          (strongConnect g (g.keys.length + 1) id st)
          (fun k hk => hkn k (List.mem_cons_of_mem id hk))
          (hstka.trans hstk) dpost.inv dpost.pinv dpost.pacy dpost.spop
          (by
            intro s hs
            rcases H s hs with h | h
            · left
              obtain ⟨ext, hext⟩ := dpost.sccs_ext
              rw [hext]
              exact List.mem_append_left ext h
            · exact Or.inr h)
        refine ⟨rec.1, fun x hx => rec.2.1 x (dpost.pmono x hx), ?_⟩
        intro k hk
        rcases List.mem_cons.mp hk with he | hm
        · exact he ▸ rec.2.1 id hpopa
        · exact rec.2.2 k hm
      · rw [hstk] at hwstk
        exact absurd hwstk (List.not_mem_nil w)

theorem acyclic_of_detectCycles_nil {g : Graph} (h : g.detectCycles = []) :
    ¬ cyclicG g := by
  rintro ⟨x, hx⟩
  have hxn : g.hasNode x = true := by
    obtain ⟨y, hxy, _⟩ := Relation.TransGen.head'_iff.mp hx
    exact hxy.1
  unfold Graph.detectCycles at h
  have htriv : ∀ s ∈ (detectLoop g g.keys ⟨0, [], [], [], [], []⟩).sccs,
      sccIsCycle g s = false := by
    intro s hs
    have := List.filter_eq_nil_iff.mp h s hs
    simpa using this
  have hinv0 : TInv g ⟨0, [], [], [], [], []⟩ := by
    refine ⟨?_, ?_, ?_, ?_, ?_, ?_⟩
    · intro x2
      exact Iff.rfl
    · exact List.nodup_nil
    · intro w hw
      exact absurd hw (List.not_mem_nil w)
    · intro k j hj
      exact absurd hj (by simp [alLookup])
    · exact List.Pairwise.nil
    · intro w hw
      exact absurd hw (List.not_mem_nil w)
  have hpinv0 : PInv g ⟨0, [], [], [], [], []⟩ := by
    rintro b ⟨h1, _⟩ dep _
    rw [show alLookup (⟨0, [], [], [], [], []⟩ : TarSt).indices b = none
      from rfl] at h1
    exact absurd h1 (by simp)
  have hpacy0 : PAcy g ⟨0, [], [], [], [], []⟩ := by
    rintro b ⟨h1, _⟩ _
    rw [show alLookup (⟨0, [], [], [], [], []⟩ : TarSt).indices b = none
      from rfl] at h1
    exact absurd h1 (by simp)
  have hspop0 : SccsPopped ⟨0, [], [], [], [], []⟩ := by
    intro s hs
    exact absurd hs (List.not_mem_nil s)
  obtain ⟨hacyF, _, hkeysF⟩ := tarjan_triv_loop g g.keys ⟨0, [], [], [], [], []⟩
    (fun k hk => hasNode_of_mem_keys hk) rfl hinv0 hpinv0 hpacy0 hspop0
    (fun s hs => Or.inr (htriv s hs))
  exact hacyF x (hkeysF x (mem_keys_of_hasNode hxn)) hx

theorem cyclicG_iff_sccSpec (g : Graph) : cyclicG g ↔ sccSpecCycle g := by
  constructor
  · rintro ⟨x, hx⟩
    obtain ⟨y, hxy, hyx⟩ := Relation.TransGen.head'_iff.mp hx
    by_cases hexy : x = y
    · exact Or.inr ⟨x, hexy ▸ hxy⟩
    · exact Or.inl ⟨x, y, hexy, Relation.ReflTransGen.single hxy, hyx⟩
  · rintro (⟨a, b, hne, hab, hba⟩ | ⟨a, ha⟩)
    · rcases (Relation.reflTransGen_iff_eq_or_transGen.mp hab) with he | ht
      · exact absurd he.symm hne
      · exact ⟨a, Relation.TransGen.trans_left ht hba⟩
    · exact ⟨a, Relation.TransGen.single ha⟩

/-- C8: For every graph, the white-gray DFS HasCycle returns true exactly
when the graph, restricted to edges whose endpoints exist, has a
strongly-connected component with more than one member (two distinct
mutually reachable nodes) or a node with a self-loop; equivalently,
HasCycle returns true exactly when the Tarjan-based DetectCycles returns
a non-empty list. -/
theorem hasCycle_iff_detectCycles (g : Graph) :
    (g.hasCycle = true ↔ sccSpecCycle g) ∧
    (g.hasCycle = true ↔ g.detectCycles ≠ []) := by
  have h1 : g.hasCycle = true ↔ cyclicG g := by
    constructor
    · exact hasCycle_sound
    · intro hc
      cases hq : g.hasCycle with
      | true => rfl
      | false => exact absurd hc (hasCycle_complete hq)
  constructor
  · exact h1.trans (cyclicG_iff_sccSpec g)
  · rw [h1]
    constructor
    · intro hc hnil
      exact acyclic_of_detectCycles_nil hnil hc
    · intro hne
      by_contra hnc
      exact hne (detectCycles_nil_of_acyclic hnc)

end Needle
